import Mathlib

/-!
# Spectrum engine (`src/spectrum.go`): embedding and verified properties

Number model.  A Go `float64` is modelled by `F64`: an exact rational, or one
of the IEEE special values `NaN`, `+Inf`, `-Inf`.  Rounding is not modelled and
the two zeros are identified.  The transcendental library functions are
uninterpreted on finite positive arguments (`Libm`); their special cases follow
the Go `math` package.  A Go `int` is a 64-bit two's-complement integer: values
are `Int`, and arithmetic on cut indices wraps with `wrap64`.

Slices are lists; an access outside the bounds is a run-time panic, modelled by
`none`.
-/

namespace Tavis

/-! ## Floating-point values -/

/-- Values of Go's `float64`, without rounding. -/
inductive F64 where
  | nan
  | ninf
  | pinf
  | fin (q : ℚ)
  deriving DecidableEq

namespace F64

/-- Unary minus. -/
def neg : F64 → F64
  | nan => nan
  | ninf => pinf
  | pinf => ninf
  | fin q => fin (-q)

/-- Go `x + y`. -/
def add : F64 → F64 → F64
  | nan, _ => nan
  | _, nan => nan
  | pinf, ninf => nan
  | ninf, pinf => nan
  | pinf, _ => pinf
  | _, pinf => pinf
  | ninf, _ => ninf
  | _, ninf => ninf
  | fin a, fin b => fin (a + b)

/-- Go `x - y`. -/
def sub (x y : F64) : F64 := add x (neg y)

/-- Multiplication of an infinity by a finite factor `q`; `pos` is the sign of the infinity. -/
def infTimes (pos : Bool) (q : ℚ) : F64 :=
  if q = 0 then nan else if (0 < q) = pos then pinf else ninf

/-- Go `x * y`. -/
def mul : F64 → F64 → F64
  | nan, _ => nan
  | _, nan => nan
  | pinf, pinf => pinf
  | ninf, ninf => pinf
  | pinf, ninf => ninf
  | ninf, pinf => ninf
  | pinf, fin q => infTimes true q
  | fin q, pinf => infTimes true q
  | ninf, fin q => infTimes false q
  | fin q, ninf => infTimes false q
  | fin a, fin b => fin (a * b)

/-- Go `x / y`.  A zero divisor is the positive zero. -/
def div : F64 → F64 → F64
  | nan, _ => nan
  | _, nan => nan
  | pinf, pinf => nan
  | pinf, ninf => nan
  | ninf, pinf => nan
  | ninf, ninf => nan
  | pinf, fin q => if q < 0 then ninf else pinf
  | ninf, fin q => if q < 0 then pinf else ninf
  | fin _, pinf => fin 0
  | fin _, ninf => fin 0
  | fin a, fin b =>
    if b = 0 then (if a = 0 then nan else if 0 < a then pinf else ninf) else fin (a / b)

/-- Go `x < y`: false as soon as one side is NaN. -/
def lt : F64 → F64 → Bool
  | nan, _ => false
  | _, nan => false
  | _, ninf => false
  | ninf, _ => true
  | pinf, _ => false
  | fin _, pinf => true
  | fin a, fin b => decide (a < b)

/-- Go `x > y`. -/
def gt (x y : F64) : Bool := lt y x

/-- Go `math.Max`. -/
def max (x y : F64) : F64 :=
  if x = pinf ∨ y = pinf then pinf
  else if x = nan ∨ y = nan then nan
  else if gt x y then x else y

/-- Go `math.Min`. -/
def min (x y : F64) : F64 :=
  if x = ninf ∨ y = ninf then ninf
  else if x = nan ∨ y = nan then nan
  else if lt x y then x else y

/-- Go `math.Abs`. -/
def abs : F64 → F64
  | nan => nan
  | ninf => pinf
  | pinf => pinf
  | fin q => fin |q|

/-- Go `math.Floor`. -/
def floor : F64 → F64
  | fin q => fin (⌊q⌋ : Int)
  | x => x

/-- Go `float64(n)` for an `int` n. -/
def ofInt (n : Int) : F64 := fin n

end F64

/-- Wrap an integer to the 64-bit two's-complement range. -/
def wrap64 (n : Int) : Int := (n + 2 ^ 63) % 2 ^ 64 - 2 ^ 63

/-- Go `int(x)` for a float64 `x`: truncation toward zero; outside the `int`
range (and for NaN) the amd64 result, the smallest `int`. -/
def F64.toInt : F64 → Int
  | F64.fin q =>
    let t : Int := if 0 ≤ q then ⌊q⌋ else ⌈q⌉
    if -(2 ^ 63) ≤ t ∧ t < 2 ^ 63 then t else -(2 ^ 63)
  | _ => -(2 ^ 63)

/-- Finite part of the library functions `math.Sqrt`, `math.Log2`, `math.Log10`
and `math.Pow` (positive base, non-integer exponent), as computed by the machine. -/
structure Libm where
  root : ℚ → ℚ
  log2 : ℚ → ℚ
  log10 : ℚ → ℚ
  pow : ℚ → ℚ → ℚ

namespace Libm

/-- Go `math.Sqrt`. -/
def Sqrt (L : Libm) : F64 → F64
  | F64.nan => F64.nan
  | F64.ninf => F64.nan
  | F64.pinf => F64.pinf
  | F64.fin q => if q < 0 then F64.nan else if q = 0 then F64.fin 0 else F64.fin (L.root q)

/-- Go `math.Log2`. -/
def Log2 (L : Libm) : F64 → F64
  | F64.nan => F64.nan
  | F64.ninf => F64.nan
  | F64.pinf => F64.pinf
  | F64.fin q => if q < 0 then F64.nan else if q = 0 then F64.ninf else F64.fin (L.log2 q)

/-- Go `math.Log10`. -/
def Log10 (L : Libm) : F64 → F64
  | F64.nan => F64.nan
  | F64.ninf => F64.nan
  | F64.pinf => F64.pinf
  | F64.fin q => if q < 0 then F64.nan else if q = 0 then F64.ninf else F64.fin (L.log10 q)

/-- Go `math.Pow(x, y)`, after its first cases `y == 0 || x == 1`, `y == 1` and NaN. -/
def powCases (L : Libm) : F64 → F64 → F64
  | F64.nan, _ => F64.nan
  | _, F64.nan => F64.nan
  | F64.fin x, F64.pinf =>
    if x = 0 then F64.fin 0 else if x = -1 then F64.fin 1
    else if |x| < 1 then F64.fin 0 else F64.pinf
  | F64.fin x, F64.ninf =>
    if x = 0 then F64.pinf else if x = -1 then F64.fin 1
    else if |x| < 1 then F64.pinf else F64.fin 0
  | F64.pinf, F64.pinf => F64.pinf
  | F64.ninf, F64.pinf => F64.pinf
  | F64.pinf, F64.ninf => F64.fin 0
  | F64.ninf, F64.ninf => F64.fin 0
  | F64.pinf, F64.fin y => if y < 0 then F64.fin 0 else F64.pinf
  | F64.ninf, F64.fin y =>
    if y < 0 then F64.fin 0
    else if y.den = 1 ∧ y.num % 2 = 1 then F64.ninf else F64.pinf
  | F64.fin x, F64.fin y =>
    if x = 0 then (if y < 0 then F64.pinf else F64.fin 0)
    else if y = 1 / 2 then L.Sqrt (F64.fin x)
    else if y = -(1 / 2) then F64.div (F64.fin 1) (L.Sqrt (F64.fin x))
    else if y.den = 1 then F64.fin (x ^ y.num)
    else if x < 0 then F64.nan
    else F64.fin (L.pow x y)

/-- Go `math.Pow(x, y)`. -/
def Pow (L : Libm) (x y : F64) : F64 :=
  if y = F64.fin 0 ∨ x = F64.fin 1 then F64.fin 1
  else if y = F64.fin 1 then x
  else L.powCases x y

end Libm

/-! ## Slices -/

/-- Read `xs[i]`; `none` is the index-out-of-range panic. -/
def sliceGet {α : Type} (xs : List α) (i : Int) : Option α :=
  if 0 ≤ i then xs[i.toNat]? else none

/-- Write `xs[i] = v`; `none` is the index-out-of-range panic. -/
def sliceSet {α : Type} (xs : List α) (i : Int) (v : α) : Option (List α) :=
  if 0 ≤ i ∧ i.toNat < xs.length then some (xs.set i.toNat v) else none

/-- Counted loop `for i = start; ...; i++` running `n` iterations of `body`. -/
def loopFrom {σ : Type} (body : σ → Int → Option σ) : Nat → Int → σ → Option σ
  | 0, _, s => some s
  | n + 1, i, s => (body s i).bind (loopFrom body n (i + 1))

/-- Loop `for i = lo; i <= hi; i++`. -/
def forIncl {σ : Type} (lo hi : Int) (body : σ → Int → Option σ) (s : σ) : Option σ :=
  loopFrom body (hi + 1 - lo).toNat lo s

/-! ## Data model -/

/-- Go `complex128`. -/
structure Cmplx where
  re : F64
  im : F64
  deriving DecidableEq

/-- DataSet of `spectrum.go`; `W` is the type of a moving window. -/
structure DataSet (W : Type) where
  id : Int
  Data : List Cmplx
  Bins : List F64
  falloff : List F64
  peakHeight : F64
  slowWindow : W
  fastWindow : W

/-- Spectrum of `spectrum.go`. -/
structure Spectrum (W : Type) where
  maxBins : Int
  numBins : Int
  sampleSize : Int
  sampleRate : F64
  sampleDataSize : Int
  frameSize : Int
  DataBuf : List Cmplx
  workSets : List (DataSet W)
  mCatWeights : List F64
  loCuts : List Int
  hiCuts : List Int

/-- Constant `MaxBars`. -/
def MaxBars : Int := 1024

/-- Constant `ScalingSlowWindow`. -/
def ScalingSlowWindow : F64 := F64.fin 10

/-- Constant `ScalingFastWindow`. -/
def ScalingFastWindow : F64 := F64.mul ScalingSlowWindow (F64.fin (1 / 10))

/-- Constant `ScalingDumpPercent`. -/
def ScalingDumpPercent : F64 := F64.fin (3 / 4)

/-- Constant `ScalingResetDeviation`. -/
def ScalingResetDeviation : F64 := F64.fin 1

/-! ## Recalculate -/

/-- The value `int(math.Floor(vFreq))` that `Recalculate` first stores in `loCuts[xBin]`. -/
def rawCut (L : Libm) (sampleRate : F64) (sampleSize : Int) (bins : Int) (lo hi : F64)
    (xBin : Int) : Int :=
  let cBins := F64.ofInt (bins + 1)
  let cFreq := F64.div (L.Log10 (F64.div lo hi)) (F64.sub (F64.div (F64.fin 1) cBins) (F64.fin 1))
  let vFreq := F64.mul (F64.sub (F64.div (F64.ofInt (xBin + 1)) cBins) (F64.fin 1)) cFreq
  let vFreq := F64.mul hi (L.Pow (F64.fin 10) vFreq)
  let vFreq := F64.mul (F64.div vFreq (F64.div sampleRate (F64.fin 2)))
    (F64.div (F64.ofInt sampleSize) (F64.fin 4))
  F64.toInt (F64.floor vFreq)

/-- Body of the loop of `Recalculate` for one `xBin`; `raw` is `int(math.Floor(vFreq))`. -/
def recalcStep {W : Type} (raw : Int → Int) (s : Spectrum W) (xBin : Int) : Option (Spectrum W) := do
  let lo1 ← sliceSet s.loCuts xBin (raw xBin)
  if xBin > 0 then
    let cur ← sliceGet lo1 xBin
    let prev ← sliceGet lo1 (xBin - 1)
    let lo2 ← if cur ≤ prev then sliceSet lo1 xBin (wrap64 (prev + 1)) else some lo1
    let prev2 ← sliceGet lo2 (xBin - 1)
    let hi2 ← sliceSet s.hiCuts (xBin - 1) prev2
    some { s with loCuts := lo2, hiCuts := hi2 }
  else
    some { s with loCuts := lo1 }

/-- Method `Spectrum.Recalculate`: the new state and the returned bin count. -/
def Recalculate {W : Type} (L : Libm) (s : Spectrum W) (bins : Int) (lo hi : F64) :
    Option (Spectrum W × Int) :=
  let bins := if bins > s.maxBins then s.maxBins else bins
  let s1 := { s with numBins := bins }
  (forIncl 0 bins (recalcStep (rawCut L s.sampleRate s.sampleSize bins lo hi)) s1).map
    fun s2 => (s2, s2.numBins)

/-! ## Moving windows

The type `MovingWindow` is used by `spectrum.go` but its file is not among the
sources: the engine is parametric in it. -/

/-- Methods of `MovingWindow` that `spectrum.go` calls.  A window is held by
pointer: a mutating method returns the new window next to its results. -/
structure WindowOps (W : Type) where
  new : Int → W
  Update : W → F64 → W × F64 × F64
  Points : W → Int
  Capacity : W → Int
  Mean : W → F64
  Drop : W → Int → W
  Stats : W → F64 × F64

/-! ## Init -/

/-- Allocations of `Spectrum.Init`: the sets, their windows and the two cut tables. -/
def initAlloc {W : Type} (ops : WindowOps W) (s : Spectrum W) : Spectrum W :=
  let maxBins := MaxBars
  let slowMax := wrap64 (F64.toInt (F64.div (F64.mul ScalingSlowWindow s.sampleRate)
    (F64.ofInt s.sampleSize)) * 2)
  let fastMax := wrap64 (F64.toInt (F64.div (F64.mul ScalingFastWindow s.sampleRate)
    (F64.ofInt s.sampleSize)) * 2)
  let workSets := (List.range s.frameSize.toNat).map fun idx =>
    ({ id := (idx : Int)
       Data := List.replicate maxBins.toNat ⟨F64.fin 0, F64.fin 0⟩
       Bins := List.replicate maxBins.toNat (F64.fin 0)
       falloff := List.replicate maxBins.toNat (F64.fin 0)
       peakHeight := F64.fin 0
       slowWindow := ops.new slowMax
       fastWindow := ops.new fastMax } : DataSet W)
  { s with
    maxBins := maxBins
    workSets := workSets
    loCuts := List.replicate (maxBins + 1).toNat 0
    hiCuts := List.replicate (maxBins + 1).toNat 0 }

/-- Method `Spectrum.Init`; `make` panics on a negative length. -/
def Init {W : Type} (L : Libm) (ops : WindowOps W) (s : Spectrum W) : Option (Spectrum W) :=
  if s.frameSize < 0 then none
  else
    let s1 := initAlloc ops s
    (Recalculate L s1 s1.maxBins (F64.fin 20) (F64.div s1.sampleRate (F64.fin 2))).map Prod.fst

/-! ## Generate -/

/-- Function `pyt`. -/
def pyt (L : Libm) (value : Cmplx) : F64 :=
  L.Sqrt (F64.add (F64.mul value.re value.re) (F64.mul value.im value.im))

/-- Assignment `s.workSets[xSet].Bins[xBin] = v`. -/
def setBin {W : Type} (s : Spectrum W) (xSet xBin : Int) (v : F64) : Option (Spectrum W) := do
  let ds ← sliceGet s.workSets xSet
  let bins ← sliceSet ds.Bins xBin v
  let ws ← sliceSet s.workSets xSet { ds with Bins := bins }
  some { s with workSets := ws }

/-- Number of iterations of `for xFreq = lo; xFreq <= hi && xFreq < size; xFreq++`. -/
def freqCount (lo hi size : Int) : Nat := (min hi (size - 1) + 1 - lo).toNat

/-- One iteration of the inner loop of `Generate`: add `pyt` of one raw entry. -/
def sumStep {W : Type} (L : Libm) (s : Spectrum W) (xSet : Int) (vMag : F64) (xFreq : Int) :
    Option F64 :=
  (sliceGet s.DataBuf (wrap64 (xFreq + wrap64 (s.sampleDataSize * xSet)))).map
    fun v => F64.add vMag (pyt L v)

/-- Body of the loop of `Generate` over `xBin`, for the set `xSet`. -/
def genBin {W : Type} (L : Libm) (xSet : Int) (s : Spectrum W) (xBin : Int) :
    Option (Spectrum W) := do
  let vBoost := F64.mul (L.Log2 (F64.ofInt (2 + xBin)))
    (F64.div (F64.fin 100) (F64.ofInt s.numBins))
  let lo ← sliceGet s.loCuts xBin
  let hi ← sliceGet s.hiCuts xBin
  let vMag ← loopFrom (sumStep L s xSet) (freqCount lo hi s.sampleDataSize) lo (F64.fin 0)
  let vMag := F64.div vMag (F64.ofInt (wrap64 (wrap64 (hi - lo) + 1)))
  let vMag := F64.mul vMag vBoost
  setBin s xSet xBin (L.Pow vMag (F64.fin (1 / 2)))

/-- Method `Spectrum.Generate`. -/
def Generate {W : Type} (L : Libm) (s : Spectrum W) : Option (Spectrum W) :=
  forIncl 0 ((s.workSets.length : Int) - 1)
    (fun t xSet => forIncl 0 t.numBins (genBin L xSet) t) s

/-! ## Scale -/

/-- First loop of `Scale` on one set: the state is `(peakHeight, vSilent)`. -/
def peakStep (bins : List F64) (st : F64 × Bool) (xBin : Int) : Option (F64 × Bool) := do
  let v ← sliceGet bins xBin
  if F64.gt v (F64.fin 0) then
    some (if F64.lt st.1 v then v else st.1, false)
  else some st

/-- Second loop of `Scale` on one set: rescale `Bins[xBin]`. -/
def scaleStep (vMag cHeight : F64) (bins : List F64) (xBin : Int) : Option (List F64) := do
  let v ← sliceGet bins xBin
  let bins1 ← sliceSet bins xBin (F64.sub (F64.mul (F64.div v vMag) cHeight) (F64.fin 1))
  let v1 ← sliceGet bins1 xBin
  sliceSet bins1 xBin (F64.min (F64.sub cHeight (F64.fin 1)) v1)

/-- Window updates of `Scale` on one set with peak `peak`: the new fast and
slow windows and the divisor `vMag`. -/
def scaleWindows {W : Type} (ops : WindowOps W) (fast slow : W) (peak : F64) : W × W × F64 :=
  let fast1 := (ops.Update fast peak).1
  let r := ops.Update slow peak
  let slow1 := r.1
  let vMean := r.2.1
  let vSD := r.2.2
  let xBin := ops.Points slow1
  let reset : Bool := decide (xBin > ops.Capacity fast1) &&
    F64.gt (F64.abs (F64.sub (ops.Mean fast1) vMean)) (F64.mul ScalingResetDeviation vSD)
  let slow2 := if reset then
    ops.Drop slow1 (F64.toInt (F64.mul (F64.ofInt xBin) ScalingDumpPercent)) else slow1
  let stats := if reset then ops.Stats slow2 else (vMean, vSD)
  (fast1, slow2, F64.max (F64.add stats.1 (F64.mul (F64.fin 2) stats.2)) (F64.fin 1))

/-- Loop of `Scale` over the sets; a silent set returns from `Scale`, so the
sets after it are not visited. -/
def scaleSets {W : Type} (ops : WindowOps W) (numBins : Int) (cHeight : F64) :
    List (DataSet W) → Option (List (DataSet W))
  | [] => some []
  | vSet :: rest => do
    let st ← forIncl 0 numBins (peakStep vSet.Bins) (F64.fin (1 / 8), true)
    let vSet1 := { vSet with peakHeight := st.1 }
    if st.2 then
      some (vSet1 :: rest)
    else
      let w := scaleWindows ops vSet1.fastWindow vSet1.slowWindow vSet1.peakHeight
      let bins ← forIncl 0 numBins (scaleStep w.2.2 cHeight) vSet1.Bins
      let rest1 ← scaleSets ops numBins cHeight rest
      some ({ vSet1 with Bins := bins, fastWindow := w.1, slowWindow := w.2.1 } :: rest1)

/-- Method `Spectrum.Scale`. -/
def Scale {W : Type} (ops : WindowOps W) (s : Spectrum W) (height : Int) : Option (Spectrum W) :=
  (scaleSets ops s.numBins (F64.ofInt height) s.workSets).map
    fun ws => { s with workSets := ws }

/-! ## Monstercat -/

/-- Function `absInt`. -/
def absInt (value : Int) : F64 :=
  if value < 0 then F64.ofInt (-value) else F64.ofInt value

/-- Body of the inner loop of `Monstercat` (over `xPass`) for the bin `xBin`. -/
def mcatStep (L : Libm) (factor : F64) (xBin : Int) (bins : List F64) (xPass : Int) :
    Option (List F64) := do
  let v ← sliceGet bins xBin
  let tmp := F64.div v (L.Pow factor (absInt (xBin - xPass)))
  let cur ← sliceGet bins xBin
  if F64.gt tmp cur then sliceSet bins xBin tmp else some bins

/-- Loops of `Monstercat` on the bins of one set. -/
def mcatSet (L : Libm) (factor : F64) (numBins : Int) (bins : List F64) : Option (List F64) :=
  forIncl 1 numBins (fun b xBin => forIncl 0 numBins (mcatStep L factor xBin) b) bins

/-- Method `Spectrum.Monstercat`. -/
def Monstercat {W : Type} (L : Libm) (s : Spectrum W) (factor : F64) : Option (Spectrum W) :=
  (s.workSets.mapM fun vSet =>
    (mcatSet L factor s.numBins vSet.Bins).map fun b => { vSet with Bins := b }).map
    fun ws => { s with workSets := ws }

/-! ## Falloff -/

/-- Body of the loop of `Falloff` on one set. -/
def falloffStep {W : Type} (weight : F64) (vSet : DataSet W) (xBin : Int) :
    Option (DataSet W) := do
  let vMag ← sliceGet vSet.falloff xBin
  let vMag := F64.min (F64.mul vMag weight) (F64.sub vMag (F64.fin 1))
  let v ← sliceGet vSet.Bins xBin
  let vMag := F64.max vMag v
  let fo ← sliceSet vSet.falloff xBin vMag
  let bins ← sliceSet vSet.Bins xBin vMag
  some { vSet with falloff := fo, Bins := bins }

/-- Method `Spectrum.Falloff`. -/
def Falloff {W : Type} (s : Spectrum W) (weight : F64) : Option (Spectrum W) :=
  (s.workSets.mapM fun vSet => forIncl 0 s.numBins (falloffStep weight) vSet).map
    fun ws => { s with workSets := ws }

/-! ## Concrete instances, used to run the model on concrete inputs -/

/-- A coarse instance of the library: arguments and results are rounded down to
integers; it is exact on perfect squares and on powers of the base. -/
def coarseLibm : Libm where
  root := fun q => (Nat.sqrt ⌊q⌋.toNat : ℚ)
  log2 := fun q => (Nat.log 2 ⌊q⌋.toNat : ℚ)
  log10 := fun q => (Nat.log 10 ⌊q⌋.toNat : ℚ)
  pow := fun x y => x ^ ⌊y⌋

/-- Modelled from the spec: the type MovingWindow, whose source file is missing; a
window of at most `capacity` samples, oldest first. -/
structure MovingWindow where
  capacity : Int
  data : List F64

namespace MovingWindow

/-- Modelled from the spec: MovingWindow `Mean`, the arithmetic mean of the
stored samples, 0 on an empty window. -/
def Mean (w : MovingWindow) : F64 :=
  if w.data = [] then F64.fin 0
  else F64.div (w.data.foldl F64.add (F64.fin 0)) (F64.ofInt w.data.length)

/-- Modelled from the spec: MovingWindow `StdDev`, the population standard
deviation from the running sums, clamped at 0, and 0 on an empty window. -/
def StdDev (L : Libm) (w : MovingWindow) : F64 :=
  if w.data = [] then F64.fin 0
  else
    let n := F64.ofInt w.data.length
    let sq := (w.data.map fun x => F64.mul x x).foldl F64.add (F64.fin 0)
    let var := F64.sub (F64.div sq n) (F64.mul w.Mean w.Mean)
    if F64.lt var (F64.fin 0) then F64.fin 0 else L.Sqrt var

/-- Modelled from the spec: MovingWindow `Update`, which appends a sample and
evicts the oldest one when the window is over capacity. -/
def Update (w : MovingWindow) (x : F64) : MovingWindow :=
  let d := w.data ++ [x]
  { w with data := if (d.length : Int) > w.capacity then d.tail else d }

/-- Modelled from the spec: MovingWindow `Drop`, which evicts the oldest
`min(n, count)` samples. -/
def Drop (w : MovingWindow) (n : Int) : MovingWindow :=
  { w with data := w.data.drop n.toNat }

end MovingWindow

/-- Modelled from the spec: the methods of MovingWindow that the engine calls. -/
def specWindow (L : Libm) : WindowOps MovingWindow where
  new := fun size => { capacity := size, data := [] }
  Update := fun w x => let w1 := w.Update x; (w1, w1.Mean, w1.StdDev L)
  Points := fun w => w.data.length
  Capacity := fun w => w.capacity
  Mean := fun w => w.Mean
  Drop := fun w n => w.Drop n
  Stats := fun w => (w.Mean, w.StdDev L)

/-! ## Closed forms for the bins written by Generate -/

/-- Entry `Bins[b]` of the set `c`. -/
def binAt {W : Type} (s : Spectrum W) (c b : Int) : Option F64 :=
  (sliceGet s.workSets c).bind fun ds => sliceGet ds.Bins b

/-- Raw indices `i` with `lo ≤ i ≤ hi` and `i < size`, in increasing order. -/
def cutIndices (lo hi size : Int) : List Int :=
  (List.range (freqCount lo hi size)).map fun (k : Nat) => lo + (k : Int)

/-- Entry `DataBuf[c*sampleDataSize + i]`. -/
def rawAt {W : Type} (s : Spectrum W) (c i : Int) : Cmplx :=
  s.DataBuf.getD (c * s.sampleDataSize + i).toNat ⟨F64.fin 0, F64.fin 0⟩

/-- Sum of `sqrt(re^2 + im^2)` over the raw indices `idxs` of the channel `c`. -/
def magSum {W : Type} (L : Libm) (s : Spectrum W) (c : Int) (idxs : List Int) : F64 :=
  idxs.foldl (fun acc i => F64.add acc (pyt L (rawAt s c i))) (F64.fin 0)

/-- Boost factor `log2(2+b) * (100/numBins)`. -/
def boost {W : Type} (L : Libm) (s : Spectrum W) (b : Int) : F64 :=
  F64.mul (L.Log2 (F64.ofInt (2 + b))) (F64.div (F64.fin 100) (F64.ofInt s.numBins))

/-- Magnitude of the bin `b` of the channel `c` as the specification words it: the
sum over the cut range `[lo, hi]` below `sampleDataSize`, divided by the number of
indices summed, boosted, then square-rooted; an empty range gives the boosted,
undivided zero. -/
def claimedMagnitude {W : Type} (L : Libm) (s : Spectrum W) (c b lo hi : Int) : F64 :=
  let idxs := cutIndices lo hi s.sampleDataSize
  if idxs.length = 0 then L.Pow (F64.mul (F64.fin 0) (boost L s b)) (F64.fin (1 / 2))
  else L.Pow (F64.mul (F64.mul (F64.div (magSum L s c idxs) (F64.ofInt idxs.length))
    (L.Log2 (F64.ofInt (2 + b)))) (F64.div (F64.fin 100) (F64.ofInt s.numBins)))
    (F64.fin (1 / 2))

/-- Magnitude with the divisor of the code: the width `hi - lo + 1` of the cut
range, whether or not `sampleDataSize` cuts the sum short. -/
def widthMagnitude {W : Type} (L : Libm) (s : Spectrum W) (c b lo hi : Int) : F64 :=
  L.Pow (F64.mul (F64.div (magSum L s c (cutIndices lo hi s.sampleDataSize))
    (F64.ofInt (wrap64 (wrap64 (hi - lo) + 1)))) (boost L s b)) (F64.fin (1 / 2))

/-- States that differ from `s` in the contents of `Bins` only, as far as
`Generate` reads them. -/
def SameTables {W : Type} (s t : Spectrum W) : Prop :=
  t.loCuts = s.loCuts ∧ t.hiCuts = s.hiCuts ∧ t.numBins = s.numBins ∧
  t.sampleDataSize = s.sampleDataSize ∧ t.DataBuf = s.DataBuf ∧
  t.workSets.length = s.workSets.length

/-- Value that `Generate` stores in the bin `b` of the channel `c`. -/
def genValue {W : Type} (L : Libm) (s : Spectrum W) (c b : Int) : Option F64 :=
  (sliceGet s.loCuts b).bind fun lo => (sliceGet s.hiCuts b).bind fun hi =>
    some (widthMagnitude L s c b lo hi)

/-- Invariant of `Generate` before the bin `i` of the set `c`: the bins already
visited hold their value and no entry has appeared or vanished. -/
def GenInv {W : Type} (L : Libm) (s : Spectrum W) (c i : Int) (t : Spectrum W) : Prop :=
  SameTables s t ∧
  (∀ c' b', (0 ≤ c' ∧ c' < c ∧ 0 ≤ b' ∧ b' ≤ s.numBins) ∨ (c' = c ∧ 0 ≤ b' ∧ b' < i) →
    binAt t c' b' = genValue L s c' b') ∧
  (∀ c' b', (binAt t c' b').isSome = (binAt s c' b').isSome)

/-! ## Closed forms for Scale -/

/-- Value `min(height-1, (value/divisor)*height - 1)` that `Scale` gives a bin. -/
def scaledValue (vMag cHeight v : F64) : F64 :=
  F64.min (F64.sub cHeight (F64.fin 1)) (F64.sub (F64.mul (F64.div v vMag) cHeight) (F64.fin 1))

/-- Peak that the first loop of `Scale` finds in `bins[0..numBins]`, floor 0.125. -/
def framePeak (numBins : Int) (bins : List F64) : F64 :=
  ((forIncl 0 numBins (peakStep bins) (F64.fin (1 / 8), true)).getD (F64.fin (1 / 8), true)).1

/-- Divisor `max(mean + 2*sd, 1.0)` that `Scale` computes for the set `vSet`. -/
def frameDivisor {W : Type} (ops : WindowOps W) (numBins : Int) (vSet : DataSet W) : F64 :=
  (scaleWindows ops vSet.fastWindow vSet.slowWindow (framePeak numBins vSet.Bins)).2.2

/-- Scale called on `n` frames in a row. -/
def ScaleFrames {W : Type} (ops : WindowOps W) (height : Int) :
    Nat → Spectrum W → Option (Spectrum W)
  | 0, s => some s
  | n + 1, s => (Scale ops s height).bind (ScaleFrames ops height n)

/-! ## Closed form for Falloff -/

/-- Value `max(min(f*weight, f-1), v)` that `Falloff` stores for a bin with previous
falloff `f` and incoming value `v`. -/
def decayed (weight f v : F64) : F64 :=
  F64.max (F64.min (F64.mul f weight) (F64.sub f (F64.fin 1))) v

/-- Relation between a set before (`ds`) and after (`ds'`) the loop of `Falloff` has
visited its bins below `i`. -/
def FalloffInv {W : Type} (weight : F64) (ds : DataSet W) (i : Int) (ds' : DataSet W) : Prop :=
  ∀ j, (0 ≤ j ∧ j < i → ∀ f v, sliceGet ds.falloff j = some f → sliceGet ds.Bins j = some v →
      sliceGet ds'.falloff j = some (decayed weight f v) ∧
      sliceGet ds'.Bins j = some (decayed weight f v)) ∧
    (¬(0 ≤ j ∧ j < i) → sliceGet ds'.falloff j = sliceGet ds.falloff j ∧
      sliceGet ds'.Bins j = sliceGet ds.Bins j)

/-! ## Loop invariants and example states -/

/-- Invariant of the loop of `Recalculate` before the iteration `i`, for `B` bins. -/
def RecalcInv {W : Type} (s : Spectrum W) (B : Int) (i : Int) (t : Spectrum W) : Prop :=
  t.loCuts.length = s.loCuts.length ∧ t.hiCuts.length = s.hiCuts.length ∧ t.numBins = B ∧
  (∀ b, 1 ≤ b → b < i → ∃ x y, sliceGet t.loCuts (b - 1) = some x ∧
    sliceGet t.loCuts b = some y ∧ x < y) ∧
  (1 ≤ i → ∃ v, sliceGet t.loCuts (i - 1) = some v ∧ -(2 ^ 63) ≤ v ∧ v + (B - (i - 1)) < 2 ^ 63)

/-- A small engine: four bins at most, 48000 Hz, 800 frames per sample, no set yet. -/
def smallEngine : Spectrum MovingWindow where
  maxBins := 4
  numBins := 0
  sampleSize := 800
  sampleRate := F64.fin 48000
  sampleDataSize := 8
  frameSize := 2
  DataBuf := List.replicate 16 ⟨F64.fin 0, F64.fin 0⟩
  workSets := []
  mCatWeights := []
  loCuts := List.replicate 5 0
  hiCuts := List.replicate 5 0

/-- One channel, bins 0..2; the cut range of the last bin, `[2, 5]`, runs past the
three raw entries of the channel. -/
def truncEngine : Spectrum MovingWindow where
  maxBins := 4
  numBins := 2
  sampleSize := 800
  sampleRate := F64.fin 48000
  sampleDataSize := 3
  frameSize := 1
  DataBuf := [⟨F64.fin 0, F64.fin 0⟩, ⟨F64.fin 0, F64.fin 0⟩, ⟨F64.fin 4, F64.fin 0⟩]
  workSets := [{ id := 0, Data := [], Bins := List.replicate 4 (F64.fin 0),
                 falloff := List.replicate 4 (F64.fin 0), peakHeight := F64.fin 0,
                 slowWindow := ⟨4, []⟩, fastWindow := ⟨2, []⟩ }]
  mCatWeights := []
  loCuts := [0, 1, 2, 0, 0]
  hiCuts := [0, 1, 5, 0, 0]

/-- One channel with an all-zero frequency buffer, bins 0..2; `hiCuts[2]` is the
value an earlier `Recalculate` with more bins left there, one below `loCuts[2]`. -/
def staleEngine : Spectrum MovingWindow where
  maxBins := 4
  numBins := 2
  sampleSize := 800
  sampleRate := F64.fin 48000
  sampleDataSize := 8
  frameSize := 1
  DataBuf := List.replicate 8 ⟨F64.fin 0, F64.fin 0⟩
  workSets := [{ id := 0, Data := [], Bins := List.replicate 4 (F64.fin 0),
                 falloff := List.replicate 4 (F64.fin 0), peakHeight := F64.fin 0,
                 slowWindow := ⟨4, []⟩, fastWindow := ⟨2, []⟩ }]
  mCatWeights := []
  loCuts := [1, 2, 3, 0, 0]
  hiCuts := [1, 2, 2, 0, 0]

/-- Two channels, bins 0..3, empty window history: channel 0 holds a single peak
0.5 in bin 1, channel 1 a peak 0.25 in bin 2. -/
def peakEngine : Spectrum MovingWindow where
  maxBins := 4
  numBins := 3
  sampleSize := 800
  sampleRate := F64.fin 48000
  sampleDataSize := 8
  frameSize := 2
  DataBuf := List.replicate 16 ⟨F64.fin 0, F64.fin 0⟩
  workSets := [
    { id := 0, Data := [], Bins := [F64.fin 0, F64.fin (1 / 2), F64.fin 0, F64.fin 0, F64.fin 0],
      falloff := List.replicate 5 (F64.fin 0), peakHeight := F64.fin 0,
      slowWindow := ⟨4, []⟩, fastWindow := ⟨2, []⟩ },
    { id := 1, Data := [], Bins := [F64.fin 0, F64.fin 0, F64.fin (1 / 4), F64.fin 0, F64.fin 0],
      falloff := List.replicate 5 (F64.fin 0), peakHeight := F64.fin 0,
      slowWindow := ⟨4, []⟩, fastWindow := ⟨2, []⟩ }]
  mCatWeights := []
  loCuts := [1, 2, 3, 4, 5]
  hiCuts := [1, 2, 3, 4, 0]

/-- Two channels, bins 0..3, empty window history: channel 0 is silent, channel 1
holds 0.5 in bin 1 and 3 in bin 2. -/
def halfSilentEngine : Spectrum MovingWindow where
  maxBins := 4
  numBins := 3
  sampleSize := 800
  sampleRate := F64.fin 48000
  sampleDataSize := 8
  frameSize := 2
  DataBuf := List.replicate 16 ⟨F64.fin 0, F64.fin 0⟩
  workSets := [
    { id := 0, Data := [], Bins := List.replicate 5 (F64.fin 0),
      falloff := List.replicate 5 (F64.fin 0), peakHeight := F64.fin 0,
      slowWindow := ⟨4, []⟩, fastWindow := ⟨2, []⟩ },
    { id := 1, Data := [], Bins := [F64.fin 0, F64.fin (1 / 2), F64.fin 3, F64.fin 0, F64.fin 0],
      falloff := List.replicate 5 (F64.fin 0), peakHeight := F64.fin 0,
      slowWindow := ⟨4, []⟩, fastWindow := ⟨2, []⟩ }]
  mCatWeights := []
  loCuts := [1, 2, 3, 4, 5]
  hiCuts := [1, 2, 3, 4, 0]

/-- Two silent channels, bins 0..3, with some window history. -/
def silentEngine : Spectrum MovingWindow :=
  { halfSilentEngine with
    workSets := [
      { id := 0, Data := [], Bins := List.replicate 5 (F64.fin 0),
        falloff := List.replicate 5 (F64.fin 0), peakHeight := F64.fin 2,
        slowWindow := ⟨4, [F64.fin 2]⟩, fastWindow := ⟨2, [F64.fin 2]⟩ },
      { id := 1, Data := [], Bins := List.replicate 5 (F64.fin 0),
        falloff := List.replicate 5 (F64.fin 0), peakHeight := F64.fin 3,
        slowWindow := ⟨4, [F64.fin 3]⟩, fastWindow := ⟨2, [F64.fin 3]⟩ }] }

/-- One channel, bins 0..4 all 0 except bin 2 holding 5. -/
def spikeEngine : Spectrum MovingWindow :=
  { halfSilentEngine with
    numBins := 4
    frameSize := 1
    workSets := [
      { id := 0, Data := [],
        Bins := [F64.fin 0, F64.fin 0, F64.fin 5, F64.fin 0, F64.fin 0, F64.fin 0],
        falloff := List.replicate 6 (F64.fin 0), peakHeight := F64.fin 0,
        slowWindow := ⟨4, []⟩, fastWindow := ⟨2, []⟩ }] }

/-! ## Closed forms for the cut tables -/

/-- Frequency `vFreq` of the bin `xBin` after line 127 of `Recalculate`:
`hi * 10^(((xBin+1)/cBins - 1) * cFreq)` with `cBins = bins + 1` and
`cFreq = log10(lo/hi) / (1/cBins - 1)`. -/
def binFreq (L : Libm) (bins : Int) (lo hi : F64) (xBin : Int) : F64 :=
  F64.mul hi (L.Pow (F64.fin 10)
    (F64.mul (F64.sub (F64.div (F64.ofInt (xBin + 1)) (F64.ofInt (bins + 1))) (F64.fin 1))
      (F64.div (L.Log10 (F64.div lo hi))
        (F64.sub (F64.div (F64.fin 1) (F64.ofInt (bins + 1))) (F64.fin 1)))))

/-- Frequency of the bin `b` as the specification words it:
`hi * 10^(((b+1)/(bins+1) - 1) * log10(lo/hi))`. -/
def claimedFreq (L : Libm) (bins : Int) (lo hi : F64) (b : Int) : F64 :=
  F64.mul hi (L.Pow (F64.fin 10)
    (F64.mul (F64.sub (F64.div (F64.ofInt (b + 1)) (F64.ofInt (bins + 1))) (F64.fin 1))
      (L.Log10 (F64.div lo hi))))

/-- Raw index of a frequency: `int(floor((freq / (sampleRate/2)) * (sampleSize/4)))`. -/
def freqIndex (sampleRate : F64) (sampleSize : Int) (freq : F64) : Int :=
  F64.toInt (F64.floor (F64.mul (F64.div freq (F64.div sampleRate (F64.fin 2)))
    (F64.div (F64.ofInt sampleSize) (F64.fin 4))))

/-- State of the two tables before the iteration `i` of the loop of `Recalculate`:
`loCuts[b]` is the raw index of `b`, or one more than `loCuts[b-1]` when the raw
index does not exceed it; `hiCuts[b] = loCuts[b]` below `i - 1`; `hiCuts` is
untouched from `i - 1` on. -/
def RecalcTables {W : Type} (raw : Int → Int) (s : Spectrum W) (i : Int) (t : Spectrum W) :
    Prop :=
  t.loCuts.length = s.loCuts.length ∧ t.hiCuts.length = s.hiCuts.length ∧
  (∀ b, 0 ≤ b → b < i → ∃ x, sliceGet t.loCuts b = some x ∧ (b = 0 → x = raw 0) ∧
    (0 < b → ∃ p, sliceGet t.loCuts (b - 1) = some p ∧
      x = if raw b ≤ p then wrap64 (p + 1) else raw b)) ∧
  (∀ b, 0 ≤ b → b < i - 1 → sliceGet t.hiCuts b = sliceGet t.loCuts b) ∧
  (∀ j, i - 1 ≤ j → sliceGet t.hiCuts j = sliceGet s.hiCuts j)

/-- The coarse library with a base-10 logarithm that is exact on every power of
ten, negative exponents included. -/
def decadeLibm : Libm :=
  { coarseLibm with
    log10 := fun q =>
      if 1 ≤ q then (Nat.log 10 ⌊q⌋.toNat : ℚ) else -(Nat.clog 10 ⌈q⁻¹⌉.toNat : ℚ) }

/-- The small engine with `sampleRate/2 = 1` and `sampleSize/4 = 1`: the raw index
of a frequency is its integer part. -/
def unitEngine : Spectrum MovingWindow :=
  { smallEngine with sampleRate := F64.fin 2, sampleSize := 4 }

/-- The small engine with room for 64 bins. -/
def wideEngine : Spectrum MovingWindow :=
  { smallEngine with
    maxBins := 64
    loCuts := List.replicate 65 0
    hiCuts := List.replicate 65 0 }

/-! ## Frames of silence for Falloff -/

/-- State at the start of `Falloff` in a frame whose earlier stages left the value `v`
in every bin of every channel. -/
def withIncoming {W : Type} (v : F64) (s : Spectrum W) : Spectrum W :=
  { s with workSets := s.workSets.map fun ds => { ds with Bins := ds.Bins.map fun _ => v } }

/-- Falloff over `n` frames in a row whose incoming bin value is `v`. -/
def silentFalloffFrames {W : Type} (weight v : F64) : Nat → Spectrum W → Option (Spectrum W)
  | 0, s => some s
  | n + 1, s => (silentFalloffFrames weight v n s).bind fun t => Falloff (withIncoming v t) weight

/-- One frame of decay toward the floor `v`, between a set before (`ds`) and after
(`ds'`): each bin `0..numBins` goes from a finite falloff `f` to
`f'` with `v ≤ f' ≤ f`, a drop of at least 1 unless `f' = v`, and `f'` stays `v`
once `f = v`; `Bins` shows `f'` as well. -/
def DecayStep {W : Type} (numBins : Int) (v : ℚ) (ds ds' : DataSet W) : Prop :=
  ∀ b, 0 ≤ b → b ≤ numBins → ∃ f f' : ℚ,
    sliceGet ds.falloff b = some (F64.fin f) ∧
    sliceGet ds'.falloff b = some (F64.fin f') ∧ sliceGet ds'.Bins b = some (F64.fin f') ∧
    v ≤ f' ∧ f' ≤ f ∧ (f' ≤ f - 1 ∨ f' = v) ∧ (f = v → f' = v)

/-- One channel, bins 0..3, after a spike in bin 0: the stored falloff of bin 0 is 9,
the others sit on the silent floor -1. -/
def decayEngine : Spectrum MovingWindow :=
  { halfSilentEngine with
    frameSize := 1
    workSets := [
      { id := 0, Data := [],
        Bins := List.replicate 5 (F64.fin (-1)),
        falloff := [F64.fin 9, F64.fin (-1), F64.fin (-1), F64.fin (-1), F64.fin (-1)],
        peakHeight := F64.fin 0, slowWindow := ⟨4, []⟩, fastWindow := ⟨2, []⟩ }] }

/-! ## Renderer (`src/display/display.go`)

Screen coordinates and sizes are far below `2^63`: the integer arithmetic of the
renderer is exact, except for the two sums and products of caller-supplied widths
and counts, which wrap. -/

/-- Style roles `styleDefault`, `styleCenter` and `styleReverse`. -/
inductive Style where
  | styleDefault
  | styleCenter
  | styleReverse
  deriving DecidableEq

/-- One call `SetContent(x, y, rune, nil, style)`; a rune is its code point. -/
structure Cell where
  x : Int
  y : Int
  rune : Nat
  style : Style
  deriving DecidableEq

/-- Modelled from the spec: the terminal backend (`tcell.Screen`), with its size
query, set-cell, present and clear; `pending` holds the cells set since the last
clear, `shown` the cells of the last presented frame. -/
structure Screen where
  width : Int
  height : Int
  pending : List Cell
  shown : List Cell

namespace Screen

/-- Modelled from the spec: the set-cell primitive of the backend. -/
def SetContent (sc : Screen) (c : Cell) : Screen := { sc with pending := sc.pending ++ [c] }

/-- Modelled from the spec: present the pending cells. -/
def Show (sc : Screen) : Screen := { sc with shown := sc.pending }

/-- Modelled from the spec: clear the backing buffer. -/
def Clear (sc : Screen) : Screen := { sc with pending := [] }

end Screen

/-- Methods of `util.MovingWindow` that `display.go` calls; the file of the type is
not among the sources.  A mutating method returns the new window next to its
results. -/
structure UtilWindowOps (W : Type) where
  Update : W → F64 → W × F64 × F64
  Len : W → Int
  Cap : W → Int
  Mean : W → F64
  Drop : W → Int → W × F64 × F64

/-- Display of `display.go`. -/
structure Display (W : Type) where
  barWidth : Int
  spaceWidth : Int
  binWidth : Int
  slowWindow : W
  fastWindow : W
  screen : Screen

namespace Display

/-- Constant `DisplayBar`, the full block U+2588. -/
def DisplayBar : Nat := 0x2588

/-- Constant `DisplaySpace`. -/
def DisplaySpace : Nat := 0x20

/-- Constant `NumRunes`. -/
def NumRunes : Int := 8

/-- Constant `ScalingDumpPercent` of the renderer. -/
def ScalingDumpPercent : F64 := F64.fin (3 / 4)

/-- Constant `ScalingResetDeviation` of the renderer. -/
def ScalingResetDeviation : F64 := F64.fin 1

/-- Table `barRunes`: lower eighth blocks for channel 0, their mirror for channel 1. -/
def barRunes : List (List Nat) :=
  [[DisplaySpace, 0x2581, 0x2582, 0x2583, 0x2584, 0x2585, 0x2586, 0x2587],
   [DisplayBar, 0x2587, 0x2586, 0x2585, 0x2584, 0x2583, 0x2582, 0x2581]]

/-- Message of the first error of `Draw`. -/
def errNotEnough : String := "not enough sets to draw"

/-- Message of the second error of `Draw`. -/
def errTooMany : String := "too many sets to draw"

/-- Method `Display.Bars`; an integer division by zero panics. -/
def Bars {W : Type} (d : Display W) : Option Int :=
  let width := d.screen.width
  if d.binWidth = 0 then none
  else if width.tmod d.binWidth ≥ d.barWidth then some (width.tdiv d.binWidth + 1)
  else some (width.tdiv d.binWidth)

/-- Method `Display.SetWidths`: the new display and the returned number of bars. -/
def SetWidths {W : Type} (d : Display W) (bar space : Int) : Option (Display W × Int) :=
  let bar := if bar < 1 then 1 else bar
  let space := if space < 0 then 0 else space
  let d1 := { d with barWidth := bar, spaceWidth := space, binWidth := wrap64 (bar + space) }
  (Bars d1).map fun n => (d1, n)

/-- Method `Display.Size`. -/
def Size {W : Type} (d : Display W) : Option (Int × Int) :=
  (Bars d).map fun n => (n, d.screen.height)

/-- Loop `for i := lo; i < hi; i++`. -/
def forLt {σ : Type} (lo hi : Int) (body : σ → Int → Option σ) (s : σ) : Option σ :=
  loopFrom body (hi - lo).toNat lo s

/-- Content width `(d.binWidth * count) - d.spaceWidth` of `Draw`, line 246. -/
def contentWidth {W : Type} (d : Display W) (count : Int) : Int :=
  wrap64 (wrap64 (d.binWidth * count) - d.spaceWidth)

/-- Peak loop of `Draw` over the sets and their first `count` bins. -/
def peakOf (bins : List (List F64)) (cSetCount count : Int) : Option F64 :=
  forLt 0 cSetCount (fun peak xSet =>
    forLt 0 count (fun peak xBin => do
      let row ← sliceGet bins xSet
      let v ← sliceGet row xBin
      some (if F64.lt peak v then v else peak)) peak) (F64.fin 0)

/-- Scaling block of `Draw` (lines 273-296): the new fast and slow windows and `scale`. -/
def drawScale {W : Type} (ops : UtilWindowOps W) (d : Display W) (peak fHeight : F64) :
    W × W × F64 :=
  if F64.gt peak (F64.fin 0) then
    let fast1 := (ops.Update d.fastWindow peak).1
    let r := ops.Update d.slowWindow peak
    let length := ops.Len r.1
    let reset1 : Bool := decide (length ≥ ops.Cap fast1) &&
      F64.gt (F64.abs (F64.sub (ops.Mean fast1) r.2.1)) (F64.mul ScalingResetDeviation r.2.2)
    let r1 := if reset1 then
      ops.Drop r.1 (F64.toInt (F64.mul (F64.ofInt length) ScalingDumpPercent)) else r
    let reset2 : Bool := F64.gt (F64.div peak
      (F64.max (F64.add r1.2.1 (F64.mul (F64.fin (3 / 2)) r1.2.2)) (F64.fin 1))) (F64.fin (7 / 5))
    let r2 := if reset2 then
      ops.Drop r1.1 (F64.toInt (F64.mul (F64.ofInt (ops.Len r1.1)) ScalingDumpPercent)) else r1
    (fast1, r2.1, F64.div fHeight
      (F64.max (F64.add r2.2.1 (F64.mul (F64.fin (3 / 2)) r2.2.2)) (F64.fin 1)))
  else (d.fastWindow, d.slowWindow, fHeight)

/-- Cells of the loop `for xRow < stop { SetContent(x, xRow, rune, nil, style); xRow++ }`
entered with `xRow = start`: the rows `start .. stop-1`. -/
def rowCells (x : Int) (rune : Nat) (style : Style) (start stop : Int) : List Cell :=
  (List.range (stop - start).toNat).map fun (k : Nat) => ⟨x, start + (k : Int), rune, style⟩

/-- Cell `SetContent(x, y, barRunes[set][part], nil, style)` drawn when `part > 0`. -/
def partCell (set : Int) (x y part : Int) (style : Style) : Option (List Cell) :=
  if part > 0 then
    ((sliceGet barRunes set).bind fun runes => sliceGet runes part).map
      fun r => [⟨x, y, r, style⟩]
  else some []

/-- Cells of the right channel in one column (lines 364-377), entered at row `xRow`. -/
def rightCells (cHaveRight : Bool) (xCol xRow lRow rightPart : Int) : Option (List Cell) :=
  if cHaveRight then
    (partCell 1 xCol (max xRow lRow) rightPart Style.styleReverse).map fun last =>
      rowCells xCol DisplayBar Style.styleDefault xRow lRow ++ last
  else some []

/-- Cells of one column of a bar (body of the loop `for xCol < lCol`). -/
def drawColumn (cHaveRight : Bool) (xCol startRow centerStart centerStop lRow leftPart
    rightPart : Int) : Option (List Cell) := do
  let part ← partCell 0 xCol startRow leftPart Style.styleDefault
  let xRow := startRow + 1
  let full := rowCells xCol DisplayBar Style.styleDefault xRow centerStart
  let xRow := max xRow centerStart
  let centre := rowCells xCol DisplayBar Style.styleCenter xRow centerStop
  let xRow := max xRow centerStop
  let right ← rightCells cHaveRight xCol xRow lRow rightPart
  some (part ++ full ++ centre ++ right)

/-- Value `int(math.Min(fHeight, v*scale) * NumRunes)`. -/
def barPart (fHeight scale v : F64) : Int :=
  F64.toInt (F64.mul (F64.min fHeight (F64.mul v scale)) (F64.ofInt NumRunes))

/-- One bar (lines 314-380): its cells and the column after it. -/
def drawBar {W : Type} (d : Display W) (bins : List (List F64)) (cHaveRight : Bool)
    (cHeight centerStart centerStop : Int) (fHeight scale : F64) (xCol xBin : Int) :
    Option (List Cell × Int) := do
  let row0 ← sliceGet bins 0
  let v0 ← sliceGet row0 xBin
  let leftPart := barPart fHeight scale v0
  let startRow := centerStart - (leftPart.tdiv NumRunes + 1)
  let startRow := if startRow < 0 then 0 else startRow
  let leftPart := leftPart.tmod NumRunes
  let right ← if cHaveRight then do
      let row1 ← sliceGet bins 1
      let v1 ← sliceGet row1 xBin
      let rightPart := barPart fHeight scale v1
      some (centerStop + rightPart.tdiv NumRunes, rightPart.tmod NumRunes)
    else some (centerStop, 0)
  let lRow := if right.1 > cHeight then cHeight else right.1
  let lCol := xCol + d.barWidth
  let cells ← forLt xCol lCol (fun acc x =>
    (drawColumn cHaveRight x startRow centerStart centerStop lRow leftPart right.2).map
      fun c => acc ++ c) []
  some (cells, max xCol lCol)

/-- Loop `for xCol < cWidth` of `Draw` (lines 312-398) with its `break`; each
iteration advances `xBin`, so `max(count, 1)` iterations are enough fuel. -/
def drawBars {W : Type} (d : Display W) (bins : List (List F64)) (cHaveRight : Bool)
    (count cHeight centerStart centerStop : Int) (fHeight scale : F64) (cWidth : Int) :
    Nat → Int → Int → List Cell → Option (List Cell)
  | 0, _, _, acc => some acc
  | fuel + 1, xCol, xBin, acc =>
    if xCol < cWidth then
      (drawBar d bins cHaveRight cHeight centerStart centerStop fHeight scale xCol xBin).bind
        fun r =>
          if xBin + 1 ≥ count then some (acc ++ r.1)
          else drawBars d bins cHaveRight count cHeight centerStart centerStop fHeight scale
            cWidth fuel (r.2 + d.spaceWidth) (xBin + 1) (acc ++ r.1)
    else some acc

/-- Method `Display.Draw`: the display after the call and the returned error
(`none` is `nil`); the outer `none` is a panic. -/
def Draw {W : Type} (ops : UtilWindowOps W) (d : Display W) (bins : List (List F64))
    (count bHeight : Int) : Option (Display W × Option String) :=
  let cSetCount : Int := bins.length
  if cSetCount < 1 then some (d, some errNotEnough)
  else if cSetCount > 2 then some (d, some errTooMany)
  else
    let cHaveRight : Bool := decide (cSetCount = 2)
    let cPaddedWidth := d.screen.width
    let cHeight := d.screen.height
    let cWidth := contentWidth d count
    let cWidth := if cWidth > cPaddedWidth ∨ cWidth < 0 then cPaddedWidth else cWidth
    let cOffset := (cPaddedWidth - cWidth).tdiv 2
    let height := if cHaveRight then cHeight.tdiv 2 else cHeight
    let centerStart := height - bHeight.tdiv 2
    let centerStop := centerStart + bHeight
    (peakOf bins cSetCount count).bind fun peak =>
      let fHeight := F64.ofInt (centerStart - 1)
      let w := drawScale ops d peak fHeight
      (drawBars d bins cHaveRight count cHeight centerStart centerStop fHeight w.2.2
        (cWidth + cOffset) (max count 1).toNat cOffset 0 []).map fun cells =>
        ({ d with
            fastWindow := w.1
            slowWindow := w.2.1
            screen := ((cells.foldl Screen.SetContent d.screen).Show).Clear }, none)

end Display

/-- Modelled from the spec: the methods of MovingWindow that the renderer calls. -/
def specUtilWindow (L : Libm) : UtilWindowOps MovingWindow where
  Update := fun w x => let w1 := w.Update x; (w1, w1.Mean, w1.StdDev L)
  Len := fun w => w.data.length
  Cap := fun w => w.capacity
  Mean := fun w => w.Mean
  Drop := fun w n => let w1 := w.Drop n; (w1, w1.Mean, w1.StdDev L)

/-- An 80 x 24 terminal, before any width is set. -/
def termDisplay : Display Unit where
  barWidth := 0
  spaceWidth := 0
  binWidth := 0
  slowWindow := ()
  fastWindow := ()
  screen := ⟨80, 24, [], []⟩

/-- Display of an 80 x 24 terminal as `New` leaves it (bars of 2, gaps of 1), with
scaling windows of 20 and 4 samples. -/
def termBars : Display MovingWindow where
  barWidth := 2
  spaceWidth := 1
  binWidth := 3
  slowWindow := ⟨20, []⟩
  fastWindow := ⟨4, []⟩
  screen := ⟨80, 24, [], []⟩

/-- Cells that the specification gives one column `x` of a channel-0 bar of `e`
eighths: iff `e mod 8 > 0` the partial cell `barRunes[0][e mod 8]` on row
`centerStart - e div 8 - 1`, then `e div 8` full blocks on the rows
`centerStart - e div 8 .. centerStart - 1`, both in the default style, then the centre
band of `bHeight` rows from `centerStart` in the highlight style. -/
def claimedColumn (x centerStart bHeight e : Int) : List Cell :=
  (if e % 8 > 0 then
    [⟨x, centerStart - e / 8 - 1, (Display.barRunes.getD 0 []).getD (e % 8).toNat 0,
      Style.styleDefault⟩]
   else []) ++
  Display.rowCells x Display.DisplayBar Style.styleDefault (centerStart - e / 8) centerStart ++
  Display.rowCells x Display.DisplayBar Style.styleCenter centerStart (centerStart + bHeight)

/-- Go `x <= y`: false as soon as one side is NaN. -/
def F64.le : F64 → F64 → Bool
  | F64.nan, _ => false
  | _, F64.nan => false
  | F64.ninf, _ => true
  | _, F64.pinf => true
  | F64.pinf, _ => false
  | _, F64.ninf => false
  | F64.fin a, F64.fin b => decide (a ≤ b)

/-- Go `x >= y`. -/
def F64.ge (x y : F64) : Bool := F64.le y x

/-- Bins of one set before and after `Monstercat`: as many entries, and each entry
either as it was or, from index 1 on, replaced by a strictly greater value. -/
def NotLowered (old new : List F64) : Prop :=
  new.length = old.length ∧
  ∀ j, sliceGet new j = sliceGet old j ∨
    (1 ≤ j ∧ ∃ v v', sliceGet old j = some v ∧ sliceGet new j = some v' ∧ F64.lt v v' = true)

/-- Exponent `vFreq` of the bin `xBin` after line 126 of `Recalculate`, before the power
is taken: `((xBin+1)/cBins - 1) * cFreq` with `cBins = bins + 1` and
`cFreq = log10(lo/hi) / (1/cBins - 1)`. -/
def binExponent (L : Libm) (bins : Int) (lo hi : F64) (xBin : Int) : F64 :=
  F64.mul (F64.sub (F64.div (F64.ofInt (xBin + 1)) (F64.ofInt (bins + 1))) (F64.fin 1))
    (F64.div (L.Log10 (F64.div lo hi))
      (F64.sub (F64.div (F64.fin 1) (F64.ofInt (bins + 1))) (F64.fin 1)))

/-- The coarse library, except at the two calls that `Recalculate(16, 1920, 6000)`
makes for the bin 0, where it returns the doubles of an evaluation in IEEE arithmetic:
for `log10(0.32)` the exponent that reaches `math.Pow`, `-0.49485002168009407`
(`-4457212746485507 / 2^53`, within one unit in the last place of the logarithm), and
for its power the nearest double, `0.31999999999999995` (`2882303761517117 / 2^53`). -/
def roundedLibm : Libm :=
  { coarseLibm with
    log10 := fun q =>
      if q = 8 / 25 then -(4457212746485507 / 9007199254740992) else coarseLibm.log10 q
    pow := fun x y =>
      if x = 10 ∧ y = -(4457212746485507 / 9007199254740992)
      then 2882303761517117 / 9007199254740992 else coarseLibm.pow x y }

/-! ## Basic facts on slices and loops -/

theorem sliceGet_eq_some_iff {α : Type} (xs : List α) (i : Int) (v : α) :
    sliceGet xs i = some v ↔ 0 ≤ i ∧ xs[i.toNat]? = some v := by
  unfold sliceGet
  split <;> simp [*]

theorem sliceGet_isSome {α : Type} (xs : List α) (i : Int) (h0 : 0 ≤ i) (h1 : i < xs.length) :
    ∃ v, sliceGet xs i = some v := by
  have h : i.toNat < xs.length := by omega
  exact ⟨xs[i.toNat], by simp [sliceGet, h0, List.getElem?_eq_getElem h]⟩

theorem sliceGet_lt_length {α : Type} {xs : List α} {i : Int} {v : α}
    (h : sliceGet xs i = some v) : 0 ≤ i ∧ i < xs.length := by
  rw [sliceGet_eq_some_iff] at h
  obtain ⟨h0, h1⟩ := h
  have := (List.getElem?_eq_some_iff.mp h1).1
  omega

theorem sliceSet_isSome {α : Type} (xs : List α) (i : Int) (v : α) (h0 : 0 ≤ i)
    (h1 : i < xs.length) : sliceSet xs i v = some (xs.set i.toNat v) := by
  have h : i.toNat < xs.length := by omega
  simp [sliceSet, h0, h]

theorem sliceSet_eq_some {α : Type} {xs ys : List α} {i : Int} {v : α}
    (h : sliceSet xs i v = some ys) : 0 ≤ i ∧ i < xs.length ∧ ys = xs.set i.toNat v := by
  unfold sliceSet at h
  split at h
  · rename_i hc
    simp at h
    refine ⟨hc.1, by omega, h.symm⟩
  · simp at h

theorem sliceGet_set_same {α : Type} (xs : List α) (i : Int) (v : α) (h0 : 0 ≤ i)
    (h1 : i < xs.length) : sliceGet (xs.set i.toNat v) i = some v := by
  have h : i.toNat < xs.length := by omega
  simp [sliceGet, h0, h]

theorem sliceGet_set_ne {α : Type} (xs : List α) (i j : Int) (v : α) (h0 : 0 ≤ i)
    (hij : i ≠ j) : sliceGet (xs.set i.toNat v) j = sliceGet xs j := by
  unfold sliceGet
  split
  · rename_i hj
    have : i.toNat ≠ j.toNat := by omega
    simp [List.getElem?_set_ne this]
  · rfl

theorem loopFrom_inv {σ : Type} (body : σ → Int → Option σ) (P : Int → σ → Prop) :
    ∀ (n : Nat) (start : Int) (s : σ), P start s →
      (∀ i t, start ≤ i → i < start + n → P i t → ∃ t', body t i = some t' ∧ P (i + 1) t') →
      ∃ s', loopFrom body n start s = some s' ∧ P (start + n) s' := by
  intro n
  induction n with
  | zero => intro start s h0 _; exact ⟨s, rfl, by simpa using h0⟩
  | succ n ih =>
    intro start s h0 hstep
    obtain ⟨t, ht, hP⟩ := hstep start s le_rfl (by push_cast; omega) h0
    obtain ⟨s', hs', hP'⟩ := ih (start + 1) t hP (fun i u h1 h2 hu =>
      hstep i u (by omega) (by push_cast; omega) hu)
    refine ⟨s', ?_, ?_⟩
    · simp [loopFrom, ht, hs']
    · have : start + ((n + 1 : Nat) : Int) = start + 1 + n := by push_cast; ring
      rw [this]; exact hP'

theorem wrap64_of_range (n : Int) (h0 : -(2 ^ 63) ≤ n) (h1 : n < 2 ^ 63) : wrap64 n = n := by
  unfold wrap64
  omega

/-! ## Recalculate: the cut tables -/

theorem F64.toInt_range (x : F64) : -(2 ^ 63) ≤ x.toInt ∧ x.toInt < 2 ^ 63 := by
  cases x with
  | fin q =>
    simp only [F64.toInt]
    split_ifs with h1 h2 h2
    · exact h2
    · constructor <;> norm_num
    · exact h2
    · constructor <;> norm_num
  | nan => simp [F64.toInt]
  | ninf => simp [F64.toInt]
  | pinf => simp [F64.toInt]

theorem rawCut_range (L : Libm) (sampleRate : F64) (sampleSize bins : Int) (lo hi : F64)
    (xBin : Int) :
    -(2 ^ 63) ≤ rawCut L sampleRate sampleSize bins lo hi xBin ∧
      rawCut L sampleRate sampleSize bins lo hi xBin < 2 ^ 63 :=
  F64.toInt_range _

/-- Effect of the loop body of `Recalculate` at `xBin = 0`. -/
theorem recalcStep_zero {W : Type} (raw : Int → Int) (t : Spectrum W)
    (hl : 0 < t.loCuts.length) :
    recalcStep raw t 0 = some { t with loCuts := t.loCuts.set 0 (raw 0) } := by
  have h := sliceSet_isSome t.loCuts 0 (raw 0) le_rfl (by exact_mod_cast hl)
  simp [recalcStep, h]

/-- Effect of the loop body of `Recalculate` at `xBin > 0`, when `loCuts[xBin-1]` holds `v`. -/
theorem recalcStep_pos {W : Type} (raw : Int → Int) (t : Spectrum W) (i v : Int)
    (h0 : 0 < i) (hl : i < t.loCuts.length) (hh : i - 1 < t.hiCuts.length)
    (hv : sliceGet t.loCuts (i - 1) = some v) :
    recalcStep raw t i = some { t with
      loCuts := t.loCuts.set i.toNat (if raw i ≤ v then wrap64 (v + 1) else raw i)
      hiCuts := t.hiCuts.set (i - 1).toNat v } := by
  have hi0 : 0 ≤ i := le_of_lt h0
  have h1 := sliceSet_isSome t.loCuts i (raw i) hi0 hl
  have hlen1 : i < ((t.loCuts.set i.toNat (raw i)).length : Int) := by simpa using hl
  have h2 : sliceGet (t.loCuts.set i.toNat (raw i)) i = some (raw i) :=
    sliceGet_set_same _ _ _ hi0 hl
  have h3 : sliceGet (t.loCuts.set i.toNat (raw i)) (i - 1) = some v := by
    rw [sliceGet_set_ne _ _ _ _ hi0 (by omega)]; exact hv
  have h4 := sliceSet_isSome t.hiCuts (i - 1) v (by omega) hh
  by_cases hc : raw i ≤ v
  · have h5 := sliceSet_isSome (t.loCuts.set i.toNat (raw i)) i (wrap64 (v + 1)) hi0 hlen1
    have h6 : sliceGet ((t.loCuts.set i.toNat (raw i)).set i.toNat (wrap64 (v + 1))) (i - 1)
        = some v := by
      rw [sliceGet_set_ne _ _ _ _ hi0 (by omega)]; exact h3
    rw [List.set_set] at h5 h6
    simp [recalcStep, h1, h0, h2, h3, hc, h5, h6, h4]
  · simp [recalcStep, h1, h0, h2, h3, hc, h4]

theorem recalcStep_inv {W : Type} (raw : Int → Int) (s : Spectrum W) (B : Int)
    (hlo : B < s.loCuts.length) (hhi : B < s.hiCuts.length)
    (hraw : ∀ b, 0 ≤ b → b ≤ B → -(2 ^ 63) ≤ raw b ∧ raw b + B < 2 ^ 63)
    (i : Int) (t : Spectrum W) (h0 : 0 ≤ i) (hB : i ≤ B) (hP : RecalcInv s B i t) :
    ∃ t', recalcStep raw t i = some t' ∧ RecalcInv s B (i + 1) t' := by
  obtain ⟨hl1, hl2, hn, hmono, hlast⟩ := hP
  rcases eq_or_lt_of_le h0 with hi0 | hipos
  · subst hi0
    refine ⟨_, recalcStep_zero raw t (by omega), ?_⟩
    refine ⟨by simpa using hl1, hl2, hn, ?_, ?_⟩
    · intro b hb1 hb2; omega
    · intro _
      refine ⟨raw 0, ?_, (hraw 0 le_rfl hB).1, ?_⟩
      · simpa using sliceGet_set_same t.loCuts 0 (raw 0) le_rfl (by omega)
      · have := (hraw 0 le_rfl hB).2; simpa using this
  · obtain ⟨v, hv, hvlo, hvhi⟩ := hlast (by omega)
    have hlt : i < (t.loCuts.length : Int) := by omega
    refine ⟨_, recalcStep_pos raw t i v hipos hlt (by omega) hv, ?_⟩
    have hwrap : wrap64 (v + 1) = v + 1 := wrap64_of_range _ (by omega) (by omega)
    have hnew : sliceGet (t.loCuts.set i.toNat (if raw i ≤ v then wrap64 (v + 1) else raw i)) i
        = some (if raw i ≤ v then v + 1 else raw i) := by
      rw [sliceGet_set_same _ _ _ h0 hlt, hwrap]
    have hold : ∀ j, j ≠ i →
        sliceGet (t.loCuts.set i.toNat (if raw i ≤ v then wrap64 (v + 1) else raw i)) j
          = sliceGet t.loCuts j := fun j hj => sliceGet_set_ne _ _ _ _ h0 (Ne.symm hj)
    refine ⟨by simpa using hl1, by simpa using hl2, hn, ?_, ?_⟩
    · intro b hb1 hb2
      rcases eq_or_lt_of_le (show b ≤ i by omega) with hbi | hbi
      · subst hbi
        refine ⟨v, _, ?_, hnew, ?_⟩
        · show sliceGet _ (b - 1) = some v
          rw [hold (b - 1) (by omega)]; exact hv
        · split <;> omega
      · obtain ⟨x, y, hx, hy, hxy⟩ := hmono b hb1 hbi
        refine ⟨x, y, ?_, ?_, hxy⟩
        · show sliceGet _ (b - 1) = some x
          rw [hold (b - 1) (by omega)]; exact hx
        · show sliceGet _ b = some y
          rw [hold b (by omega)]; exact hy
    · intro _
      refine ⟨_, by simpa using hnew, ?_, ?_⟩
      · split
        · omega
        · exact (hraw i h0 hB).1
      · have := (hraw i h0 hB).2
        split <;> omega

/-- The loop of `Recalculate` runs to its end and establishes the invariant. -/
theorem recalcLoop_inv {W : Type} (raw : Int → Int) (s : Spectrum W) (B : Int)
    (hlo : B < s.loCuts.length) (hhi : B < s.hiCuts.length)
    (hraw : ∀ b, 0 ≤ b → b ≤ B → -(2 ^ 63) ≤ raw b ∧ raw b + B < 2 ^ 63) :
    ∃ t, forIncl 0 B (recalcStep raw) { s with numBins := B } = some t ∧
      RecalcInv s B (max (B + 1) 0) t := by
  have h := loopFrom_inv (recalcStep raw) (RecalcInv s B) (B + 1 - 0).toNat 0
    { s with numBins := B } ⟨rfl, rfl, rfl, fun b h1 h2 => by omega, fun h => by omega⟩
    (fun i t h0 h1 hP => recalcStep_inv raw s B hlo hhi hraw i t h0 (by omega) hP)
  obtain ⟨t, ht, hP⟩ := h
  refine ⟨t, ht, ?_⟩
  have : (0 : Int) + ((B + 1 - 0).toNat : Int) = max (B + 1) 0 := by omega
  rwa [this] at hP

/-- C1: for every requested bin count (clamped to `maxBins`) and every `lo`, `hi`,
`Recalculate` returns and leaves `loCuts` strictly increasing on the indices it
wrote: `loCuts[b-1] < loCuts[b]` for `1 ≤ b ≤ bins`.  The tables have the length
`maxBins + 1` that `Init` gives them, and the raw indices plus the bin count fit
in an `int`. -/
theorem Recalculate_loCuts_strictly_increasing {W : Type} (L : Libm) (s : Spectrum W)
    (bins : Int) (lo hi : F64)
    (hlo : s.maxBins < s.loCuts.length) (hhi : s.maxBins < s.hiCuts.length)
    (hraw : ∀ b, 0 ≤ b → b ≤ min bins s.maxBins →
      rawCut L s.sampleRate s.sampleSize (min bins s.maxBins) lo hi b + min bins s.maxBins
        < 2 ^ 63) :
    ∃ s' n, Recalculate L s bins lo hi = some (s', n) ∧ n = min bins s.maxBins ∧
      s'.numBins = min bins s.maxBins ∧
      ∀ b, 1 ≤ b → b ≤ min bins s.maxBins →
        ∃ x y, sliceGet s'.loCuts (b - 1) = some x ∧ sliceGet s'.loCuts b = some y ∧ x < y := by
  have hmin : (if bins > s.maxBins then s.maxBins else bins) = min bins s.maxBins := by
    split <;> omega
  obtain ⟨t, ht, hP⟩ := recalcLoop_inv
    (rawCut L s.sampleRate s.sampleSize (min bins s.maxBins) lo hi) s (min bins s.maxBins)
    (by omega) (by omega) (fun b h0 h1 => ⟨(rawCut_range _ _ _ _ _ _ _).1, hraw b h0 h1⟩)
  refine ⟨t, t.numBins, ?_, hP.2.2.1, hP.2.2.1, ?_⟩
  · simp only [Recalculate, hmin, ht, Option.map_some']
  · intro b hb1 hb2
    exact hP.2.2.2.1 b hb1 (by omega)

theorem rawCut_small (b : Int) (h0 : 0 ≤ b) (h1 : b ≤ 2) :
    rawCut coarseLibm (F64.fin 48000) 800 2 (F64.fin 220) (F64.fin 6000) b = 50 := by
  have : b = 0 ∨ b = 1 ∨ b = 2 := by omega
  rcases this with h | h | h <;> subst h <;>
  simp [rawCut, coarseLibm, Libm.Pow, Libm.Log10, F64.div, F64.mul, F64.sub, F64.add, F64.neg,
    F64.ofInt, F64.floor, F64.toInt, Libm.powCases] <;> norm_num

/-- Witness of C1 on the small engine with two bins between 220 Hz and 6000 Hz. -/
theorem Recalculate_loCuts_strictly_increasing_witness :
    (smallEngine.maxBins < smallEngine.loCuts.length ∧
      smallEngine.maxBins < smallEngine.hiCuts.length) ∧
    ∃ s' n, Recalculate coarseLibm smallEngine 2 (F64.fin 220) (F64.fin 6000) = some (s', n) ∧
      n = min 2 smallEngine.maxBins ∧ s'.numBins = min 2 smallEngine.maxBins ∧
      ∀ b, 1 ≤ b → b ≤ min 2 smallEngine.maxBins →
        ∃ x y, sliceGet s'.loCuts (b - 1) = some x ∧ sliceGet s'.loCuts b = some y ∧ x < y :=
  ⟨⟨by simp [smallEngine], by simp [smallEngine]⟩,
    Recalculate_loCuts_strictly_increasing coarseLibm smallEngine 2 (F64.fin 220) (F64.fin 6000)
      (by simp [smallEngine]) (by simp [smallEngine])
      (fun b h0 h1 => by
        have hm : min 2 smallEngine.maxBins = 2 := by simp [smallEngine]
        rw [hm] at h1 ⊢
        simp only [smallEngine]
        rw [rawCut_small b h0 h1]; norm_num)⟩

/-! ## Init followed by Generate -/

/-- The loop body of `Recalculate` succeeds inside the tables and only touches them. -/
theorem recalcStep_frame {W : Type} (raw : Int → Int) (t : Spectrum W) (i : Int)
    (h0 : 0 ≤ i) (hl : i < t.loCuts.length) (hh : i < t.hiCuts.length) :
    ∃ t', recalcStep raw t i = some t' ∧ t'.loCuts.length = t.loCuts.length ∧
      t'.hiCuts.length = t.hiCuts.length ∧ t'.numBins = t.numBins ∧ t'.maxBins = t.maxBins ∧
      t'.workSets = t.workSets ∧ t'.DataBuf = t.DataBuf ∧
      t'.sampleDataSize = t.sampleDataSize := by
  rcases eq_or_lt_of_le h0 with hi0 | hipos
  · subst hi0
    refine ⟨_, recalcStep_zero raw t (by omega), ?_⟩
    simp
  · have hlt : i - 1 < (t.loCuts.length : Int) := by omega
    obtain ⟨v, hv⟩ := sliceGet_isSome t.loCuts (i - 1) (by omega) hlt
    refine ⟨_, recalcStep_pos raw t i v hipos hl (by omega) hv, ?_⟩
    simp

/-- Without any assumption on the raw indices, `Recalculate` returns when the
tables hold `maxBins + 1` entries, and it only touches the tables and `numBins`. -/
theorem Recalculate_frame {W : Type} (L : Libm) (s : Spectrum W) (bins : Int) (lo hi : F64)
    (hlo : s.maxBins < s.loCuts.length) (hhi : s.maxBins < s.hiCuts.length) :
    ∃ s', Recalculate L s bins lo hi = some (s', min bins s.maxBins) ∧
      s'.loCuts.length = s.loCuts.length ∧ s'.hiCuts.length = s.hiCuts.length ∧
      s'.numBins = min bins s.maxBins ∧ s'.maxBins = s.maxBins ∧
      s'.workSets = s.workSets ∧ s'.DataBuf = s.DataBuf ∧
      s'.sampleDataSize = s.sampleDataSize := by
  have hmin : (if bins > s.maxBins then s.maxBins else bins) = min bins s.maxBins := by
    split <;> omega
  set B := min bins s.maxBins with hB
  have h := loopFrom_inv (recalcStep (rawCut L s.sampleRate s.sampleSize B lo hi))
    (fun _ (t : Spectrum W) => t.loCuts.length = s.loCuts.length ∧
      t.hiCuts.length = s.hiCuts.length ∧ t.numBins = B ∧ t.maxBins = s.maxBins ∧
      t.workSets = s.workSets ∧ t.DataBuf = s.DataBuf ∧ t.sampleDataSize = s.sampleDataSize)
    (B + 1 - 0).toNat 0 { s with numBins := B } ⟨rfl, rfl, rfl, rfl, rfl, rfl, rfl⟩
    (fun i t h0 h1 hP => by
      obtain ⟨t', ht', e1, e2, e3, e4, e5, e6, e7⟩ := recalcStep_frame
        (rawCut L s.sampleRate s.sampleSize B lo hi) t i h0 (by omega) (by omega)
      exact ⟨t', ht', by omega, by omega, e3.trans hP.2.2.1, e4.trans hP.2.2.2.1,
        e5.trans hP.2.2.2.2.1, e6.trans hP.2.2.2.2.2.1, e7.trans hP.2.2.2.2.2.2⟩)
  obtain ⟨t, ht, hP⟩ := h
  refine ⟨t, ?_, hP⟩
  simp only [Recalculate, hmin, forIncl, ht, Option.map_some', hP.2.2.1]

/-- A loop fails as soon as its body fails at one index of its range, on every
state that satisfies a property kept by the body. -/
theorem loopFrom_none {σ : Type} (body : σ → Int → Option σ) (P : σ → Prop) (k : Int)
    (hpres : ∀ i t t', P t → body t i = some t' → P t')
    (hfail : ∀ t, P t → body t k = none) :
    ∀ (n : Nat) (start : Int) (s : σ), P s → start ≤ k → k < start + n →
      loopFrom body n start s = none := by
  intro n
  induction n with
  | zero => intro start s _ h1 h2; simp at h2; omega
  | succ n ih =>
    intro start s hP h1 h2
    simp only [loopFrom]
    rcases eq_or_lt_of_le h1 with hk | hk
    · subst hk; simp [hfail s hP]
    · cases hb : body s start with
      | none => simp
      | some t =>
        simp only [Option.some_bind]
        exact ih (start + 1) t (hpres _ _ _ hP hb) (by omega) (by push_cast at h2; omega)

/-- The assignment to a bin keeps the number of sets and the length of every `Bins`. -/
theorem setBin_lengths {W : Type} {t t' : Spectrum W} {xSet xBin : Int} {v : F64}
    (h : setBin t xSet xBin v = some t') :
    t'.numBins = t.numBins ∧ t'.workSets.map (fun d => d.Bins.length)
      = t.workSets.map (fun d => d.Bins.length) := by
  simp only [setBin, Option.bind_eq_bind, Option.bind_eq_some] at h
  obtain ⟨ds, hds, bins, hbins, ws, hws, h⟩ := h
  simp only [Option.some.injEq] at h
  subst h
  obtain ⟨_, _, rfl⟩ := sliceSet_eq_some hbins
  obtain ⟨h0, hlt, rfl⟩ := sliceSet_eq_some hws
  refine ⟨rfl, ?_⟩
  rw [sliceGet_eq_some_iff] at hds
  have hlt' : xSet.toNat < t.workSets.length := by omega
  apply List.ext_getElem?
  intro n
  by_cases hn : xSet.toNat = n
  · subst hn
    obtain ⟨_, heq⟩ := List.getElem?_eq_some_iff.mp hds.2
    simp [List.getElem?_map, List.getElem?_set, hds.2, hlt', heq]
  · simp [List.getElem?_map, List.getElem?_set, hn]

theorem genBin_lengths {W : Type} {L : Libm} {t t' : Spectrum W} {xSet xBin : Int}
    (h : genBin L xSet t xBin = some t') :
    t'.numBins = t.numBins ∧ t'.workSets.map (fun d => d.Bins.length)
      = t.workSets.map (fun d => d.Bins.length) := by
  simp only [genBin, Option.bind_eq_bind, Option.bind_eq_some] at h
  obtain ⟨_, _, _, _, _, _, h⟩ := h
  exact setBin_lengths h

/-- Generate panics when the first set has no entry `Bins[numBins]`. -/
theorem Generate_none_of_short_Bins {W : Type} (L : Libm) (s : Spectrum W) (ds : DataSet W)
    (rest : List (DataSet W)) (hws : s.workSets = ds :: rest) (h0 : 0 ≤ s.numBins)
    (hlen : (ds.Bins.length : Int) ≤ s.numBins) : Generate L s = none := by
  have hinner : forIncl 0 s.numBins (genBin L 0) s = none := by
    apply loopFrom_none (genBin L 0)
      (fun t => t.numBins = s.numBins ∧ t.workSets.map (fun d => d.Bins.length)
        = s.workSets.map (fun d => d.Bins.length)) s.numBins
    · intro i t t' hP hb
      obtain ⟨e1, e2⟩ := genBin_lengths hb
      exact ⟨e1.trans hP.1, e2.trans hP.2⟩
    · intro t hP
      have hw : ∃ d r, t.workSets = d :: r ∧ d.Bins.length = ds.Bins.length := by
        have h2 := hP.2
        rw [hws] at h2
        cases hc : t.workSets with
        | nil => rw [hc] at h2; simp at h2
        | cons d r => rw [hc] at h2; simp at h2; exact ⟨d, r, rfl, h2.1⟩
      obtain ⟨d, r, hd, hdl⟩ := hw
      have hget : sliceGet t.workSets 0 = some d := by simp [sliceGet, hd]
      have hset : ∀ v, sliceSet d.Bins s.numBins v = none := by
        intro v
        have : ¬ (s.numBins.toNat < d.Bins.length) := by omega
        simp [sliceSet, this]
      have hsb : ∀ v, setBin t 0 s.numBins v = none := by
        intro v; simp [setBin, hget, hset]
      simp only [genBin, Option.bind_eq_bind, Option.bind_eq_none]
      intro lo _ hi _ vMag _
      simp [hsb]
    · exact ⟨rfl, rfl⟩
    · exact h0
    · omega
  unfold forIncl at hinner
  unfold Generate forIncl
  have hn : ((s.workSets.length : Int) - 1 + 1 - 0).toNat = rest.length + 1 := by
    simp [hws]
  rw [hn]
  simp only [loopFrom]
  rw [hinner]
  rfl

/-- C2 (the code fails here): on every engine with at least one channel, `Init`
returns a state with `numBins = maxBins = 1024` whose `Bins` hold 1024 entries, and
`Generate` on that state panics: it writes `Bins[numBins]`. -/
theorem Init_then_Generate_panics {W : Type} (L : Libm) (ops : WindowOps W) (s : Spectrum W)
    (hf : 1 ≤ s.frameSize) :
    ∃ s', Init L ops s = some s' ∧ s'.numBins = 1024 ∧ s'.loCuts.length = 1025 ∧
      s'.hiCuts.length = 1025 ∧ (∀ ds ∈ s'.workSets, ds.Bins.length = 1024) ∧
      Generate L s' = none := by
  obtain ⟨n, hn⟩ : ∃ n : Nat, s.frameSize.toNat = n + 1 := ⟨s.frameSize.toNat - 1, by omega⟩
  have hnot : ¬ s.frameSize < 0 := by omega
  simp only [Init, hnot, if_false]
  have hmax : (initAlloc ops s).maxBins = 1024 := rfl
  have hl1 : (initAlloc ops s).loCuts.length = 1025 := by
    simp only [initAlloc, List.length_replicate]; rfl
  have hl2 : (initAlloc ops s).hiCuts.length = 1025 := by
    simp only [initAlloc, List.length_replicate]; rfl
  obtain ⟨s', hs', e1, e2, e3, e4, e5, e6, e7⟩ := Recalculate_frame L (initAlloc ops s)
    (initAlloc ops s).maxBins (F64.fin 20)
    (F64.div (initAlloc ops s).sampleRate (F64.fin 2))
    (by rw [hmax, hl1]; norm_num) (by rw [hmax, hl2]; norm_num)
  rw [hmax] at e3
  have e3' : s'.numBins = 1024 := by rw [e3]; norm_num
  refine ⟨s', by simp [hs'], e3', e1.trans hl1, e2.trans hl2, ?_, ?_⟩
  · intro ds hds
    rw [e5] at hds
    simp only [initAlloc, List.mem_map] at hds
    obtain ⟨a, _, rfl⟩ := hds
    simp only [List.length_replicate]; rfl
  · have hws : s'.workSets = (initAlloc ops s).workSets := e5
    simp only [initAlloc, hn, List.range_succ_eq_map, List.map_cons] at hws
    refine Generate_none_of_short_Bins L s' _ _ hws (by rw [e3']; norm_num) ?_
    rw [e3']
    simp only [List.length_replicate]
    have : MaxBars.toNat = 1024 := rfl
    rw [this]; norm_num

/-- Witness of C2 on a two-channel engine at 48000 Hz with 800 frames per sample. -/
theorem Init_then_Generate_panics_witness :
    (1 : Int) ≤ 2 ∧ ∃ s', Init coarseLibm (specWindow coarseLibm)
        { smallEngine with frameSize := 2 } = some s' ∧ s'.numBins = 1024 ∧
      s'.loCuts.length = 1025 ∧ s'.hiCuts.length = 1025 ∧
      (∀ ds ∈ s'.workSets, ds.Bins.length = 1024) ∧ Generate coarseLibm s' = none :=
  ⟨by decide, Init_then_Generate_panics coarseLibm (specWindow coarseLibm)
    { smallEngine with frameSize := 2 } (by simp)⟩

/-! ## Generate: the value of every bin -/

theorem binAt_isSome_iff {W : Type} (s : Spectrum W) (c b : Int) :
    (binAt s c b).isSome ↔ ∃ ds, sliceGet s.workSets c = some ds ∧ 0 ≤ b ∧ b < ds.Bins.length := by
  unfold binAt
  constructor
  · intro h
    cases hc : sliceGet s.workSets c with
    | none => simp [hc] at h
    | some ds =>
      simp only [hc, Option.some_bind] at h
      obtain ⟨v, hv⟩ := Option.isSome_iff_exists.mp h
      exact ⟨ds, rfl, sliceGet_lt_length hv⟩
  · rintro ⟨ds, hds, h0, h1⟩
    obtain ⟨v, hv⟩ := sliceGet_isSome ds.Bins b h0 h1
    simp [hds, hv]

/-- The assignment `s.workSets[c].Bins[b] = v` succeeds on an existing entry,
changes that entry only, and keeps everything else that `Generate` reads. -/
theorem setBin_spec {W : Type} (t : Spectrum W) (c b : Int) (v : F64)
    (h : (binAt t c b).isSome) :
    ∃ t', setBin t c b v = some t' ∧ SameTables t t' ∧
      ∀ c' b', binAt t' c' b' = if c' = c ∧ b' = b then some v else binAt t c' b' := by
  obtain ⟨ds, hds, hb0, hb1⟩ := (binAt_isSome_iff t c b).mp h
  obtain ⟨hc0, hc1⟩ := sliceGet_lt_length hds
  have h1 := sliceSet_isSome ds.Bins b v hb0 hb1
  have h2 := sliceSet_isSome t.workSets c { ds with Bins := ds.Bins.set b.toNat v } hc0 hc1
  refine ⟨{ t with workSets := t.workSets.set c.toNat { ds with Bins := ds.Bins.set b.toNat v } },
    by simp [setBin, hds, h1, h2], ⟨rfl, rfl, rfl, rfl, rfl, by simp⟩, ?_⟩
  intro c' b'
  by_cases hcc : c' = c
  · subst hcc
    have hg : sliceGet (t.workSets.set c'.toNat { ds with Bins := ds.Bins.set b.toNat v }) c'
        = some { ds with Bins := ds.Bins.set b.toNat v } := sliceGet_set_same _ _ _ hc0 hc1
    by_cases hbb : b' = b
    · subst hbb
      simp [binAt, hg, sliceGet_set_same _ _ _ hb0 hb1]
    · simp [binAt, hg, hds, hbb, sliceGet_set_ne _ _ _ _ hb0 (Ne.symm hbb)]
  · simp [binAt, hcc, sliceGet_set_ne _ _ _ _ hc0 (Ne.symm hcc)]

/-- The inner loop of `Generate` adds up `pyt` over consecutive raw indices. -/
theorem sumLoop_eq {W : Type} (L : Libm) (s : Spectrum W) (c : Int) :
    ∀ (n : Nat) (start : Int) (acc : F64),
      (∀ k : Nat, k < n →
        sliceGet s.DataBuf (wrap64 (start + k + wrap64 (s.sampleDataSize * c)))
          = some (rawAt s c (start + k))) →
      loopFrom (sumStep L s c) n start acc =
        some (((List.range n).map fun (k : Nat) => start + (k : Int)).foldl
          (fun a i => F64.add a (pyt L (rawAt s c i))) acc) := by
  intro n
  induction n with
  | zero => intro start acc _; rfl
  | succ n ih =>
    intro start acc h
    have h0 := h 0 (Nat.succ_pos n)
    simp only [Nat.cast_zero, add_zero] at h0
    have hrec := ih (start + 1) (F64.add acc (pyt L (rawAt s c start))) (fun k hk => by
      have := h (k + 1) (Nat.succ_lt_succ hk)
      have e : start + ((k + 1 : Nat) : Int) = start + 1 + k := by push_cast; ring
      rw [e] at this; exact this)
    have hstep : sumStep L s c acc start = some (F64.add acc (pyt L (rawAt s c start))) := by
      simp only [sumStep, h0, Option.map_some']
    simp only [loopFrom, hstep, Option.some_bind]
    rw [hrec]
    congr 1
    rw [List.range_succ_eq_map, List.map_cons, List.foldl_cons, List.map_map]
    simp only [Nat.cast_zero, add_zero]
    congr 2
    funext k
    simp only [Function.comp, Nat.succ_eq_add_one]
    push_cast; ring

theorem widthMagnitude_congr {W : Type} (L : Libm) {s t : Spectrum W} (h : SameTables s t)
    (c b lo hi : Int) : widthMagnitude L t c b lo hi = widthMagnitude L s c b lo hi := by
  obtain ⟨_, _, h3, h4, h5, _⟩ := h
  simp only [widthMagnitude, magSum, rawAt, boost, h3, h4, h5]

/-- Every raw entry that the inner loop of `Generate` reads exists, when `DataBuf`
holds `sampleDataSize` entries per set and the cut range does not start below 0. -/
theorem rawIndex_ok {W : Type} (t : Spectrum W) (c lo hi : Int) (k : Nat)
    (hsz : 0 ≤ t.sampleDataSize)
    (hbuf : (t.DataBuf.length : Int) = t.sampleDataSize * t.workSets.length)
    (hint : (t.DataBuf.length : Int) < 2 ^ 63)
    (hc0 : 0 ≤ c) (hc1 : c < t.workSets.length)
    (hlo : freqCount lo hi t.sampleDataSize = 0 ∨ 0 ≤ lo)
    (hk : k < freqCount lo hi t.sampleDataSize) :
    sliceGet t.DataBuf (wrap64 (lo + k + wrap64 (t.sampleDataSize * c)))
      = some (rawAt t c (lo + k)) := by
  have hlo0 : 0 ≤ lo := by
    rcases hlo with h | h
    · omega
    · exact h
  have hk' : lo + k ≤ t.sampleDataSize - 1 := by
    unfold freqCount at hk
    omega
  have hm0 : 0 ≤ t.sampleDataSize * c := mul_nonneg hsz hc0
  have hm1 : t.sampleDataSize * (c + 1) ≤ t.sampleDataSize * t.workSets.length :=
    mul_le_mul_of_nonneg_left (by omega) hsz
  have hm2 : t.sampleDataSize * (c + 1) = t.sampleDataSize * c + t.sampleDataSize := by ring
  have hw1 : wrap64 (t.sampleDataSize * c) = t.sampleDataSize * c :=
    wrap64_of_range _ (by omega) (by omega)
  rw [hw1]
  have hw2 : wrap64 (lo + k + t.sampleDataSize * c) = lo + k + t.sampleDataSize * c :=
    wrap64_of_range _ (by omega) (by omega)
  rw [hw2]
  have hidx : (lo + k + t.sampleDataSize * c).toNat < t.DataBuf.length := by omega
  have he : c * t.sampleDataSize + (lo + k) = lo + k + t.sampleDataSize * c := by ring
  simp only [sliceGet, rawAt, he]
  rw [if_pos (by omega), List.getElem?_eq_getElem hidx, List.getD_eq_getElem _ _ hidx]

/-- Effect of one iteration of `Generate` on the bin `b` of the set `c`. -/
theorem genBin_spec {W : Type} (L : Libm) (t : Spectrum W) (c b lo hi : Int)
    (hsz : 0 ≤ t.sampleDataSize)
    (hbuf : (t.DataBuf.length : Int) = t.sampleDataSize * t.workSets.length)
    (hint : (t.DataBuf.length : Int) < 2 ^ 63)
    (hc0 : 0 ≤ c) (hc1 : c < t.workSets.length)
    (hl : sliceGet t.loCuts b = some lo) (hh : sliceGet t.hiCuts b = some hi)
    (hlo : freqCount lo hi t.sampleDataSize = 0 ∨ 0 ≤ lo)
    (hbin : (binAt t c b).isSome) :
    ∃ t', genBin L c t b = some t' ∧ SameTables t t' ∧
      ∀ c' b', binAt t' c' b' =
        if c' = c ∧ b' = b then some (widthMagnitude L t c b lo hi) else binAt t c' b' := by
  have hsum := sumLoop_eq L t c (freqCount lo hi t.sampleDataSize) lo (F64.fin 0)
    (fun k hk => rawIndex_ok t c lo hi k hsz hbuf hint hc0 hc1 hlo hk)
  obtain ⟨t', ht', hsame, hbins⟩ := setBin_spec t c b (widthMagnitude L t c b lo hi) hbin
  refine ⟨t', ?_, hsame, hbins⟩
  simp only [genBin, hl, hh, hsum, Option.bind_eq_bind, Option.some_bind]
  exact ht'

theorem genBin_inv {W : Type} (L : Libm) (s : Spectrum W)
    (hsz : 0 ≤ s.sampleDataSize)
    (hbuf : (s.DataBuf.length : Int) = s.sampleDataSize * s.workSets.length)
    (hint : (s.DataBuf.length : Int) < 2 ^ 63)
    (hcuts : ∀ b, 0 ≤ b → b ≤ s.numBins → ∃ lo hi, sliceGet s.loCuts b = some lo ∧
      sliceGet s.hiCuts b = some hi ∧ (freqCount lo hi s.sampleDataSize = 0 ∨ 0 ≤ lo))
    (hbins : ∀ c b : Int, 0 ≤ c → c < s.workSets.length → 0 ≤ b → b ≤ s.numBins →
      (binAt s c b).isSome)
    (c : Int) (hc0 : 0 ≤ c) (hc1 : c < s.workSets.length)
    (i : Int) (t : Spectrum W) (hi0 : 0 ≤ i) (hi1 : i ≤ s.numBins) (hP : GenInv L s c i t) :
    ∃ t', genBin L c t i = some t' ∧ GenInv L s c (i + 1) t' := by
  obtain ⟨hsame, hdone, hsome⟩ := hP
  obtain ⟨e1, e2, e3, e4, e5, e6⟩ := hsame
  obtain ⟨lo, hi, hl, hh, hlo⟩ := hcuts i hi0 hi1
  have hb : (binAt t c i).isSome := by rw [hsome]; exact hbins c i hc0 hc1 hi0 hi1
  obtain ⟨t', ht', hsame', hval⟩ := genBin_spec L t c i lo hi (by rw [e4]; exact hsz)
    (by rw [e5, e4, e6]; exact hbuf) (by rw [e5]; exact hint) hc0 (by rw [e6]; exact hc1)
    (by rw [e1]; exact hl) (by rw [e2]; exact hh) (by rw [e4]; exact hlo) hb
  have hsame2 : SameTables s t' := by
    obtain ⟨f1, f2, f3, f4, f5, f6⟩ := hsame'
    exact ⟨f1.trans e1, f2.trans e2, f3.trans e3, f4.trans e4, f5.trans e5, f6.trans e6⟩
  refine ⟨t', ht', hsame2, ?_, ?_⟩
  · intro c' b' hcb
    rw [hval]
    by_cases hnew : c' = c ∧ b' = i
    · obtain ⟨rfl, rfl⟩ := hnew
      rw [if_pos ⟨rfl, rfl⟩, widthMagnitude_congr L ⟨e1, e2, e3, e4, e5, e6⟩]
      simp [genValue, hl, hh]
    · rw [if_neg hnew]
      apply hdone
      rcases hcb with h | h
      · exact Or.inl h
      · refine Or.inr ⟨h.1, h.2.1, ?_⟩
        have : b' ≠ i := fun hbi => hnew ⟨h.1, hbi⟩
        omega
  · intro c' b'
    rw [hval]
    by_cases hnew : c' = c ∧ b' = i
    · obtain ⟨rfl, rfl⟩ := hnew
      rw [if_pos ⟨rfl, rfl⟩, ← hsome]
      simp [hb]
    · rw [if_neg hnew]; exact hsome c' b'

/-- The loop of `Generate` over the bins of the set `c`. -/
theorem genSet_inv {W : Type} (L : Libm) (s : Spectrum W)
    (hsz : 0 ≤ s.sampleDataSize)
    (hbuf : (s.DataBuf.length : Int) = s.sampleDataSize * s.workSets.length)
    (hint : (s.DataBuf.length : Int) < 2 ^ 63)
    (hcuts : ∀ b, 0 ≤ b → b ≤ s.numBins → ∃ lo hi, sliceGet s.loCuts b = some lo ∧
      sliceGet s.hiCuts b = some hi ∧ (freqCount lo hi s.sampleDataSize = 0 ∨ 0 ≤ lo))
    (hbins : ∀ c b : Int, 0 ≤ c → c < s.workSets.length → 0 ≤ b → b ≤ s.numBins →
      (binAt s c b).isSome)
    (c : Int) (t : Spectrum W) (hc0 : 0 ≤ c) (hc1 : c < s.workSets.length)
    (hP : GenInv L s c 0 t) :
    ∃ t', forIncl 0 t.numBins (genBin L c) t = some t' ∧ GenInv L s (c + 1) 0 t' := by
  have hnb : t.numBins = s.numBins := hP.1.2.2.1
  obtain ⟨t', ht', hQ⟩ := loopFrom_inv (genBin L c) (GenInv L s c) (s.numBins + 1 - 0).toNat 0 t hP
    (fun i u h0 h1 hu =>
      genBin_inv L s hsz hbuf hint hcuts hbins c hc0 hc1 i u h0 (by omega) hu)
  refine ⟨t', by simp only [forIncl, hnb, ht'], hQ.1, ?_, hQ.2.2⟩
  intro c' b' hcb
  apply hQ.2.1
  rcases hcb with h | h
  · rcases eq_or_lt_of_le (show c' ≤ c by omega) with hcc | hcc
    · exact Or.inr ⟨hcc, h.2.2.1, by omega⟩
    · exact Or.inl ⟨h.1, hcc, h.2.2.1, h.2.2.2⟩
  · omega

/-- Generate returns, and every bin it writes holds its closed form `genValue`. -/
theorem Generate_inv {W : Type} (L : Libm) (s : Spectrum W)
    (hsz : 0 ≤ s.sampleDataSize)
    (hbuf : (s.DataBuf.length : Int) = s.sampleDataSize * s.workSets.length)
    (hint : (s.DataBuf.length : Int) < 2 ^ 63)
    (hcuts : ∀ b, 0 ≤ b → b ≤ s.numBins → ∃ lo hi, sliceGet s.loCuts b = some lo ∧
      sliceGet s.hiCuts b = some hi ∧ (freqCount lo hi s.sampleDataSize = 0 ∨ 0 ≤ lo))
    (hbins : ∀ c b : Int, 0 ≤ c → c < s.workSets.length → 0 ≤ b → b ≤ s.numBins →
      (binAt s c b).isSome) :
    ∃ s', Generate L s = some s' ∧ SameTables s s' ∧
      ∀ c b : Int, 0 ≤ c → c < s.workSets.length → 0 ≤ b → b ≤ s.numBins →
        binAt s' c b = genValue L s c b := by
  obtain ⟨s', hs', hQ⟩ := loopFrom_inv
    (fun t xSet => forIncl 0 t.numBins (genBin L xSet) t) (fun c t => GenInv L s c 0 t)
    ((s.workSets.length : Int) - 1 + 1 - 0).toNat 0 s
    ⟨⟨rfl, rfl, rfl, rfl, rfl, rfl⟩, fun c' b' h => by omega, fun _ _ => rfl⟩
    (fun c t h0 h1 hP =>
      genSet_inv L s hsz hbuf hint hcuts hbins c t h0 (by omega) hP)
  refine ⟨s', hs', hQ.1, ?_⟩
  intro c b hc0 hc1 hb0 hb1
  exact hQ.2.1 c b (Or.inl ⟨hc0, by omega, hb0, hb1⟩)

/-- C3, as amended: when `DataBuf` holds `sampleDataSize` entries per channel and
every entry read or written exists, `Generate` returns, and for every channel `c` and
every bin `b` it writes whose cut range `[lo, hi]` has a width `w = hi - lo + 1`
other than 0, the stored magnitude is `Pow((S / w) * (log2(2+b) * (100/numBins)), 0.5)`
with `S` the sum of `sqrt(re^2 + im^2)` over the raw indices `lo ≤ i ≤ hi`, `i <
sampleDataSize`, read at `DataBuf[c*sampleDataSize + i]`: the divisor is the width of
the cut range, not the number of indices summed. -/
theorem Generate_bin_magnitude {W : Type} (L : Libm) (s : Spectrum W)
    (hsz : 0 ≤ s.sampleDataSize)
    (hbuf : (s.DataBuf.length : Int) = s.sampleDataSize * s.workSets.length)
    (hint : (s.DataBuf.length : Int) < 2 ^ 63)
    (hcuts : ∀ b, 0 ≤ b → b ≤ s.numBins → ∃ lo hi, sliceGet s.loCuts b = some lo ∧
      sliceGet s.hiCuts b = some hi ∧ (freqCount lo hi s.sampleDataSize = 0 ∨ 0 ≤ lo))
    (hbins : ∀ c b : Int, 0 ≤ c → c < s.workSets.length → 0 ≤ b → b ≤ s.numBins →
      (binAt s c b).isSome) :
    ∃ s', Generate L s = some s' ∧
      ∀ c b lo hi : Int, 0 ≤ c → c < s.workSets.length → 0 ≤ b → b ≤ s.numBins →
        sliceGet s.loCuts b = some lo → sliceGet s.hiCuts b = some hi →
        wrap64 (wrap64 (hi - lo) + 1) ≠ 0 →
        binAt s' c b = some (L.Pow (F64.mul
          (F64.div (magSum L s c (cutIndices lo hi s.sampleDataSize))
            (F64.ofInt (wrap64 (wrap64 (hi - lo) + 1))))
          (F64.mul (L.Log2 (F64.ofInt (2 + b))) (F64.div (F64.fin 100) (F64.ofInt s.numBins))))
          (F64.fin (1 / 2))) := by
  obtain ⟨s', hs', _, hval⟩ := Generate_inv L s hsz hbuf hint hcuts hbins
  refine ⟨s', hs', ?_⟩
  intro c b lo hi hc0 hc1 hb0 hb1 hl hh _
  rw [hval c b hc0 hc1 hb0 hb1]
  simp [genValue, hl, hh, widthMagnitude, boost]

theorem truncEngine_safe :
    (0 ≤ truncEngine.sampleDataSize ∧
      (truncEngine.DataBuf.length : Int)
        = truncEngine.sampleDataSize * truncEngine.workSets.length ∧
      (truncEngine.DataBuf.length : Int) < 2 ^ 63) ∧
    (∀ b, 0 ≤ b → b ≤ truncEngine.numBins → ∃ lo hi, sliceGet truncEngine.loCuts b = some lo ∧
      sliceGet truncEngine.hiCuts b = some hi ∧
      (freqCount lo hi truncEngine.sampleDataSize = 0 ∨ 0 ≤ lo)) ∧
    (∀ c b : Int, 0 ≤ c → c < truncEngine.workSets.length → 0 ≤ b → b ≤ truncEngine.numBins →
      (binAt truncEngine c b).isSome) := by
  refine ⟨⟨by simp [truncEngine], by simp [truncEngine], by simp [truncEngine]⟩, ?_, ?_⟩
  · intro b h0 h1
    have h1' : b ≤ 2 := h1
    have : b = 0 ∨ b = 1 ∨ b = 2 := by omega
    rcases this with h | h | h <;> subst h
    · exact ⟨0, 0, by simp [truncEngine, sliceGet], by simp [truncEngine, sliceGet], Or.inr le_rfl⟩
    · exact ⟨1, 1, by simp [truncEngine, sliceGet], by simp [truncEngine, sliceGet],
        Or.inr (by norm_num)⟩
    · exact ⟨2, 5, by simp [truncEngine, sliceGet], by simp [truncEngine, sliceGet],
        Or.inr (by norm_num)⟩
  · intro c b hc0 hc1 hb0 hb1
    have hc : c = 0 := by simp [truncEngine] at hc1; omega
    have h1' : b ≤ 2 := hb1
    have : b = 0 ∨ b = 1 ∨ b = 2 := by omega
    subst hc
    rcases this with h | h | h <;> subst h <;> simp [binAt, truncEngine, sliceGet]

theorem coarse_root_sq (n : Nat) : coarseLibm.root ((n * n : Nat) : ℚ) = n := by
  simp only [coarseLibm, Int.floor_natCast, Int.toNat_ofNat, Nat.sqrt_eq]

theorem coarse_root_16 : coarseLibm.root 16 = 4 := by
  have h := coarse_root_sq 4
  norm_num at h; exact h

theorem coarse_root_100 : coarseLibm.root 100 = 10 := by
  have h := coarse_root_sq 10
  norm_num at h; exact h

theorem coarse_root_400 : coarseLibm.root 400 = 20 := by
  have h := coarse_root_sq 20
  norm_num at h; exact h

theorem coarse_log2_4 : coarseLibm.log2 4 = 2 := by
  have h : Nat.log 2 4 = 2 := by rw [show 4 = 2 ^ 2 from rfl, Nat.log_pow (by norm_num)]
  have h4 : ⌊(4 : ℚ)⌋.toNat = 4 := by
    rw [show (4 : ℚ) = ((4 : Nat) : ℚ) by norm_num, Int.floor_natCast, Int.toNat_ofNat]
  simp only [coarseLibm, h4, h]; norm_num

theorem truncEngine_sum : magSum coarseLibm truncEngine 0 [2] = F64.fin 4 := by
  have hr : rawAt truncEngine 0 2 = ⟨F64.fin 4, F64.fin 0⟩ := by
    simp [rawAt, truncEngine]
  simp only [magSum, List.foldl_cons, List.foldl_nil, hr, pyt, F64.mul, F64.add]
  norm_num [Libm.Sqrt, coarse_root_16]

theorem truncEngine_boost : boost coarseLibm truncEngine 2 = F64.fin 100 := by
  simp only [boost, truncEngine, F64.ofInt, F64.div, Libm.Log2]
  norm_num [coarse_log2_4, F64.mul]

/-- Counterexample to C3 as stated: on `truncEngine` the last bin sums one raw entry
(magnitude 4) of its cut range `[2, 5]`; `Generate` stores `sqrt(4/4 * 100) = 10`, the
claimed value with the number of indices summed is `sqrt(4/1 * 100) = 20`. -/
theorem Generate_divisor_counterexample :
    ∃ s', Generate coarseLibm truncEngine = some s' ∧
      sliceGet truncEngine.loCuts 2 = some 2 ∧ sliceGet truncEngine.hiCuts 2 = some 5 ∧
      binAt s' 0 2 = some (F64.fin 10) ∧
      claimedMagnitude coarseLibm truncEngine 0 2 2 5 = F64.fin 20 := by
  obtain ⟨s', hs', _, hval⟩ := Generate_inv coarseLibm truncEngine truncEngine_safe.1.1
    truncEngine_safe.1.2.1 truncEngine_safe.1.2.2 truncEngine_safe.2.1 truncEngine_safe.2.2
  have hidx : cutIndices 2 5 truncEngine.sampleDataSize = [2] := by
    simp [cutIndices, freqCount, List.range_succ, truncEngine]
  have hl : sliceGet truncEngine.loCuts 2 = some 2 := by simp [truncEngine, sliceGet]
  have hh : sliceGet truncEngine.hiCuts 2 = some 5 := by simp [truncEngine, sliceGet]
  have hw : wrap64 (wrap64 (5 - 2) + 1) = 4 := by simp [wrap64]
  refine ⟨s', hs', hl, hh, ?_, ?_⟩
  · rw [hval 0 2 le_rfl (by simp [truncEngine]) (by norm_num) (by simp [truncEngine])]
    simp only [genValue, hl, hh, Option.some_bind, widthMagnitude, hidx, truncEngine_sum,
      truncEngine_boost, hw, F64.ofInt, F64.div, F64.mul]
    norm_num [Libm.Pow, Libm.powCases, Libm.Sqrt, coarse_root_100]
  · have hlog : coarseLibm.Log2 (F64.fin 4) = F64.fin 2 := by
      simp only [Libm.Log2]
      norm_num [coarse_log2_4]
    have hnb : truncEngine.numBins = 2 := rfl
    simp only [claimedMagnitude, hidx, truncEngine_sum, hnb, F64.ofInt, F64.div,
      List.length_cons, List.length_nil]
    norm_num [hlog, F64.mul, Libm.Pow, Libm.powCases, Libm.Sqrt, coarse_root_400]

/-- Witness of C3 (amended) on `truncEngine`. -/
theorem Generate_bin_magnitude_witness :
    ∃ s', Generate coarseLibm truncEngine = some s' ∧
      ∀ c b lo hi : Int, 0 ≤ c → c < truncEngine.workSets.length → 0 ≤ b →
        b ≤ truncEngine.numBins →
        sliceGet truncEngine.loCuts b = some lo → sliceGet truncEngine.hiCuts b = some hi →
        wrap64 (wrap64 (hi - lo) + 1) ≠ 0 →
        binAt s' c b = some (coarseLibm.Pow (F64.mul
          (F64.div (magSum coarseLibm truncEngine c (cutIndices lo hi truncEngine.sampleDataSize))
            (F64.ofInt (wrap64 (wrap64 (hi - lo) + 1))))
          (F64.mul (coarseLibm.Log2 (F64.ofInt (2 + b)))
            (F64.div (F64.fin 100) (F64.ofInt truncEngine.numBins))))
          (F64.fin (1 / 2))) :=
  Generate_bin_magnitude coarseLibm truncEngine truncEngine_safe.1.1
    truncEngine_safe.1.2.1 truncEngine_safe.1.2.2 truncEngine_safe.2.1 truncEngine_safe.2.2

/-! ## Generate on an all-zero buffer -/

/-- C4 (the code fails here): with an all-zero `DataBuf` and `numBins ≥ 1`, a bin
whose cut range has width 0 (`hiCuts[b] = loCuts[b] - 1`) does not get 0: `Generate`
divides its empty sum by `hi - lo + 1 = 0` and stores NaN, for every channel. -/
theorem Generate_zero_width_is_NaN {W : Type} (L : Libm) (s : Spectrum W)
    (_hnum : 1 ≤ s.numBins)
    (_hzero : ∀ v ∈ s.DataBuf, v = ⟨F64.fin 0, F64.fin 0⟩)
    (hsz : 0 ≤ s.sampleDataSize)
    (hbuf : (s.DataBuf.length : Int) = s.sampleDataSize * s.workSets.length)
    (hint : (s.DataBuf.length : Int) < 2 ^ 63)
    (hcuts : ∀ b, 0 ≤ b → b ≤ s.numBins → ∃ lo hi, sliceGet s.loCuts b = some lo ∧
      sliceGet s.hiCuts b = some hi ∧ (freqCount lo hi s.sampleDataSize = 0 ∨ 0 ≤ lo))
    (hbins : ∀ c b : Int, 0 ≤ c → c < s.workSets.length → 0 ≤ b → b ≤ s.numBins →
      (binAt s c b).isSome)
    (c b lo : Int) (hc0 : 0 ≤ c) (hc1 : c < s.workSets.length) (hb0 : 0 ≤ b)
    (hb1 : b ≤ s.numBins) (hl : sliceGet s.loCuts b = some lo)
    (hh : sliceGet s.hiCuts b = some (lo - 1)) :
    ∃ s', Generate L s = some s' ∧ binAt s' c b = some F64.nan ∧
      binAt s' c b ≠ some (F64.fin 0) := by
  obtain ⟨s', hs', _, hval⟩ := Generate_inv L s hsz hbuf hint hcuts hbins
  have hidx : cutIndices lo (lo - 1) s.sampleDataSize = [] := by
    have : freqCount lo (lo - 1) s.sampleDataSize = 0 := by unfold freqCount; omega
    simp [cutIndices, this]
  have hw : wrap64 (wrap64 (lo - 1 - lo) + 1) = 0 := by
    have : lo - 1 - lo = -1 := by ring
    rw [this]; simp [wrap64]
  have hdiv : F64.div (F64.fin 0) (F64.ofInt 0) = F64.nan := by simp [F64.div, F64.ofInt]
  have hmul : ∀ x, F64.mul F64.nan x = F64.nan := fun x => by cases x <;> rfl
  have hmag : widthMagnitude L s c b lo (lo - 1) = F64.nan := by
    unfold widthMagnitude
    rw [hidx, hw]
    simp only [magSum, List.foldl_nil]
    rw [hdiv, hmul]
    simp [Libm.Pow, Libm.powCases]
  have hv : binAt s' c b = some F64.nan := by
    rw [hval c b hc0 hc1 hb0 hb1]
    simp only [genValue, hl, hh, Option.some_bind, hmag]
  exact ⟨s', hs', hv, by rw [hv]; simp⟩

theorem staleEngine_safe :
    (0 ≤ staleEngine.sampleDataSize ∧
      (staleEngine.DataBuf.length : Int)
        = staleEngine.sampleDataSize * staleEngine.workSets.length ∧
      (staleEngine.DataBuf.length : Int) < 2 ^ 63) ∧
    (∀ b, 0 ≤ b → b ≤ staleEngine.numBins → ∃ lo hi, sliceGet staleEngine.loCuts b = some lo ∧
      sliceGet staleEngine.hiCuts b = some hi ∧
      (freqCount lo hi staleEngine.sampleDataSize = 0 ∨ 0 ≤ lo)) ∧
    (∀ c b : Int, 0 ≤ c → c < staleEngine.workSets.length → 0 ≤ b → b ≤ staleEngine.numBins →
      (binAt staleEngine c b).isSome) := by
  refine ⟨⟨by simp [staleEngine], by simp [staleEngine], by simp [staleEngine]⟩, ?_, ?_⟩
  · intro b h0 h1
    have h1' : b ≤ 2 := h1
    have : b = 0 ∨ b = 1 ∨ b = 2 := by omega
    rcases this with h | h | h <;> subst h
    · exact ⟨1, 1, by simp [staleEngine, sliceGet], by simp [staleEngine, sliceGet],
        Or.inr (by norm_num)⟩
    · exact ⟨2, 2, by simp [staleEngine, sliceGet], by simp [staleEngine, sliceGet],
        Or.inr (by norm_num)⟩
    · exact ⟨3, 2, by simp [staleEngine, sliceGet], by simp [staleEngine, sliceGet],
        Or.inr (by norm_num)⟩
  · intro c b hc0 hc1 hb0 hb1
    have hc : c = 0 := by simp [staleEngine] at hc1; omega
    have h1' : b ≤ 2 := hb1
    have : b = 0 ∨ b = 1 ∨ b = 2 := by omega
    subst hc
    rcases this with h | h | h <;> subst h <;> simp [binAt, staleEngine, sliceGet]

/-- Witness of C4 on `staleEngine`: bin 2 of channel 0 becomes NaN. -/
theorem Generate_zero_width_is_NaN_witness :
    (1 ≤ staleEngine.numBins ∧ ∀ v ∈ staleEngine.DataBuf, v = ⟨F64.fin 0, F64.fin 0⟩) ∧
    ∃ s', Generate coarseLibm staleEngine = some s' ∧ binAt s' 0 2 = some F64.nan ∧
      binAt s' 0 2 ≠ some (F64.fin 0) :=
  ⟨⟨by simp [staleEngine], by simp [staleEngine]⟩,
    Generate_zero_width_is_NaN coarseLibm staleEngine (by simp [staleEngine])
      (by simp [staleEngine]) staleEngine_safe.1.1 staleEngine_safe.1.2.1
      staleEngine_safe.1.2.2 staleEngine_safe.2.1 staleEngine_safe.2.2 0 2 3 le_rfl
      (by simp [staleEngine]) (by norm_num) (by simp [staleEngine])
      (by simp [staleEngine, sliceGet]) (by simp [staleEngine, sliceGet])⟩

/-! ## Scale -/

/-- A loop that rewrites the entry `i` of a slice by `f` at each index `i` maps `f`
over the entries of its range. -/
theorem loop_pointwise {α : Type} (f : α → α) (body : List α → Int → Option (List α))
    (hbody : ∀ l i v, sliceGet l i = some v → body l i = some (l.set i.toNat (f v)))
    (bins : List α) (n : Nat) (start : Int) (h0 : 0 ≤ start)
    (hex : ∀ j, start ≤ j → j < start + n → ∃ v, sliceGet bins j = some v) :
    ∃ bins', loopFrom body n start bins = some bins' ∧ bins'.length = bins.length ∧
      ∀ j, sliceGet bins' j =
        if start ≤ j ∧ j < start + n then (sliceGet bins j).map f else sliceGet bins j := by
  obtain ⟨l', hl', hlen, hP⟩ := loopFrom_inv body
    (fun i l => l.length = bins.length ∧ ∀ j, sliceGet l j =
      if start ≤ j ∧ j < i then (sliceGet bins j).map f else sliceGet bins j)
    n start bins ⟨rfl, fun j => by rw [if_neg (by omega)]⟩
    (fun i l hi0 hi1 hP => by
      obtain ⟨hlen, hval⟩ := hP
      obtain ⟨v, hv⟩ := hex i hi0 hi1
      have hvl : sliceGet l i = some v := by rw [hval i, if_neg (by omega)]; exact hv
      have hi00 : 0 ≤ i := by omega
      have hilt : i < (l.length : Int) := (sliceGet_lt_length hvl).2
      refine ⟨_, hbody l i v hvl, by simpa using hlen, ?_⟩
      intro j
      by_cases hji : j = i
      · subst hji
        rw [sliceGet_set_same _ _ _ hi00 hilt, if_pos ⟨hi0, by omega⟩, hv]; rfl
      · rw [sliceGet_set_ne _ _ _ _ hi00 (Ne.symm hji), hval j]
        by_cases hc : start ≤ j ∧ j < i
        · rw [if_pos hc, if_pos ⟨hc.1, by omega⟩]
        · rw [if_neg hc, if_neg (by omega)])
  exact ⟨l', hl', hlen, hP⟩

theorem scaleStep_eq (vMag cHeight : F64) (l : List F64) (i : Int) (v : F64)
    (hv : sliceGet l i = some v) :
    scaleStep vMag cHeight l i = some (l.set i.toNat (scaledValue vMag cHeight v)) := by
  obtain ⟨h0, h1⟩ := sliceGet_lt_length hv
  have h2 := sliceSet_isSome l i (F64.sub (F64.mul (F64.div v vMag) cHeight) (F64.fin 1)) h0 h1
  have h3 := sliceGet_set_same l i (F64.sub (F64.mul (F64.div v vMag) cHeight) (F64.fin 1)) h0 h1
  have h4 := sliceSet_isSome
    (l.set i.toNat (F64.sub (F64.mul (F64.div v vMag) cHeight) (F64.fin 1))) i
    (scaledValue vMag cHeight v) h0 (by simpa using h1)
  rw [List.set_set] at h4
  simp only [scaleStep, hv, h2, h3, Option.bind_eq_bind, Option.some_bind]
  exact h4

/-- The second loop of `Scale` replaces every bin `0..numBins` by its scaled value. -/
theorem scaleLoop_spec (vMag cHeight : F64) (bins : List F64) (numBins : Int)
    (hex : ∀ b, 0 ≤ b → b ≤ numBins → ∃ v, sliceGet bins b = some v) :
    ∃ bins', forIncl 0 numBins (scaleStep vMag cHeight) bins = some bins' ∧
      bins'.length = bins.length ∧
      ∀ j, sliceGet bins' j = if 0 ≤ j ∧ j ≤ numBins
        then (sliceGet bins j).map (scaledValue vMag cHeight) else sliceGet bins j := by
  obtain ⟨l', hl', hlen, hP⟩ := loop_pointwise (scaledValue vMag cHeight)
    (scaleStep vMag cHeight) (scaleStep_eq vMag cHeight) bins (numBins + 1 - 0).toNat 0 le_rfl
    (fun j h0 h1 => hex j h0 (by omega))
  refine ⟨l', hl', hlen, ?_⟩
  intro j
  rw [hP j]
  by_cases hc : 0 ≤ j ∧ j ≤ numBins
  · rw [if_pos hc, if_pos ⟨hc.1, by omega⟩]
  · rw [if_neg hc, if_neg (by omega)]

/-- The first loop of `Scale`: it ends, `vSilent` stays true exactly when no bin
`0..numBins` is above 0, and then the peak is still 0.125. -/
theorem peakLoop_spec (bins : List F64) (numBins : Int)
    (hex : ∀ b, 0 ≤ b → b ≤ numBins → ∃ v, sliceGet bins b = some v) :
    ∃ st, forIncl 0 numBins (peakStep bins) (F64.fin (1 / 8), true) = some st ∧
      (st.2 = true ↔ ∀ b v, 0 ≤ b → b ≤ numBins → sliceGet bins b = some v →
        F64.gt v (F64.fin 0) = false) ∧
      (st.2 = true → st.1 = F64.fin (1 / 8)) := by
  obtain ⟨st, hst, h1, h2⟩ := loopFrom_inv (peakStep bins)
    (fun i st => (st.2 = true ↔ ∀ b v, 0 ≤ b → b < i → sliceGet bins b = some v →
        F64.gt v (F64.fin 0) = false) ∧ (st.2 = true → st.1 = F64.fin (1 / 8)))
    (numBins + 1 - 0).toNat 0 (F64.fin (1 / 8), true)
    ⟨⟨fun _ b v h0 h1 => by omega, fun _ => rfl⟩, fun _ => rfl⟩
    (fun i st hi0 hi1 hP => by
      obtain ⟨hs, hp⟩ := hP
      obtain ⟨v, hv⟩ := hex i hi0 (by omega)
      by_cases hg : F64.gt v (F64.fin 0) = true
      · refine ⟨(if F64.lt st.1 v then v else st.1, false),
          by simp only [peakStep, hv, hg, Option.bind_eq_bind, Option.some_bind, if_true],
          ?_, ?_⟩
        · constructor
          · intro h; simp at h
          · intro h
            have := h i v hi0 (by omega) hv
            rw [hg] at this; simp at this
        · intro h; simp at h
      · have hg' : F64.gt v (F64.fin 0) = false := by simpa using hg
        refine ⟨st, by simp [peakStep, hv, hg'], ?_, hp⟩
        constructor
        · intro h b w hb0 hb1 hw
          rcases eq_or_lt_of_le (show b ≤ i by omega) with hbi | hbi
          · subst hbi; rw [hv] at hw; cases hw; exact hg'
          · exact hs.mp h b w hb0 hbi hw
        · intro h
          exact hs.mpr (fun b w hb0 hb1 hw => h b w hb0 (by omega) hw))
  refine ⟨st, hst, ?_, h2⟩
  rw [h1]
  constructor
  · intro h b v hb0 hb1 hv; exact h b v hb0 (by omega) hv
  · intro h b v hb0 hb1 hv; exact h b v hb0 (by omega) hv

/-- The divisor `max(x, 1.0)` is NaN, `+Inf`, or a finite number at least 1. -/
theorem max_one_cases (x : F64) :
    F64.max x (F64.fin 1) = F64.nan ∨ F64.max x (F64.fin 1) = F64.pinf ∨
      ∃ r : ℚ, 1 ≤ r ∧ F64.max x (F64.fin 1) = F64.fin r := by
  cases x with
  | nan => left; simp [F64.max]
  | pinf => right; left; simp [F64.max]
  | ninf => right; right; exact ⟨1, le_rfl, by simp [F64.max, F64.gt, F64.lt]⟩
  | fin q =>
    right; right
    by_cases h : 1 < q
    · exact ⟨q, le_of_lt h, by simp [F64.max, F64.gt, F64.lt, h]⟩
    · exact ⟨1, le_rfl, by simp [F64.max, F64.gt, F64.lt, h]⟩

/-- A finite non-negative bin divided by a divisor ≥ 1 (or `+Inf`) and scaled to
`height ≥ 1` lands in `[-1, height-1]`. -/
theorem scaledValue_bounds (vMag : F64) (height : Int) (q : ℚ) (hh : 1 ≤ height) (hq : 0 ≤ q)
    (hv : vMag = F64.pinf ∨ ∃ r : ℚ, 1 ≤ r ∧ vMag = F64.fin r) :
    ∃ x : ℚ, scaledValue vMag (F64.ofInt height) (F64.fin q) = F64.fin x ∧
      -1 ≤ x ∧ x ≤ (height : ℚ) - 1 := by
  have hhq : (1 : ℚ) ≤ (height : ℚ) := by exact_mod_cast hh
  have key : ∀ y : ℚ, 0 ≤ y → ∃ x : ℚ,
      F64.min (F64.sub (F64.ofInt height) (F64.fin 1))
        (F64.sub (F64.mul (F64.fin y) (F64.ofInt height)) (F64.fin 1)) = F64.fin x ∧
      -1 ≤ x ∧ x ≤ (height : ℚ) - 1 := by
    intro y hy
    have hyh : 0 ≤ y * (height : ℚ) := mul_nonneg hy (by linarith)
    by_cases hlt : (height : ℚ) - 1 < y * height - 1
    · refine ⟨(height : ℚ) - 1, ?_, by linarith, le_rfl⟩
      simp [F64.min, F64.sub, F64.add, F64.neg, F64.mul, F64.ofInt, F64.lt, ← sub_eq_add_neg]
      intro h; linarith
    · refine ⟨y * height - 1, ?_, by linarith, by linarith⟩
      simp [F64.min, F64.sub, F64.add, F64.neg, F64.mul, F64.ofInt, F64.lt, ← sub_eq_add_neg]
      intro h; linarith
  rcases hv with h | ⟨r, hr, h⟩
  · subst h
    obtain ⟨x, hx, hb⟩ := key 0 le_rfl
    exact ⟨x, by simpa [scaledValue, F64.div] using hx, hb⟩
  · subst h
    have hr0 : r ≠ 0 := by linarith
    obtain ⟨x, hx, hb⟩ := key (q / r) (div_nonneg hq (by linarith))
    exact ⟨x, by simpa [scaledValue, F64.div, hr0] using hx, hb⟩

/-- On sets that all have a bin above 0, `scaleSets` visits every set and brings
each bin `0..numBins` into `[-1, height-1]`. -/
theorem scaleSets_bounds {W : Type} (ops : WindowOps W) (numBins height : Int)
    (hh : 1 ≤ height) :
    ∀ ws : List (DataSet W),
      (∀ ds ∈ ws, frameDivisor ops numBins ds ≠ F64.nan) →
      (∀ ds ∈ ws, ∀ b, 0 ≤ b → b ≤ numBins →
        ∃ q : ℚ, 0 ≤ q ∧ sliceGet ds.Bins b = some (F64.fin q)) →
      (∀ ds ∈ ws, ∃ b q, 0 ≤ b ∧ b ≤ numBins ∧ (0 : ℚ) < q ∧
        sliceGet ds.Bins b = some (F64.fin q)) →
      ∃ ws', scaleSets ops numBins (F64.ofInt height) ws = some ws' ∧
        ws'.length = ws.length ∧
        ∀ ds' ∈ ws', ∀ b, 0 ≤ b → b ≤ numBins →
          ∃ x : ℚ, sliceGet ds'.Bins b = some (F64.fin x) ∧ -1 ≤ x ∧ x ≤ (height : ℚ) - 1 := by
  intro ws
  induction ws with
  | nil => intro _ _ _; exact ⟨[], rfl, rfl, fun ds' h => by simp at h⟩
  | cons vSet rest ih =>
    intro hdiv hbins hloud
    obtain ⟨rest', hrest', hlen', hb'⟩ := ih
      (fun ds h => hdiv ds (List.mem_cons_of_mem _ h))
      (fun ds h => hbins ds (List.mem_cons_of_mem _ h))
      (fun ds h => hloud ds (List.mem_cons_of_mem _ h))
    have hex : ∀ b, 0 ≤ b → b ≤ numBins → ∃ v, sliceGet vSet.Bins b = some v := by
      intro b h0 h1
      obtain ⟨q, _, hq⟩ := hbins vSet (List.mem_cons_self _ _) b h0 h1
      exact ⟨_, hq⟩
    obtain ⟨st, hst, hsil, _⟩ := peakLoop_spec vSet.Bins numBins hex
    have hns : st.2 = false := by
      obtain ⟨b, q, hb0, hb1, hq, hbq⟩ := hloud vSet (List.mem_cons_self _ _)
      by_contra hc
      have ht : st.2 = true := by simpa using hc
      have := hsil.mp ht b _ hb0 hb1 hbq
      simp [F64.gt, F64.lt, hq] at this
    have hpk : st.1 = framePeak numBins vSet.Bins := by
      unfold framePeak; rw [hst]; rfl
    obtain ⟨bins', hbins', _, hval⟩ := scaleLoop_spec (frameDivisor ops numBins vSet)
      (F64.ofInt height) vSet.Bins numBins hex
    refine ⟨({ vSet with
        peakHeight := st.1
        Bins := bins'
        fastWindow := (scaleWindows ops vSet.fastWindow vSet.slowWindow st.1).1
        slowWindow := (scaleWindows ops vSet.fastWindow vSet.slowWindow st.1).2.1 } :
          DataSet W) :: rest',
      ?_, by simp [hlen'], ?_⟩
    · have hb2 : forIncl 0 numBins
          (scaleStep (scaleWindows ops vSet.fastWindow vSet.slowWindow st.1).2.2
            (F64.ofInt height)) vSet.Bins = some bins' := by
        rw [hpk]; exact hbins'
      simp only [scaleSets, hst, hns, hb2, hrest', Option.bind_eq_bind, Option.some_bind,
        Bool.false_eq_true, if_false]
    · intro ds' hds' b h0 h1
      rcases List.mem_cons.mp hds' with h | h
      · subst h
        obtain ⟨q, hq0, hq⟩ := hbins vSet (List.mem_cons_self _ _) b h0 h1
        have hd := hdiv vSet (List.mem_cons_self _ _)
        have hcases : frameDivisor ops numBins vSet = F64.pinf ∨
            ∃ r : ℚ, 1 ≤ r ∧ frameDivisor ops numBins vSet = F64.fin r := by
          unfold frameDivisor at hd ⊢
          unfold scaleWindows at hd ⊢
          rcases max_one_cases _ with h | h | h
          · exact absurd h hd
          · exact Or.inl h
          · exact Or.inr h
        obtain ⟨x, hx, hb⟩ := scaledValue_bounds _ height q hh hq0 hcases
        refine ⟨x, ?_, hb⟩
        show sliceGet bins' b = _
        rw [hval b, if_pos ⟨h0, h1⟩, hq]
        simp [hx]
      · exact hb' ds' h b h0 h1

/-- C5: for every height ≥ 1 and every engine state in which every channel has a
bin above 0 and all bins `0..numBins` are finite and non-negative, `Scale(height)`
returns and every bin `0..numBins` of every channel satisfies `-1 ≤ Bins[b] ≤
height-1`, whatever the moving windows report, as long as the divisor
`max(mean + 2*sd, 1.0)` they lead to is a number (not NaN). -/
theorem Scale_bins_within_bounds {W : Type} (ops : WindowOps W) (s : Spectrum W) (height : Int)
    (hh : 1 ≤ height)
    (hdiv : ∀ ds ∈ s.workSets, frameDivisor ops s.numBins ds ≠ F64.nan)
    (hbins : ∀ ds ∈ s.workSets, ∀ b, 0 ≤ b → b ≤ s.numBins →
      ∃ q : ℚ, 0 ≤ q ∧ sliceGet ds.Bins b = some (F64.fin q))
    (hloud : ∀ ds ∈ s.workSets, ∃ b q, 0 ≤ b ∧ b ≤ s.numBins ∧ (0 : ℚ) < q ∧
      sliceGet ds.Bins b = some (F64.fin q)) :
    ∃ s', Scale ops s height = some s' ∧ s'.workSets.length = s.workSets.length ∧
      ∀ ds' ∈ s'.workSets, ∀ b, 0 ≤ b → b ≤ s.numBins →
        ∃ x : ℚ, sliceGet ds'.Bins b = some (F64.fin x) ∧ -1 ≤ x ∧ x ≤ (height : ℚ) - 1 := by
  obtain ⟨ws', hws', hlen, hb⟩ := scaleSets_bounds ops s.numBins height hh s.workSets
    hdiv hbins hloud
  exact ⟨{ s with workSets := ws' }, by simp [Scale, hws'], hlen, hb⟩

theorem peakEngine_divisor :
    ∀ ds ∈ peakEngine.workSets,
      frameDivisor (specWindow coarseLibm) peakEngine.numBins ds = F64.fin 1 := by
  intro ds hds
  simp only [peakEngine, List.mem_cons, List.mem_singleton, List.not_mem_nil, or_false] at hds
  rcases hds with h | h <;> subst h <;>
  simp [frameDivisor, framePeak, peakEngine, forIncl, loopFrom, peakStep, sliceGet, F64.gt,
    F64.lt, scaleWindows, specWindow, MovingWindow.Update, MovingWindow.Mean,
    MovingWindow.StdDev, F64.add, F64.mul, F64.div, F64.sub, F64.neg, F64.ofInt, F64.abs,
    F64.max, Libm.Sqrt, ScalingResetDeviation, ScalingDumpPercent] <;> norm_num <;> simp

theorem peakEngine_bins :
    (∀ ds ∈ peakEngine.workSets, ∀ b, 0 ≤ b → b ≤ peakEngine.numBins →
      ∃ q : ℚ, 0 ≤ q ∧ sliceGet ds.Bins b = some (F64.fin q)) ∧
    (∀ ds ∈ peakEngine.workSets, ∃ b q, 0 ≤ b ∧ b ≤ peakEngine.numBins ∧ (0 : ℚ) < q ∧
      sliceGet ds.Bins b = some (F64.fin q)) := by
  constructor
  · intro ds hds b h0 h1
    have h1' : b ≤ 3 := h1
    have hb : b = 0 ∨ b = 1 ∨ b = 2 ∨ b = 3 := by omega
    simp only [peakEngine, List.mem_cons, List.mem_singleton, List.not_mem_nil, or_false] at hds
    rcases hds with h | h <;> subst h <;> rcases hb with h | h | h | h <;> subst h
    · exact ⟨0, le_rfl, by simp [sliceGet]⟩
    · exact ⟨1 / 2, by norm_num, by simp [sliceGet]⟩
    · exact ⟨0, le_rfl, by simp [sliceGet]⟩
    · exact ⟨0, le_rfl, by simp [sliceGet]⟩
    · exact ⟨0, le_rfl, by simp [sliceGet]⟩
    · exact ⟨0, le_rfl, by simp [sliceGet]⟩
    · exact ⟨1 / 4, by norm_num, by simp [sliceGet]⟩
    · exact ⟨0, le_rfl, by simp [sliceGet]⟩
  · intro ds hds
    simp only [peakEngine, List.mem_cons, List.mem_singleton, List.not_mem_nil, or_false] at hds
    rcases hds with h | h <;> subst h
    · exact ⟨1, 1 / 2, by norm_num, by simp [peakEngine], by norm_num, by simp [sliceGet]⟩
    · exact ⟨2, 1 / 4, by norm_num, by simp [peakEngine], by norm_num, by simp [sliceGet]⟩

/-- Witness of C5: the case of the specification, a single non-zero peak below 1.0
in each channel with empty window history, at height 10. -/
theorem Scale_bins_within_bounds_witness :
    ∃ s', Scale (specWindow coarseLibm) peakEngine 10 = some s' ∧
      s'.workSets.length = peakEngine.workSets.length ∧
      ∀ ds' ∈ s'.workSets, ∀ b, 0 ≤ b → b ≤ peakEngine.numBins →
        ∃ x : ℚ, sliceGet ds'.Bins b = some (F64.fin x) ∧ -1 ≤ x ∧ x ≤ ((10 : Int) : ℚ) - 1 :=
  Scale_bins_within_bounds (specWindow coarseLibm) peakEngine 10 (by norm_num)
    (fun ds hds => by rw [peakEngine_divisor ds hds]; simp)
    peakEngine_bins.1 peakEngine_bins.2

/-- On a silent first set `Scale` returns at once: that set only gets its peak reset
to 0.125, and the sets after it are not visited. -/
theorem scaleSets_silent {W : Type} (ops : WindowOps W) (numBins : Int) (cHeight : F64)
    (vSet : DataSet W) (rest : List (DataSet W))
    (hsil : ∀ b, 0 ≤ b → b ≤ numBins → sliceGet vSet.Bins b = some (F64.fin 0)) :
    scaleSets ops numBins cHeight (vSet :: rest)
      = some ({ vSet with peakHeight := F64.fin (1 / 8) } :: rest) := by
  obtain ⟨st, hst, hs, hp⟩ := peakLoop_spec vSet.Bins numBins
    (fun b h0 h1 => ⟨_, hsil b h0 h1⟩)
  have ht : st.2 = true := by
    rw [hs]
    intro b v h0 h1 hv
    rw [hsil b h0 h1] at hv
    cases hv
    simp [F64.gt, F64.lt]
  simp only [scaleSets, hst, ht, hp ht, Option.bind_eq_bind, Option.some_bind, if_true]

/-- One silent frame: `Scale` returns, all `Bins` and both windows of every set are
what they were. -/
theorem Scale_silent_step {W : Type} (ops : WindowOps W) (s : Spectrum W) (height : Int)
    (hsil : ∀ ds ∈ s.workSets, ∀ b, 0 ≤ b → b ≤ s.numBins →
      sliceGet ds.Bins b = some (F64.fin 0)) :
    ∃ s', Scale ops s height = some s' ∧ s'.numBins = s.numBins ∧
      s'.workSets.map (fun d => d.Bins) = s.workSets.map (fun d => d.Bins) ∧
      s'.workSets.map (fun d => d.slowWindow) = s.workSets.map (fun d => d.slowWindow) ∧
      s'.workSets.map (fun d => d.fastWindow) = s.workSets.map (fun d => d.fastWindow) := by
  cases hws : s.workSets with
  | nil =>
    exact ⟨{ s with workSets := [] }, by simp [Scale, hws, scaleSets], rfl, rfl, rfl, rfl⟩
  | cons vSet rest =>
    have h := scaleSets_silent ops s.numBins (F64.ofInt height) vSet rest
      (fun b h0 h1 => hsil vSet (by rw [hws]; exact List.mem_cons_self _ _) b h0 h1)
    exact ⟨{ s with workSets := { vSet with peakHeight := F64.fin (1 / 8) } :: rest },
      by simp [Scale, hws, h], rfl, rfl, rfl, rfl⟩

/-- C6: if every bin `0..numBins` of every channel is exactly 0, `Scale(height)`
returns, leaves every channel's `Bins` unchanged and updates neither moving window;
so after any number of silent frames in a row the stored bins and windows are those
of the prior frame. -/
theorem Scale_silent_frames_unchanged {W : Type} (ops : WindowOps W) (height : Int) (n : Nat)
    (s : Spectrum W)
    (hsil : ∀ ds ∈ s.workSets, ∀ b, 0 ≤ b → b ≤ s.numBins →
      sliceGet ds.Bins b = some (F64.fin 0)) :
    ∃ s', ScaleFrames ops height n s = some s' ∧
      s'.workSets.map (fun d => d.Bins) = s.workSets.map (fun d => d.Bins) ∧
      s'.workSets.map (fun d => d.slowWindow) = s.workSets.map (fun d => d.slowWindow) ∧
      s'.workSets.map (fun d => d.fastWindow) = s.workSets.map (fun d => d.fastWindow) := by
  induction n generalizing s with
  | zero => exact ⟨s, rfl, rfl, rfl, rfl⟩
  | succ n ih =>
    obtain ⟨s1, hs1, hn, hb, hsw, hfw⟩ := Scale_silent_step ops s height hsil
    have hsil1 : ∀ ds ∈ s1.workSets, ∀ b, 0 ≤ b → b ≤ s1.numBins →
        sliceGet ds.Bins b = some (F64.fin 0) := by
      intro ds hds b h0 h1
      have hm : ds.Bins ∈ s1.workSets.map (fun d => d.Bins) := List.mem_map_of_mem _ hds
      rw [hb] at hm
      obtain ⟨d, hd, hdb⟩ := List.mem_map.mp hm
      rw [← hdb]
      exact hsil d hd b h0 (by rw [← hn]; exact h1)
    obtain ⟨s', hs', hb', hsw', hfw'⟩ := ih s1 hsil1
    exact ⟨s', by simp [ScaleFrames, hs1, hs'], hb'.trans hb, hsw'.trans hsw, hfw'.trans hfw⟩

theorem silentEngine_silent :
    ∀ ds ∈ silentEngine.workSets, ∀ b, 0 ≤ b → b ≤ silentEngine.numBins →
      sliceGet ds.Bins b = some (F64.fin 0) := by
  intro ds hds b h0 h1
  have h1' : b ≤ 3 := h1
  have hb : b = 0 ∨ b = 1 ∨ b = 2 ∨ b = 3 := by omega
  simp only [silentEngine, List.mem_cons, List.mem_singleton, List.not_mem_nil, or_false] at hds
  rcases hds with h | h <;> subst h <;> rcases hb with h | h | h | h <;> subst h <;>
    simp [sliceGet]

/-- Witness of C6: three silent frames on `silentEngine`. -/
theorem Scale_silent_frames_unchanged_witness :
    ∃ s', ScaleFrames (specWindow coarseLibm) 10 3 silentEngine = some s' ∧
      s'.workSets.map (fun d => d.Bins) = silentEngine.workSets.map (fun d => d.Bins) ∧
      s'.workSets.map (fun d => d.slowWindow)
        = silentEngine.workSets.map (fun d => d.slowWindow) ∧
      s'.workSets.map (fun d => d.fastWindow)
        = silentEngine.workSets.map (fun d => d.fastWindow) :=
  Scale_silent_frames_unchanged (specWindow coarseLibm) 10 3 silentEngine silentEngine_silent

/-- C7 (the code fails here): when the first channel is silent, `Scale` returns
from the whole call (`return`, not `continue`): every later channel keeps its bins and
its windows, whatever they hold, instead of being scaled. -/
theorem Scale_stops_at_silent_channel {W : Type} (ops : WindowOps W) (s : Spectrum W)
    (height : Int) (ds0 : DataSet W) (rest : List (DataSet W))
    (hws : s.workSets = ds0 :: rest)
    (hsil : ∀ b, 0 ≤ b → b ≤ s.numBins → sliceGet ds0.Bins b = some (F64.fin 0)) :
    Scale ops s height
      = some { s with workSets := { ds0 with peakHeight := F64.fin (1 / 8) } :: rest } := by
  simp only [Scale, hws, scaleSets_silent ops s.numBins (F64.ofInt height) ds0 rest hsil,
    Option.map_some']

theorem halfSilentEngine_sets :
    ∃ ds0 ds1, halfSilentEngine.workSets = [ds0, ds1] ∧
      (∀ b, 0 ≤ b → b ≤ halfSilentEngine.numBins → sliceGet ds0.Bins b = some (F64.fin 0)) ∧
      sliceGet ds1.Bins 1 = some (F64.fin (1 / 2)) ∧
      scaledValue (frameDivisor (specWindow coarseLibm) halfSilentEngine.numBins ds1)
        (F64.ofInt 10) (F64.fin (1 / 2)) = F64.fin (2 / 3) := by
  refine ⟨_, _, rfl, ?_, by simp [sliceGet], ?_⟩
  · intro b h0 h1
    have h1' : b ≤ 3 := h1
    have hb : b = 0 ∨ b = 1 ∨ b = 2 ∨ b = 3 := by omega
    rcases hb with h | h | h | h <;> subst h <;> simp [sliceGet]
  · have hd : frameDivisor (specWindow coarseLibm) halfSilentEngine.numBins
        { id := 1, Data := [],
          Bins := [F64.fin 0, F64.fin (1 / 2), F64.fin 3, F64.fin 0, F64.fin 0],
          falloff := List.replicate 5 (F64.fin 0), peakHeight := F64.fin 0,
          slowWindow := ⟨4, []⟩, fastWindow := ⟨2, []⟩ } = F64.fin 3 := by
      simp [frameDivisor, framePeak, halfSilentEngine, forIncl, loopFrom, peakStep, sliceGet,
        F64.gt, F64.lt, scaleWindows, specWindow, MovingWindow.Update, MovingWindow.Mean,
        MovingWindow.StdDev, F64.add, F64.mul, F64.div, F64.sub, F64.neg, F64.ofInt, F64.abs,
        F64.max, Libm.Sqrt, ScalingResetDeviation, ScalingDumpPercent]
      norm_num
      simp
    rw [hd]
    simp [scaledValue, F64.min, F64.sub, F64.add, F64.neg, F64.mul, F64.div, F64.ofInt, F64.lt]
    norm_num

/-- Witness of C7 on `halfSilentEngine` (channel 0 silent, channel 1 loud) at
height 10: bin 1 of channel 1 still holds 0.5, where scaling would give 2/3. -/
theorem Scale_stops_at_silent_channel_witness :
    ∃ ds0 ds1, halfSilentEngine.workSets = [ds0, ds1] ∧
      Scale (specWindow coarseLibm) halfSilentEngine 10
        = some { halfSilentEngine with
            workSets := [{ ds0 with peakHeight := F64.fin (1 / 8) }, ds1] } ∧
      sliceGet ds1.Bins 1 = some (F64.fin (1 / 2)) ∧
      scaledValue (frameDivisor (specWindow coarseLibm) halfSilentEngine.numBins ds1)
        (F64.ofInt 10) (F64.fin (1 / 2)) = F64.fin (2 / 3) := by
  obtain ⟨ds0, ds1, hws, hsil, hb, hsc⟩ := halfSilentEngine_sets
  exact ⟨ds0, ds1, hws,
    Scale_stops_at_silent_channel (specWindow coarseLibm) halfSilentEngine 10 ds0 [ds1] hws hsil,
    hb, hsc⟩

/-! ## Monstercat -/

/-- A loop whose body leaves the state as it is returns that state. -/
theorem loopFrom_id {σ : Type} (body : σ → Int → Option σ) (s : σ) :
    ∀ (n : Nat) (start : Int), (∀ i, start ≤ i → i < start + n → body s i = some s) →
      loopFrom body n start s = some s := by
  intro n
  induction n with
  | zero => intro _ _; rfl
  | succ n ih =>
    intro start h
    have h0 := h start le_rfl (by push_cast; omega)
    simp only [loopFrom, h0, Option.some_bind]
    exact ih (start + 1) (fun i h1 h2 => h i (by omega) (by push_cast; omega))

/-- Mapping over the sets a function that returns each set as it is. -/
theorem mapM_id {α : Type} (f : α → Option α) :
    ∀ l : List α, (∀ a ∈ l, f a = some a) → l.mapM f = some l := by
  intro l
  induction l with
  | nil => intro _; rfl
  | cons a l ih =>
    intro h
    rw [List.mapM_cons, h a (List.mem_cons_self _ _),
      ih (fun b hb => h b (List.mem_cons_of_mem _ hb))]
    rfl

theorem F64.div_one (v : F64) : F64.div v (F64.fin 1) = v := by
  cases v <;> simp [F64.div]

theorem F64.gt_self (v : F64) : F64.gt v v = false := by
  cases v <;> simp [F64.gt, F64.lt]

/-- One pass of `Monstercat` leaves the bins alone when the bin divided by
`factor^|xBin - xPass|` is not above the bin itself. -/
theorem mcatStep_noop (L : Libm) (factor : F64) (xBin xPass : Int) (bins : List F64) (v : F64)
    (hv : sliceGet bins xBin = some v)
    (hle : F64.gt (F64.div v (L.Pow factor (absInt (xBin - xPass)))) v = false) :
    mcatStep L factor xBin bins xPass = some bins := by
  simp [mcatStep, hv, hle]

/-- Monstercat leaves a set alone when no pass raises any bin `1..numBins`. -/
theorem mcatSet_noop (L : Libm) (factor : F64) (numBins : Int) (bins : List F64)
    (h : ∀ xBin xPass, 1 ≤ xBin → xBin ≤ numBins → 0 ≤ xPass → xPass ≤ numBins →
      ∃ v, sliceGet bins xBin = some v ∧
        F64.gt (F64.div v (L.Pow factor (absInt (xBin - xPass)))) v = false) :
    mcatSet L factor numBins bins = some bins := by
  unfold mcatSet forIncl
  apply loopFrom_id
  intro xBin h0 h1
  apply loopFrom_id
  intro xPass h2 h3
  obtain ⟨v, hv, hle⟩ := h xBin xPass h0 (by omega) h2 (by omega)
  exact mcatStep_noop L factor xBin xPass bins v hv hle

theorem Monstercat_noop {W : Type} (L : Libm) (s : Spectrum W) (factor : F64)
    (h : ∀ ds ∈ s.workSets, ∀ xBin xPass, 1 ≤ xBin → xBin ≤ s.numBins → 0 ≤ xPass →
      xPass ≤ s.numBins → ∃ v, sliceGet ds.Bins xBin = some v ∧
        F64.gt (F64.div v (L.Pow factor (absInt (xBin - xPass)))) v = false) :
    Monstercat L s factor = some s := by
  unfold Monstercat
  rw [mapM_id _ s.workSets (fun ds hds => by
    rw [mcatSet_noop L factor s.numBins ds.Bins (h ds hds)]; rfl)]
  rfl

/-- C9: for every bin sequence (positive, zero, negative, even NaN or infinite) and
every channel, `Monstercat(1.0)` returns and is a no-op: the state, hence every bin
`0..numBins`, is unchanged.  The entries `Bins[1..numBins]` it reads exist. -/
theorem Monstercat_one_is_noop {W : Type} (L : Libm) (s : Spectrum W)
    (hex : ∀ ds ∈ s.workSets, ∀ b, 1 ≤ b → b ≤ s.numBins → ∃ v, sliceGet ds.Bins b = some v) :
    Monstercat L s (F64.fin 1) = some s := by
  apply Monstercat_noop
  intro ds hds xBin xPass h0 h1 _ _
  obtain ⟨v, hv⟩ := hex ds hds xBin h0 h1
  refine ⟨v, hv, ?_⟩
  have hp : L.Pow (F64.fin 1) (absInt (xBin - xPass)) = F64.fin 1 := by simp [Libm.Pow]
  rw [hp, F64.div_one, F64.gt_self]

/-- Witness of C9 on `halfSilentEngine`. -/
theorem Monstercat_one_is_noop_witness :
    Monstercat coarseLibm halfSilentEngine (F64.fin 1) = some halfSilentEngine :=
  Monstercat_one_is_noop coarseLibm halfSilentEngine (by
    intro ds hds b h0 h1
    have h1' : b ≤ 3 := h1
    have hb : b = 1 ∨ b = 2 ∨ b = 3 := by omega
    simp only [halfSilentEngine, List.mem_cons, List.mem_singleton, List.not_mem_nil,
      or_false] at hds
    rcases hds with h | h <;> subst h <;> rcases hb with h | h | h <;> subst h <;>
      simp [sliceGet])

/-- For a finite `factor ≥ 1`, `factor^|d|` is a finite number at least 1. -/
theorem pow_absInt_ge_one (L : Libm) (f : ℚ) (hf : 1 ≤ f) (d : Int) :
    ∃ p : ℚ, 1 ≤ p ∧ L.Pow (F64.fin f) (absInt d) = F64.fin p := by
  obtain ⟨m, hm0, hm⟩ : ∃ m : Int, 0 ≤ m ∧ absInt d = F64.fin (m : ℚ) := by
    unfold absInt
    split
    · exact ⟨-d, by omega, rfl⟩
    · exact ⟨d, by omega, rfl⟩
  rw [hm]
  unfold Libm.Pow
  split_ifs with h1 h2
  · exact ⟨1, le_rfl, rfl⟩
  · exact ⟨f, hf, rfl⟩
  · have hf0 : f ≠ 0 := by linarith
    have hhalf : (m : ℚ) ≠ 1 / 2 := by
      intro h
      have h2' : (2 : ℚ) * m = 1 := by rw [h]; norm_num
      have : (2 : Int) * m = 1 := by exact_mod_cast h2'
      omega
    have hnhalf : (m : ℚ) ≠ -(1 / 2) := by
      intro h
      have h2' : (2 : ℚ) * m = -1 := by rw [h]; norm_num
      have : (2 : Int) * m = -1 := by exact_mod_cast h2'
      omega
    have hhalf' : (m : ℚ) ≠ 2⁻¹ := by rwa [one_div] at hhalf
    have hnhalf' : (m : ℚ) ≠ -2⁻¹ := by rwa [one_div] at hnhalf
    refine ⟨f ^ m, one_le_zpow₀ hf hm0, ?_⟩
    simp [Libm.powCases, hf0, hhalf', hnhalf']

/-- A finite non-negative bin divided by a finite number at least 1 is not above itself. -/
theorem div_ge_one_not_gt (q p : ℚ) (hq : 0 ≤ q) (hp : 1 ≤ p) :
    F64.gt (F64.div (F64.fin q) (F64.fin p)) (F64.fin q) = false := by
  have hp0 : p ≠ 0 := by linarith
  have : q / p ≤ q := div_le_self hq hp
  simp [F64.div, hp0, F64.gt, F64.lt, this]

/-- For a finite `factor ≥ 1` and finite non-negative bins, Monstercat changes nothing:
every proposal is the bin's own value divided by a number at least 1. -/
theorem Monstercat_nonneg_noop {W : Type} (L : Libm) (s : Spectrum W) (f : ℚ) (hf : 1 ≤ f)
    (hbins : ∀ ds ∈ s.workSets, ∀ b, 1 ≤ b → b ≤ s.numBins →
      ∃ q : ℚ, 0 ≤ q ∧ sliceGet ds.Bins b = some (F64.fin q)) :
    Monstercat L s (F64.fin f) = some s := by
  apply Monstercat_noop
  intro ds hds xBin xPass h0 h1 _ _
  obtain ⟨q, hq0, hq⟩ := hbins ds hds xBin h0 h1
  obtain ⟨p, hp1, hp⟩ := pow_absInt_ge_one L f hf (xBin - xPass)
  exact ⟨_, hq, by rw [hp]; exact div_ge_one_not_gt q p hq0 hp1⟩

/-- C8 (the code fails here): for every finite factor > 1, when the bins `0..numBins`
of every channel are all 0 except one bin `k` (`1 < k < numBins`) holding `v > 0`,
`Monstercat(factor)` returns the state unchanged: the neighbours `k-1` and `k+1`
still hold 0, nothing is spread. -/
theorem Monstercat_does_not_spread {W : Type} (L : Libm) (s : Spectrum W) (f v : ℚ) (k : Int)
    (hf : 1 < f) (hv : 0 < v) (_hk : 1 < k) (_hk' : k < s.numBins)
    (hbins : ∀ ds ∈ s.workSets, ∀ b, 0 ≤ b → b ≤ s.numBins →
      sliceGet ds.Bins b = some (if b = k then F64.fin v else F64.fin 0)) :
    ∃ s', Monstercat L s (F64.fin f) = some s' ∧
      ∀ ds' ∈ s'.workSets, sliceGet ds'.Bins k = some (F64.fin v) ∧
        sliceGet ds'.Bins (k - 1) = some (F64.fin 0) ∧
        sliceGet ds'.Bins (k + 1) = some (F64.fin 0) := by
  refine ⟨s, Monstercat_nonneg_noop L s f (le_of_lt hf) ?_, ?_⟩
  · intro ds hds b h0 h1
    by_cases hb : b = k
    · exact ⟨v, le_of_lt hv, by rw [hbins ds hds b (by omega) h1, if_pos hb]⟩
    · exact ⟨0, le_rfl, by rw [hbins ds hds b (by omega) h1, if_neg hb]⟩
  · intro ds hds
    refine ⟨?_, ?_, ?_⟩
    · rw [hbins ds hds k (by omega) (by omega), if_pos rfl]
    · rw [hbins ds hds (k - 1) (by omega) (by omega), if_neg (by omega)]
    · rw [hbins ds hds (k + 1) (by omega) (by omega), if_neg (by omega)]

/-- Witness of C8 on `spikeEngine` (bin 2 holds 5) with factor 2. -/
theorem Monstercat_does_not_spread_witness :
    ((1 : ℚ) < 2 ∧ (0 : ℚ) < 5 ∧ (1 : Int) < 2 ∧ (2 : Int) < spikeEngine.numBins) ∧
    ∃ s', Monstercat coarseLibm spikeEngine (F64.fin 2) = some s' ∧
      ∀ ds' ∈ s'.workSets, sliceGet ds'.Bins 2 = some (F64.fin 5) ∧
        sliceGet ds'.Bins (2 - 1) = some (F64.fin 0) ∧
        sliceGet ds'.Bins (2 + 1) = some (F64.fin 0) :=
  ⟨⟨by norm_num, by norm_num, by norm_num, by simp [spikeEngine]⟩,
    Monstercat_does_not_spread coarseLibm spikeEngine 2 5 2 (by norm_num) (by norm_num)
      (by norm_num) (by simp [spikeEngine]) (by
        intro ds hds b h0 h1
        have h1' : b ≤ 4 := h1
        have hb : b = 0 ∨ b = 1 ∨ b = 2 ∨ b = 3 ∨ b = 4 := by omega
        simp only [spikeEngine, List.mem_cons, List.mem_singleton, List.not_mem_nil,
          or_false] at hds
        subst hds
        rcases hb with h | h | h | h | h <;> subst h <;> simp [sliceGet])⟩

/-! ## Falloff -/

/-- Mapping a function that succeeds on every set relates the two lists set by set. -/
theorem mapM_forall₂ {α : Type} (f : α → Option α) (R : α → α → Prop) :
    ∀ l : List α, (∀ a ∈ l, ∃ b, f a = some b ∧ R a b) →
      ∃ l', l.mapM f = some l' ∧ List.Forall₂ R l l' := by
  intro l
  induction l with
  | nil => intro _; exact ⟨[], rfl, List.Forall₂.nil⟩
  | cons a l ih =>
    intro h
    obtain ⟨b, hb, hR⟩ := h a (List.mem_cons_self _ _)
    obtain ⟨l', hl', hF⟩ := ih (fun c hc => h c (List.mem_cons_of_mem _ hc))
    refine ⟨b :: l', ?_, List.Forall₂.cons hR hF⟩
    rw [List.mapM_cons, hb, hl']
    rfl

/-- Effect of the loop body of `Falloff` on the bin `i`. -/
theorem falloffStep_spec {W : Type} (weight : F64) (t : DataSet W) (i : Int) (f v : F64)
    (hf : sliceGet t.falloff i = some f) (hv : sliceGet t.Bins i = some v) :
    falloffStep weight t i = some { t with
      falloff := t.falloff.set i.toNat (decayed weight f v)
      Bins := t.Bins.set i.toNat (decayed weight f v) } := by
  obtain ⟨h0, h1⟩ := sliceGet_lt_length hf
  obtain ⟨_, h2⟩ := sliceGet_lt_length hv
  simp [falloffStep, hf, hv, sliceSet_isSome _ _ _ h0 h1, sliceSet_isSome _ _ _ h0 h2, decayed]

/-- The loop of `Falloff` on one set: every bin `0..numBins` gets its decayed value
in both `falloff` and `Bins`, the other entries stay. -/
theorem falloffLoop_spec {W : Type} (weight : F64) (ds : DataSet W) (numBins : Int)
    (hex : ∀ b, 0 ≤ b → b ≤ numBins →
      (∃ f, sliceGet ds.falloff b = some f) ∧ ∃ v, sliceGet ds.Bins b = some v) :
    ∃ ds', forIncl 0 numBins (falloffStep weight) ds = some ds' ∧
      FalloffInv weight ds (numBins + 1) ds' := by
  obtain ⟨ds', hds', hP⟩ := loopFrom_inv (falloffStep weight) (FalloffInv weight ds)
    (numBins + 1 - 0).toNat 0 ds
    (fun j => ⟨fun h => by omega, fun _ => ⟨rfl, rfl⟩⟩)
    (fun i t hi0 hi1 hP => by
      obtain ⟨⟨f, hf⟩, ⟨v, hv⟩⟩ := hex i hi0 (by omega)
      have hft : sliceGet t.falloff i = some f := by rw [((hP i).2 (by omega)).1]; exact hf
      have hvt : sliceGet t.Bins i = some v := by rw [((hP i).2 (by omega)).2]; exact hv
      obtain ⟨_, hl1⟩ := sliceGet_lt_length hft
      obtain ⟨_, hl2⟩ := sliceGet_lt_length hvt
      refine ⟨_, falloffStep_spec weight t i f v hft hvt, ?_⟩
      intro j
      constructor
      · intro hj f' v' hf' hv'
        by_cases hji : j = i
        · subst hji
          rw [hf] at hf'; rw [hv] at hv'
          cases hf'; cases hv'
          exact ⟨sliceGet_set_same _ _ _ hi0 hl1, sliceGet_set_same _ _ _ hi0 hl2⟩
        · have := (hP j).1 ⟨hj.1, by omega⟩ f' v' hf' hv'
          exact ⟨by
            show sliceGet (t.falloff.set i.toNat _) j = _
            rw [sliceGet_set_ne _ _ _ _ hi0 (Ne.symm hji)]; exact this.1, by
            show sliceGet (t.Bins.set i.toNat _) j = _
            rw [sliceGet_set_ne _ _ _ _ hi0 (Ne.symm hji)]; exact this.2⟩
      · intro hj
        have hji : i ≠ j := by omega
        have := (hP j).2 (by omega)
        exact ⟨by
          show sliceGet (t.falloff.set i.toNat _) j = _
          rw [sliceGet_set_ne _ _ _ _ hi0 hji]; exact this.1, by
          show sliceGet (t.Bins.set i.toNat _) j = _
          rw [sliceGet_set_ne _ _ _ _ hi0 hji]; exact this.2⟩)
  refine ⟨ds', hds', ?_⟩
  have e : (0 : Int) + ((numBins + 1 - 0).toNat : Int) = max (numBins + 1) 0 := by omega
  rw [e] at hP
  intro j
  constructor
  · intro hj; exact (hP j).1 ⟨hj.1, by omega⟩
  · intro hj; exact (hP j).2 (by omega)

/-- On finite values the decayed value is finite, never below the incoming value
`v`, and equal to `v` as soon as `v` is at least the previous falloff `f`. -/
theorem decayed_finite (w f v : ℚ) :
    ∃ r : ℚ, decayed (F64.fin w) (F64.fin f) (F64.fin v) = F64.fin r ∧ v ≤ r ∧
      (f ≤ v → r = v) := by
  have hm : ∃ m : ℚ, F64.min (F64.mul (F64.fin f) (F64.fin w)) (F64.sub (F64.fin f) (F64.fin 1))
      = F64.fin m ∧ m ≤ f - 1 := by
    by_cases h : f * w < f - 1
    · exact ⟨f * w, by simp [F64.min, F64.mul, F64.sub, F64.add, F64.neg, F64.lt,
        ← sub_eq_add_neg, h], le_of_lt h⟩
    · exact ⟨f - 1, by simp [F64.min, F64.mul, F64.sub, F64.add, F64.neg, F64.lt,
        ← sub_eq_add_neg, h], le_rfl⟩
  obtain ⟨m, hm, hle⟩ := hm
  unfold decayed
  rw [hm]
  by_cases h : v < m
  · exact ⟨m, by simp [F64.max, F64.gt, F64.lt, h], le_of_lt h, fun hfv => by linarith⟩
  · exact ⟨v, by simp [F64.max, F64.gt, F64.lt, h], le_rfl, fun _ => rfl⟩

/-- C10: `Falloff(weight)` returns and, for every channel and every bin
`0 ≤ b ≤ numBins`, sets both `falloff[b]` and `Bins[b]` to `max(min(f*weight, f-1), v)`,
with `f` the previous `falloff[b]` and `v` the previous `Bins[b]`; on finite values the
result is never below `v` and equals `v` whenever `v ≥ f`. -/
theorem Falloff_sets_decayed_value {W : Type} (s : Spectrum W) (weight : F64)
    (hex : ∀ ds ∈ s.workSets, ∀ b, 0 ≤ b → b ≤ s.numBins →
      (∃ f, sliceGet ds.falloff b = some f) ∧ ∃ v, sliceGet ds.Bins b = some v) :
    ∃ s', Falloff s weight = some s' ∧
      List.Forall₂ (fun ds ds' => ∀ b f v, 0 ≤ b → b ≤ s.numBins →
        sliceGet ds.falloff b = some f → sliceGet ds.Bins b = some v →
        sliceGet ds'.falloff b
          = some (F64.max (F64.min (F64.mul f weight) (F64.sub f (F64.fin 1))) v) ∧
        sliceGet ds'.Bins b
          = some (F64.max (F64.min (F64.mul f weight) (F64.sub f (F64.fin 1))) v) ∧
        ∀ qw qf qv : ℚ, weight = F64.fin qw → f = F64.fin qf → v = F64.fin qv →
          ∃ r : ℚ, sliceGet ds'.Bins b = some (F64.fin r) ∧ qv ≤ r ∧ (qf ≤ qv → r = qv))
        s.workSets s'.workSets := by
  obtain ⟨ws', hws', hF⟩ := mapM_forall₂
    (fun vSet => forIncl 0 s.numBins (falloffStep weight) vSet)
    (fun ds ds' => FalloffInv weight ds (s.numBins + 1) ds') s.workSets
    (fun ds hds => falloffLoop_spec weight ds s.numBins (hex ds hds))
  refine ⟨{ s with workSets := ws' }, by unfold Falloff; rw [hws']; rfl, ?_⟩
  refine List.Forall₂.imp ?_ hF
  intro ds ds' hinv b f v h0 h1 hf hv
  obtain ⟨h2, h3⟩ := (hinv b).1 ⟨h0, by omega⟩ f v hf hv
  refine ⟨h2, h3, ?_⟩
  intro qw qf qv hw hqf hqv
  subst hw hqf hqv
  obtain ⟨r, hr, hb⟩ := decayed_finite qw qf qv
  exact ⟨r, by rw [h3, hr], hb⟩

/-- Witness of C10 on `halfSilentEngine` with weight 1/2. -/
theorem Falloff_sets_decayed_value_witness :
    ∃ s', Falloff halfSilentEngine (F64.fin (1 / 2)) = some s' ∧
      List.Forall₂ (fun ds ds' => ∀ b f v, 0 ≤ b → b ≤ halfSilentEngine.numBins →
        sliceGet ds.falloff b = some f → sliceGet ds.Bins b = some v →
        sliceGet ds'.falloff b = some (F64.max (F64.min (F64.mul f (F64.fin (1 / 2)))
          (F64.sub f (F64.fin 1))) v) ∧
        sliceGet ds'.Bins b = some (F64.max (F64.min (F64.mul f (F64.fin (1 / 2)))
          (F64.sub f (F64.fin 1))) v) ∧
        ∀ qw qf qv : ℚ, F64.fin (1 / 2) = F64.fin qw → f = F64.fin qf → v = F64.fin qv →
          ∃ r : ℚ, sliceGet ds'.Bins b = some (F64.fin r) ∧ qv ≤ r ∧ (qf ≤ qv → r = qv))
        halfSilentEngine.workSets s'.workSets :=
  Falloff_sets_decayed_value halfSilentEngine (F64.fin (1 / 2)) (by
    intro ds hds b h0 h1
    have h1' : b ≤ 3 := h1
    have hb : b = 0 ∨ b = 1 ∨ b = 2 ∨ b = 3 := by omega
    simp only [halfSilentEngine, List.mem_cons, List.mem_singleton, List.not_mem_nil,
      or_false] at hds
    rcases hds with h | h <;> subst h <;> rcases hb with h | h | h | h <;> subst h <;>
      simp [sliceGet])


/-! ## Recalculate: contents of both tables -/

theorem rawCut_eq_freqIndex (L : Libm) (sampleRate : F64) (sampleSize bins : Int) (lo hi : F64)
    (xBin : Int) :
    rawCut L sampleRate sampleSize bins lo hi xBin
      = freqIndex sampleRate sampleSize (binFreq L bins lo hi xBin) := rfl

theorem recalcStep_tables {W : Type} (raw : Int → Int) (s : Spectrum W) (B : Int)
    (hlo : B < s.loCuts.length) (hhi : B < s.hiCuts.length)
    (i : Int) (t : Spectrum W) (h0 : 0 ≤ i) (hB : i ≤ B) (hP : RecalcTables raw s i t) :
    ∃ t', recalcStep raw t i = some t' ∧ RecalcTables raw s (i + 1) t' := by
  obtain ⟨hl1, hl2, hlo', hhl, hun⟩ := hP
  rcases eq_or_lt_of_le h0 with hi0 | hipos
  · subst hi0
    refine ⟨_, recalcStep_zero raw t (by omega), ?_⟩
    refine ⟨by simpa using hl1, hl2, ?_, ?_, ?_⟩
    · intro b hb0 hb1
      have hb : b = 0 := by omega
      subst hb
      refine ⟨raw 0, ?_, fun _ => rfl, fun h => by omega⟩
      simpa using sliceGet_set_same t.loCuts 0 (raw 0) le_rfl (by omega)
    · intro b hb0 hb1; omega
    · intro j hj; exact hun j (by omega)
  · obtain ⟨v, hv, _, _⟩ := hlo' (i - 1) (by omega) (by omega)
    have hlt : i < (t.loCuts.length : Int) := by omega
    have hht : i - 1 < (t.hiCuts.length : Int) := by omega
    refine ⟨_, recalcStep_pos raw t i v hipos hlt hht hv, ?_⟩
    have hnew : sliceGet (t.loCuts.set i.toNat (if raw i ≤ v then wrap64 (v + 1) else raw i)) i
        = some (if raw i ≤ v then wrap64 (v + 1) else raw i) :=
      sliceGet_set_same _ _ _ h0 hlt
    have hold : ∀ j, j ≠ i →
        sliceGet (t.loCuts.set i.toNat (if raw i ≤ v then wrap64 (v + 1) else raw i)) j
          = sliceGet t.loCuts j := fun j hj => sliceGet_set_ne _ _ _ _ h0 (Ne.symm hj)
    have hhnew : sliceGet (t.hiCuts.set (i - 1).toNat v) (i - 1) = some v :=
      sliceGet_set_same _ _ _ (by omega) hht
    have hhold : ∀ j, j ≠ i - 1 → sliceGet (t.hiCuts.set (i - 1).toNat v) j
        = sliceGet t.hiCuts j := fun j hj => sliceGet_set_ne _ _ _ _ (by omega) (Ne.symm hj)
    refine ⟨by simpa using hl1, by simpa using hl2, ?_, ?_, ?_⟩
    · intro b hb0 hb1
      rcases eq_or_lt_of_le (show b ≤ i by omega) with hbi | hbi
      · subst hbi
        refine ⟨_, hnew, fun h => by omega, fun _ => ⟨v, ?_, rfl⟩⟩
        show sliceGet _ (b - 1) = some v
        rw [hold (b - 1) (by omega)]; exact hv
      · obtain ⟨x, hx, hx0, hxp⟩ := hlo' b hb0 hbi
        refine ⟨x, ?_, hx0, fun hb => ?_⟩
        · show sliceGet _ b = some x
          rw [hold b (by omega)]; exact hx
        · obtain ⟨p, hp, hxe⟩ := hxp hb
          refine ⟨p, ?_, hxe⟩
          show sliceGet _ (b - 1) = some p
          rw [hold (b - 1) (by omega)]; exact hp
    · intro b hb0 hb1
      show sliceGet (t.hiCuts.set (i - 1).toNat v) b = sliceGet _ b
      rw [hold b (by omega)]
      rcases eq_or_lt_of_le (show b ≤ i - 1 by omega) with hbi | hbi
      · rw [hbi, hhnew, hv]
      · rw [hhold b (by omega)]; exact hhl b hb0 hbi
    · intro j hj
      show sliceGet (t.hiCuts.set (i - 1).toNat v) j = _
      rw [hhold j (by omega)]; exact hun j (by omega)

/-- Recalculate returns when the tables hold `maxBins + 1` entries, and its result
satisfies `RecalcTables` for all the bins `0..min bins maxBins`. -/
theorem Recalculate_tables {W : Type} (L : Libm) (s : Spectrum W) (bins : Int) (lo hi : F64)
    (hlo : s.maxBins < s.loCuts.length) (hhi : s.maxBins < s.hiCuts.length) :
    ∃ s', Recalculate L s bins lo hi = some (s', min bins s.maxBins) ∧
      s'.numBins = min bins s.maxBins ∧ s'.sampleDataSize = s.sampleDataSize ∧
      RecalcTables (rawCut L s.sampleRate s.sampleSize (min bins s.maxBins) lo hi) s
        (max (min bins s.maxBins + 1) 0) s' := by
  obtain ⟨s', hs', _, _, hn, _, _, _, hsd⟩ := Recalculate_frame L s bins lo hi hlo hhi
  have hmin : (if bins > s.maxBins then s.maxBins else bins) = min bins s.maxBins := by
    split <;> omega
  obtain ⟨t, ht, hP⟩ := loopFrom_inv
    (recalcStep (rawCut L s.sampleRate s.sampleSize (min bins s.maxBins) lo hi))
    (RecalcTables (rawCut L s.sampleRate s.sampleSize (min bins s.maxBins) lo hi) s)
    (min bins s.maxBins + 1 - 0).toNat 0 { s with numBins := min bins s.maxBins }
    ⟨rfl, rfl, fun b h1 h2 => by omega, fun b h1 h2 => by omega, fun _ _ => rfl⟩
    (fun i t h0 h1 hP => by
      obtain ⟨t', ht', hP'⟩ := recalcStep_tables _ s (min bins s.maxBins) (by omega) (by omega)
        i t h0 (by omega) (by
          obtain ⟨a1, a2, a3, a4, a5⟩ := hP
          exact ⟨a1, a2, a3, a4, a5⟩)
      obtain ⟨a1, a2, a3, a4, a5⟩ := hP'
      exact ⟨t', ht', a1, a2, a3, a4, a5⟩)
  have hst : s' = t := by
    have h2 : Recalculate L s bins lo hi = some (t, t.numBins) := by
      simp only [Recalculate, hmin, forIncl, ht, Option.map_some']
    rw [hs'] at h2
    exact (Prod.mk.inj (Option.some.inj h2)).1
  subst hst
  refine ⟨s', hs', hn, hsd, ?_⟩
  have e : (0 : Int) + ((min bins s.maxBins + 1 - 0).toNat : Int)
      = max (min bins s.maxBins + 1) 0 := by omega
  rw [e] at hP
  obtain ⟨a1, a2, a3, a4, a5⟩ := hP
  exact ⟨a1, a2, a3, a4, a5⟩


theorem cutIndices_single (x size : Int) :
    cutIndices x x size = if x < size then [x] else [] := by
  unfold cutIndices freqCount
  split
  · have h : (min x (size - 1) + 1 - x).toNat = 1 := by omega
    rw [h]; simp [List.range_succ]
  · have h : (min x (size - 1) + 1 - x).toNat = 0 := by omega
    rw [h]; rfl

/-- C18: after `Recalculate(bins, lo, hi)` (tables of `maxBins + 1` entries),
`hiCuts[b] = loCuts[b]` for every `0 ≤ b < bins`, and `hiCuts[bins]` is not written;
so the inclusive range `[loCuts[b], hiCuts[b]]` that `Generate` aggregates contains
exactly one raw index, `loCuts[b]` itself. -/
theorem Recalculate_hiCuts_eq_loCuts {W : Type} (L : Libm) (s : Spectrum W) (bins : Int)
    (lo hi : F64)
    (hlo : s.maxBins < s.loCuts.length) (hhi : s.maxBins < s.hiCuts.length) :
    ∃ s', Recalculate L s bins lo hi = some (s', min bins s.maxBins) ∧
      (∀ b, 0 ≤ b → b < min bins s.maxBins →
        ∃ x, sliceGet s'.loCuts b = some x ∧ sliceGet s'.hiCuts b = some x ∧
          (∀ i, (x ≤ i ∧ i ≤ x) ↔ i = x) ∧
          cutIndices x x s'.sampleDataSize = if x < s'.sampleDataSize then [x] else []) ∧
      (0 ≤ min bins s.maxBins →
        sliceGet s'.hiCuts (min bins s.maxBins) = sliceGet s.hiCuts (min bins s.maxBins)) := by
  obtain ⟨s', hs', _, _, _, _, hl, hh, hun⟩ := Recalculate_tables L s bins lo hi hlo hhi
  refine ⟨s', hs', ?_, ?_⟩
  · intro b hb0 hb1
    obtain ⟨x, hx, _, _⟩ := hl b hb0 (by omega)
    refine ⟨x, hx, ?_, fun i => by omega, cutIndices_single x _⟩
    rw [hh b hb0 (by omega)]; exact hx
  · intro hB
    exact hun _ (by omega)

/-- Witness of C18 on the small engine with two bins. -/
theorem Recalculate_hiCuts_eq_loCuts_witness :
    (smallEngine.maxBins < smallEngine.loCuts.length ∧
      smallEngine.maxBins < smallEngine.hiCuts.length) ∧
    ∃ s', Recalculate coarseLibm smallEngine 2 (F64.fin 220) (F64.fin 6000)
        = some (s', min 2 smallEngine.maxBins) ∧
      (∀ b, 0 ≤ b → b < min 2 smallEngine.maxBins →
        ∃ x, sliceGet s'.loCuts b = some x ∧ sliceGet s'.hiCuts b = some x ∧
          (∀ i, (x ≤ i ∧ i ≤ x) ↔ i = x) ∧
          cutIndices x x s'.sampleDataSize = if x < s'.sampleDataSize then [x] else []) ∧
      (0 ≤ min 2 smallEngine.maxBins →
        sliceGet s'.hiCuts (min 2 smallEngine.maxBins)
          = sliceGet smallEngine.hiCuts (min 2 smallEngine.maxBins)) :=
  ⟨⟨by simp [smallEngine], by simp [smallEngine]⟩,
    Recalculate_hiCuts_eq_loCuts coarseLibm smallEngine 2 (F64.fin 220) (F64.fin 6000)
      (by simp [smallEngine]) (by simp [smallEngine])⟩

/-- The loop result found by `Recalculate` is the one the loop invariants speak of. -/
theorem Recalculate_loop_eq {W : Type} (L : Libm) (s s' t : Spectrum W) (bins n : Int)
    (lo hi : F64)
    (h : Recalculate L s bins lo hi = some (s', n))
    (ht : forIncl 0 (min bins s.maxBins)
      (recalcStep (rawCut L s.sampleRate s.sampleSize (min bins s.maxBins) lo hi))
      { s with numBins := min bins s.maxBins } = some t) : s' = t := by
  have hmin : (if bins > s.maxBins then s.maxBins else bins) = min bins s.maxBins := by
    split <;> omega
  simp only [Recalculate, hmin, ht, Option.map_some'] at h
  exact ((Prod.mk.inj (Option.some.inj h)).1).symm

/-- C15, as amended: after `Recalculate(bins, lo, hi)`, for every `0 ≤ i < bins`,
`hiCuts[i]` equals `loCuts[i]` and is strictly below `loCuts[i+1]`.  The tables hold
`maxBins + 1` entries and raw index plus bin count fits in an `int`. -/
theorem Recalculate_hiCuts_below_next_loCut {W : Type} (L : Libm) (s : Spectrum W)
    (bins : Int) (lo hi : F64)
    (hlo : s.maxBins < s.loCuts.length) (hhi : s.maxBins < s.hiCuts.length)
    (hraw : ∀ b, 0 ≤ b → b ≤ min bins s.maxBins →
      rawCut L s.sampleRate s.sampleSize (min bins s.maxBins) lo hi b + min bins s.maxBins
        < 2 ^ 63) :
    ∃ s', Recalculate L s bins lo hi = some (s', min bins s.maxBins) ∧
      ∀ i, 0 ≤ i → i < min bins s.maxBins →
        ∃ x y, sliceGet s'.hiCuts i = some x ∧ sliceGet s'.loCuts i = some x ∧
          sliceGet s'.loCuts (i + 1) = some y ∧ x < y := by
  obtain ⟨s', hs', _, _, _, _, _, hh, _⟩ := Recalculate_tables L s bins lo hi hlo hhi
  obtain ⟨t, ht, hP⟩ := recalcLoop_inv
    (rawCut L s.sampleRate s.sampleSize (min bins s.maxBins) lo hi) s (min bins s.maxBins)
    (by omega) (by omega) (fun b h0 h1 => ⟨(rawCut_range _ _ _ _ _ _ _).1, hraw b h0 h1⟩)
  have hst := Recalculate_loop_eq L s s' t bins _ lo hi hs' ht
  subst hst
  refine ⟨s', hs', ?_⟩
  intro i hi0 hi1
  obtain ⟨x, y, hx, hy, hxy⟩ := hP.2.2.2.1 (i + 1) (by omega) (by omega)
  have hx' : sliceGet s'.loCuts i = some x := by
    have e : i + 1 - 1 = i := by ring
    rw [e] at hx; exact hx
  exact ⟨x, y, by rw [hh i hi0 (by omega)]; exact hx', hx', hy, hxy⟩

/-- Counterexample to C15 as stated: on the small engine with two bins,
`hiCuts[0] = 50` while `loCuts[1] = 51`. -/
theorem Recalculate_hiCut_counterexample :
    ∃ s', Recalculate coarseLibm smallEngine 2 (F64.fin 220) (F64.fin 6000) = some (s', 2) ∧
      sliceGet s'.hiCuts 0 = some 50 ∧ sliceGet s'.loCuts 1 = some 51 := by
  obtain ⟨s', hs', _, _, _, _, hl, hh, _⟩ := Recalculate_tables coarseLibm smallEngine 2
    (F64.fin 220) (F64.fin 6000) (by simp [smallEngine]) (by simp [smallEngine])
  have hm : min 2 smallEngine.maxBins = 2 := by simp [smallEngine]
  rw [hm] at hs' hl hh
  have hsr : smallEngine.sampleRate = F64.fin 48000 := rfl
  have hss : smallEngine.sampleSize = 800 := rfl
  rw [hsr, hss] at hl
  refine ⟨s', hs', ?_, ?_⟩
  · obtain ⟨x, hx, hx0, _⟩ := hl 0 le_rfl (by norm_num)
    rw [hh 0 le_rfl (by norm_num), hx, hx0 rfl, rawCut_small 0 le_rfl (by norm_num)]
  · obtain ⟨x, hx, hx0, _⟩ := hl 0 le_rfl (by norm_num)
    obtain ⟨y, hy, _, hyp⟩ := hl 1 (by norm_num) (by norm_num)
    obtain ⟨p, hp, hye⟩ := hyp (by norm_num)
    have e : (1 : Int) - 1 = 0 := by norm_num
    rw [e, hx] at hp
    cases hp
    rw [hx0 rfl, rawCut_small 0 le_rfl (by norm_num), rawCut_small 1 (by norm_num) (by norm_num)]
      at hye
    rw [hy, hye]
    simp [wrap64]

/-- Witness of C15 (amended) on the small engine with two bins. -/
theorem Recalculate_hiCuts_below_next_loCut_witness :
    ∃ s', Recalculate coarseLibm smallEngine 2 (F64.fin 220) (F64.fin 6000)
        = some (s', min 2 smallEngine.maxBins) ∧
      ∀ i, 0 ≤ i → i < min 2 smallEngine.maxBins →
        ∃ x y, sliceGet s'.hiCuts i = some x ∧ sliceGet s'.loCuts i = some x ∧
          sliceGet s'.loCuts (i + 1) = some y ∧ x < y :=
  Recalculate_hiCuts_below_next_loCut coarseLibm smallEngine 2 (F64.fin 220) (F64.fin 6000)
    (by simp [smallEngine]) (by simp [smallEngine])
    (fun b h0 h1 => by
      have hm : min 2 smallEngine.maxBins = 2 := by simp [smallEngine]
      rw [hm] at h1 ⊢
      simp only [smallEngine]
      rw [rawCut_small b h0 h1]; norm_num)


/-- C16, as amended: for every bin `0 ≤ b ≤ bins` the frequency that `Recalculate`
converts is `hi * 10^(((b+1)/(bins+1) - 1) * (log10(lo/hi) / (1/(bins+1) - 1)))`, the
exponent of the specification divided by `1/(bins+1) - 1`; the value first stored in
`loCuts[b]` is `int(floor((freq / (sampleRate/2)) * (sampleSize/4)))`, and the final
`loCuts[b]` is that value, or `loCuts[b-1] + 1` when it does not exceed `loCuts[b-1]`. -/
theorem Recalculate_stores_frequency_index {W : Type} (L : Libm) (s : Spectrum W)
    (bins : Int) (lo hi : F64)
    (hlo : s.maxBins < s.loCuts.length) (hhi : s.maxBins < s.hiCuts.length) :
    ∃ s', Recalculate L s bins lo hi = some (s', min bins s.maxBins) ∧
      ∀ b, 0 ≤ b → b ≤ min bins s.maxBins →
        binFreq L (min bins s.maxBins) lo hi b
          = F64.mul hi (L.Pow (F64.fin 10)
              (F64.mul
                (F64.sub (F64.div (F64.ofInt (b + 1)) (F64.ofInt (min bins s.maxBins + 1)))
                  (F64.fin 1))
                (F64.div (L.Log10 (F64.div lo hi))
                  (F64.sub (F64.div (F64.fin 1) (F64.ofInt (min bins s.maxBins + 1)))
                    (F64.fin 1))))) ∧
        ∃ x, sliceGet s'.loCuts b = some x ∧
          (b = 0 → x = freqIndex s.sampleRate s.sampleSize
            (binFreq L (min bins s.maxBins) lo hi 0)) ∧
          (0 < b → ∃ p, sliceGet s'.loCuts (b - 1) = some p ∧
            x = if freqIndex s.sampleRate s.sampleSize
                  (binFreq L (min bins s.maxBins) lo hi b) ≤ p
              then wrap64 (p + 1)
              else freqIndex s.sampleRate s.sampleSize
                (binFreq L (min bins s.maxBins) lo hi b)) := by
  obtain ⟨s', hs', _, _, _, _, hl, _, _⟩ := Recalculate_tables L s bins lo hi hlo hhi
  refine ⟨s', hs', ?_⟩
  intro b hb0 hb1
  refine ⟨rfl, ?_⟩
  obtain ⟨x, hx, hx0, hxp⟩ := hl b hb0 (by omega)
  exact ⟨x, hx, hx0, hxp⟩

/-- Witness of C16 (amended) on the small engine with two bins. -/
theorem Recalculate_stores_frequency_index_witness :
    (smallEngine.maxBins < smallEngine.loCuts.length ∧
      smallEngine.maxBins < smallEngine.hiCuts.length) ∧
    ∃ s', Recalculate coarseLibm smallEngine 2 (F64.fin 220) (F64.fin 6000)
        = some (s', min 2 smallEngine.maxBins) ∧
      ∀ b, 0 ≤ b → b ≤ min 2 smallEngine.maxBins →
        binFreq coarseLibm (min 2 smallEngine.maxBins) (F64.fin 220) (F64.fin 6000) b
          = F64.mul (F64.fin 6000) (coarseLibm.Pow (F64.fin 10)
              (F64.mul
                (F64.sub (F64.div (F64.ofInt (b + 1))
                  (F64.ofInt (min 2 smallEngine.maxBins + 1))) (F64.fin 1))
                (F64.div (coarseLibm.Log10 (F64.div (F64.fin 220) (F64.fin 6000)))
                  (F64.sub (F64.div (F64.fin 1) (F64.ofInt (min 2 smallEngine.maxBins + 1)))
                    (F64.fin 1))))) ∧
        ∃ x, sliceGet s'.loCuts b = some x ∧
          (b = 0 → x = freqIndex smallEngine.sampleRate smallEngine.sampleSize
            (binFreq coarseLibm (min 2 smallEngine.maxBins) (F64.fin 220) (F64.fin 6000) 0)) ∧
          (0 < b → ∃ p, sliceGet s'.loCuts (b - 1) = some p ∧
            x = if freqIndex smallEngine.sampleRate smallEngine.sampleSize
                  (binFreq coarseLibm (min 2 smallEngine.maxBins) (F64.fin 220)
                    (F64.fin 6000) b) ≤ p
              then wrap64 (p + 1)
              else freqIndex smallEngine.sampleRate smallEngine.sampleSize
                (binFreq coarseLibm (min 2 smallEngine.maxBins) (F64.fin 220)
                  (F64.fin 6000) b)) :=
  ⟨⟨by simp [smallEngine], by simp [smallEngine]⟩,
    Recalculate_stores_frequency_index coarseLibm smallEngine 2 (F64.fin 220) (F64.fin 6000)
      (by simp [smallEngine]) (by simp [smallEngine])⟩

theorem decade_log10_hundredth : decadeLibm.Log10 (F64.fin (1 / 100)) = F64.fin (-2) := by
  have hc : Nat.clog 10 100 = 2 := by
    rw [show (100 : Nat) = 10 ^ 2 from rfl, Nat.clog_pow 10 2 (by norm_num)]
  have hceil : ⌈((1 / 100 : ℚ))⁻¹⌉.toNat = 100 := by
    rw [show ((1 / 100 : ℚ))⁻¹ = ((100 : Nat) : ℚ) by norm_num, Int.ceil_natCast,
      Int.toNat_ofNat]
  have h1 : ¬ ((1 : ℚ) ≤ 1 / 100) := by norm_num
  have h2 : ¬ ((1 / 100 : ℚ) < 0) := by norm_num
  have h3 : ¬ ((1 / 100 : ℚ) = 0) := by norm_num
  simp only [Libm.Log10, decadeLibm, h1, h2, h3, if_false, hceil, hc]
  norm_num

theorem pow_ten_neg_two (L : Libm) : L.Pow (F64.fin 10) (F64.fin (-2)) = F64.fin (1 / 100) := by
  have hd : ((-2 : ℚ)).den = 1 := rfl
  have hn : ((-2 : ℚ)).num = -2 := rfl
  have h1 : ¬ (F64.fin (-2) = F64.fin 0 ∨ F64.fin 10 = F64.fin 1) := by
    simp
  have h2 : ¬ (F64.fin (-2) = F64.fin 1) := by
    simp; norm_num
  have h3 : ¬ ((10 : ℚ) = 0) := by norm_num
  have h4 : ¬ ((-2 : ℚ) = 1 / 2) := by norm_num
  have h5 : ¬ ((-2 : ℚ) = -(1 / 2)) := by norm_num
  simp only [Libm.Pow, h1, h2, if_false, Libm.powCases, h3, h4, h5, hd, hn, if_true]
  norm_num

/-- Counterexample to C16 as stated: one bin between 1 Hz and 100 Hz on `unitEngine`.
The code converts `100 * 10^(-2) = 1` for `b = 0` and stores `loCuts[0] = 1`; the
formula of the specification gives `100 * 10^1 = 1000`, index 1000. -/
theorem Recalculate_frequency_counterexample :
    ∃ s', Recalculate decadeLibm unitEngine 1 (F64.fin 1) (F64.fin 100) = some (s', 1) ∧
      binFreq decadeLibm 1 (F64.fin 1) (F64.fin 100) 0 = F64.fin 1 ∧
      claimedFreq decadeLibm 1 (F64.fin 1) (F64.fin 100) 0 = F64.fin 1000 ∧
      sliceGet s'.loCuts 0 = some 1 ∧
      freqIndex unitEngine.sampleRate unitEngine.sampleSize
        (claimedFreq decadeLibm 1 (F64.fin 1) (F64.fin 100) 0) = 1000 := by
  obtain ⟨s', hs', _, _, _, _, hl, _, _⟩ := Recalculate_tables decadeLibm unitEngine 1
    (F64.fin 1) (F64.fin 100) (by simp [unitEngine, smallEngine])
    (by simp [unitEngine, smallEngine])
  have hm : min 1 unitEngine.maxBins = 1 := by simp [unitEngine, smallEngine]
  rw [hm] at hs' hl
  have hdiv : F64.div (F64.fin 1) (F64.fin 100) = F64.fin (1 / 100) := by
    simp [F64.div]
  have hcode : binFreq decadeLibm 1 (F64.fin 1) (F64.fin 100) 0 = F64.fin 1 := by
    have he : F64.mul (F64.sub (F64.div (F64.ofInt (0 + 1)) (F64.ofInt (1 + 1))) (F64.fin 1))
        (F64.div (F64.fin (-2)) (F64.sub (F64.div (F64.fin 1) (F64.ofInt (1 + 1))) (F64.fin 1)))
        = F64.fin (-2) := by
      simp [F64.mul, F64.sub, F64.add, F64.neg, F64.div, F64.ofInt]
      norm_num
    unfold binFreq
    rw [hdiv, decade_log10_hundredth, he, pow_ten_neg_two]
    simp [F64.mul]
  have hclaim : claimedFreq decadeLibm 1 (F64.fin 1) (F64.fin 100) 0 = F64.fin 1000 := by
    have he : F64.mul (F64.sub (F64.div (F64.ofInt (0 + 1)) (F64.ofInt (1 + 1))) (F64.fin 1))
        (F64.fin (-2)) = F64.fin 1 := by
      simp [F64.mul, F64.sub, F64.add, F64.neg, F64.div, F64.ofInt]
      norm_num
    have hp : decadeLibm.Pow (F64.fin 10) (F64.fin 1) = F64.fin 10 := by
      simp [Libm.Pow]
    unfold claimedFreq
    rw [hdiv, decade_log10_hundredth, he, hp]
    simp [F64.mul]
    norm_num
  have hidx : ∀ q : Nat, (q : Int) < 2 ^ 63 →
      freqIndex unitEngine.sampleRate unitEngine.sampleSize (F64.fin q) = q := by
    intro q hq2
    have hv : F64.mul (F64.div (F64.fin q) (F64.div (F64.fin 2) (F64.fin 2)))
        (F64.div (F64.ofInt 4) (F64.fin 4)) = F64.fin q := by
      simp [F64.mul, F64.div, F64.ofInt]
    have hq : -(2 ^ 63 : Int) ≤ (q : Int) := by
      have : (0 : Int) ≤ q := Int.ofNat_nonneg q
      omega
    show F64.toInt (F64.floor (F64.mul (F64.div (F64.fin q) (F64.div (F64.fin 2) (F64.fin 2)))
      (F64.div (F64.ofInt 4) (F64.fin 4)))) = q
    rw [hv]
    simp only [F64.floor, F64.toInt, Int.floor_natCast, Int.cast_natCast, Nat.cast_nonneg,
      if_true]
    rw [if_pos ⟨hq, hq2⟩]
  refine ⟨s', hs', hcode, hclaim, ?_, ?_⟩
  · obtain ⟨x, hx, hx0, _⟩ := hl 0 le_rfl (by norm_num)
    rw [hx, hx0 rfl, rawCut_eq_freqIndex, hcode]
    have := hidx 1 (by norm_num)
    simp only [Nat.cast_one] at this
    rw [this]
  · rw [hclaim]
    have := hidx 1000 (by norm_num)
    simpa using this

/-! ## Recalculate: range of the cut indices -/

/-- From a step up on, a convex sequence keeps going up. -/
theorem convex_steps_up (h : Int → ℚ) (n k : Int) (hk0 : 0 ≤ k)
    (hc : ∀ b, 1 ≤ b → b < n → 2 * h b ≤ h (b - 1) + h (b + 1))
    (hk : h k ≤ h (k + 1)) :
    ∀ d : Nat, k + d + 1 ≤ n → h (k + d) ≤ h (k + d + 1) := by
  intro d
  induction d with
  | zero => intro _; simpa using hk
  | succ d ih =>
    intro hd
    have ih' := ih (by push_cast at hd; omega)
    have hcv := hc (k + d + 1) (by omega) (by push_cast at hd; omega)
    have e1 : k + d + 1 - 1 = k + d := by ring
    rw [e1] at hcv
    have e2 : k + ((d + 1 : Nat) : Int) = k + d + 1 := by push_cast; ring
    rw [e2]
    linarith

theorem convex_le_right (h : Int → ℚ) (n k : Int) (hk0 : 0 ≤ k)
    (hc : ∀ b, 1 ≤ b → b < n → 2 * h b ≤ h (b - 1) + h (b + 1))
    (hk : h k ≤ h (k + 1)) :
    ∀ d : Nat, k + d ≤ n → h k ≤ h (k + d) := by
  intro d
  induction d with
  | zero => intro _; simp
  | succ d ih =>
    intro hd
    have h1 := ih (by push_cast at hd; omega)
    have h2 := convex_steps_up h n k hk0 hc hk d (by push_cast at hd; omega)
    have e2 : k + ((d + 1 : Nat) : Int) = k + d + 1 := by push_cast; ring
    rw [e2]
    linarith

theorem convex_le_left (h : Int → ℚ) (n j : Int) (hjn : j < n)
    (hc : ∀ b, 1 ≤ b → b < n → 2 * h b ≤ h (b - 1) + h (b + 1))
    (hj : h (j + 1) ≤ h j) :
    ∀ d : Nat, (d : Int) ≤ j → h (j - d + 1) ≤ h (j - d) ∧ h j ≤ h (j - d) := by
  intro d
  induction d with
  | zero => intro _; simpa using hj
  | succ d ih =>
    intro hd
    obtain ⟨h1, h2⟩ := ih (by push_cast at hd; omega)
    have hcv := hc (j - d) (by push_cast at hd; omega) (by omega)
    have e2 : j - ((d + 1 : Nat) : Int) = j - d - 1 := by push_cast; ring
    have e3 : j - d - 1 + 1 = j - d := by ring
    rw [e2, e3]
    constructor <;> linarith

/-- A convex sequence on `0..n` is nowhere above the larger of its two ends. -/
theorem convex_le_ends (h : Int → ℚ) (n : Int)
    (hc : ∀ b, 1 ≤ b → b < n → 2 * h b ≤ h (b - 1) + h (b + 1)) :
    ∀ j, 0 ≤ j → j ≤ n → h j ≤ max (h 0) (h n) := by
  intro j hj0 hjn
  rcases eq_or_lt_of_le hjn with hje | hjlt
  · rw [hje]; exact le_max_right _ _
  · by_cases hup : h j ≤ h (j + 1)
    · have := convex_le_right h n j hj0 hc hup (n - j).toNat (by omega)
      have e : j + ((n - j).toNat : Int) = n := by omega
      rw [e] at this
      exact le_trans this (le_max_right _ _)
    · have := (convex_le_left h n j hjlt hc (by linarith) j.toNat (by omega)).2
      have e : j - (j.toNat : Int) = 0 := by omega
      rw [e] at this
      exact le_trans this (le_max_left _ _)

/-- Raw index of a finite frequency between 0 and `sampleRate/2`: the floor of
`(q / (sampleRate/2)) * (sampleSize/4)`, between 0 and `sampleSize/4`. -/
theorem freqIndex_fin (sr q : ℚ) (ss : Int) (hsr : 0 < sr) (hss0 : 0 ≤ ss) (hss : ss < 2 ^ 63)
    (hq0 : 0 ≤ q) (hq1 : q ≤ sr / 2) :
    freqIndex (F64.fin sr) ss (F64.fin q) = ⌊q / (sr / 2) * ((ss : ℚ) / 4)⌋ ∧
      0 ≤ ⌊q / (sr / 2) * ((ss : ℚ) / 4)⌋ ∧
      ((⌊q / (sr / 2) * ((ss : ℚ) / 4)⌋ : Int) : ℚ) ≤ (ss : ℚ) / 4 := by
  have hsr2 : (0 : ℚ) < sr / 2 := by linarith
  have hssq : (0 : ℚ) ≤ (ss : ℚ) / 4 := by
    have : (0 : ℚ) ≤ (ss : ℚ) := by exact_mod_cast hss0
    linarith
  have hr1 : q / (sr / 2) ≤ 1 := (div_le_one hsr2).mpr hq1
  have hr0 : 0 ≤ q / (sr / 2) := div_nonneg hq0 (le_of_lt hsr2)
  have hy0 : 0 ≤ q / (sr / 2) * ((ss : ℚ) / 4) := mul_nonneg hr0 hssq
  have hy1 : q / (sr / 2) * ((ss : ℚ) / 4) ≤ (ss : ℚ) / 4 := by
    have := mul_le_mul_of_nonneg_right hr1 hssq
    linarith
  have hf0 : 0 ≤ ⌊q / (sr / 2) * ((ss : ℚ) / 4)⌋ := Int.floor_nonneg.mpr hy0
  have hf1 : ((⌊q / (sr / 2) * ((ss : ℚ) / 4)⌋ : Int) : ℚ) ≤ (ss : ℚ) / 4 :=
    le_trans (Int.floor_le _) hy1
  refine ⟨?_, hf0, hf1⟩
  have hlt : ⌊q / (sr / 2) * ((ss : ℚ) / 4)⌋ < 2 ^ 63 := by
    have h1 : ((⌊q / (sr / 2) * ((ss : ℚ) / 4)⌋ : Int) : ℚ) ≤ (ss : ℚ) := by
      have : (0 : ℚ) ≤ (ss : ℚ) := by exact_mod_cast hss0
      linarith
    have h2 : ⌊q / (sr / 2) * ((ss : ℚ) / 4)⌋ ≤ ss := by exact_mod_cast h1
    omega
  have hge : -(2 ^ 63 : Int) ≤ ⌊q / (sr / 2) * ((ss : ℚ) / 4)⌋ := by
    have : -(2 ^ 63 : Int) ≤ 0 := by norm_num
    omega
  have h2 : (2 : ℚ) ≠ 0 := by norm_num
  have hsr2' : sr / 2 ≠ 0 := ne_of_gt hsr2
  have hfq : (0 : ℚ) ≤ ((⌊q / (sr / 2) * ((ss : ℚ) / 4)⌋ : Int) : ℚ) := by exact_mod_cast hf0
  simp only [freqIndex, F64.div, F64.mul, F64.ofInt, F64.floor, F64.toInt, h2, hsr2', if_false,
    hfq, if_true, Int.floor_intCast]
  norm_num
  intro h
  omega


/-- C17: for `0 < lo < hi ≤ sampleRate/2`, when the library returns bin frequencies
that are non-negative, at most `hi` at both ends and convex in `b` (as the exact
exponential is), and `loCuts[0] + bins ≤ sampleSize/4`, `Recalculate` returns and
every `0 ≤ b ≤ bins` has `0 ≤ loCuts[b] ≤ sampleSize/4`. -/
theorem Recalculate_cuts_within_range {W : Type} (L : Libm) (s : Spectrum W) (bins : Int)
    (lq hq sr : ℚ) (f : Int → ℚ)
    (hlo : s.maxBins < s.loCuts.length) (hhi : s.maxBins < s.hiCuts.length)
    (hsr : s.sampleRate = F64.fin sr) (hsr0 : 0 < sr)
    (hss0 : 0 ≤ s.sampleSize) (hss : s.sampleSize < 2 ^ 63)
    (_hl : 0 < lq) (_hlh : lq < hq) (hhq : hq ≤ sr / 2)
    (hfreq : ∀ b, 0 ≤ b → b ≤ min bins s.maxBins →
      binFreq L (min bins s.maxBins) (F64.fin lq) (F64.fin hq) b = F64.fin (f b) ∧ 0 ≤ f b)
    (hf0 : f 0 ≤ hq) (hfB : f (min bins s.maxBins) ≤ hq)
    (hconv : ∀ b, 1 ≤ b → b < min bins s.maxBins → 2 * f b ≤ f (b - 1) + f (b + 1))
    (hbump : ((rawCut L s.sampleRate s.sampleSize (min bins s.maxBins) (F64.fin lq)
      (F64.fin hq) 0 : Int) : ℚ) + ((min bins s.maxBins : Int) : ℚ) ≤ (s.sampleSize : ℚ) / 4) :
    ∃ s', Recalculate L s bins (F64.fin lq) (F64.fin hq) = some (s', min bins s.maxBins) ∧
      ∀ b, 0 ≤ b → b ≤ min bins s.maxBins →
        ∃ x, sliceGet s'.loCuts b = some x ∧ 0 ≤ x ∧ (x : ℚ) ≤ (s.sampleSize : ℚ) / 4 := by
  obtain ⟨s', hs', _, _, _, _, hl, _, _⟩ := Recalculate_tables L s bins (F64.fin lq)
    (F64.fin hq) hlo hhi
  refine ⟨s', hs', ?_⟩
  set B := min bins s.maxBins with hB
  set R := rawCut L s.sampleRate s.sampleSize B (F64.fin lq) (F64.fin hq) with hR
  have hsr2 : (0 : ℚ) < sr / 2 := by linarith
  have hssq : (0 : ℚ) ≤ (s.sampleSize : ℚ) / 4 := by
    have : (0 : ℚ) ≤ (s.sampleSize : ℚ) := by exact_mod_cast hss0
    linarith
  -- every frequency is at most `hi`
  have hfle : ∀ b, 0 ≤ b → b ≤ B → f b ≤ hq := fun b h0 h1 =>
    le_trans (convex_le_ends f B hconv b h0 h1) (max_le hf0 hfB)
  -- raw indices are floors
  have hraw : ∀ b, 0 ≤ b → b ≤ B →
      R b = ⌊f b / (sr / 2) * ((s.sampleSize : ℚ) / 4)⌋ ∧ 0 ≤ R b := by
    intro b h0 h1
    obtain ⟨e, hf⟩ := hfreq b h0 h1
    obtain ⟨e1, e2, _⟩ := freqIndex_fin sr (f b) s.sampleSize hsr0 hss0 hss hf
      (le_trans (hfle b h0 h1) hhq)
    have : R b = ⌊f b / (sr / 2) * ((s.sampleSize : ℚ) / 4)⌋ := by
      rw [hR, rawCut_eq_freqIndex, hsr, e, e1]
    exact ⟨this, by rw [this]; exact e2⟩
  -- a bump chain started at `j` stays within `sampleSize/4`
  have hchain : ∀ j b, 0 ≤ j → j ≤ b → b ≤ B →
      ((R j + (b - j) : Int) : ℚ) ≤ (s.sampleSize : ℚ) / 4 := by
    intro j b hj0 hjb hbB
    have hc0 : (0 : ℚ) ≤ (s.sampleSize : ℚ) / 4 / (sr / 2) := div_nonneg hssq (le_of_lt hsr2)
    have hG : ∀ k : Int, f k / (sr / 2) * ((s.sampleSize : ℚ) / 4)
        = (s.sampleSize : ℚ) / 4 / (sr / 2) * f k := fun k => by ring
    have hcv : ∀ k, 1 ≤ k → k < b →
        2 * (f k / (sr / 2) * ((s.sampleSize : ℚ) / 4) - (k : ℚ))
          ≤ (f (k - 1) / (sr / 2) * ((s.sampleSize : ℚ) / 4) - ((k - 1 : Int) : ℚ))
            + (f (k + 1) / (sr / 2) * ((s.sampleSize : ℚ) / 4) - ((k + 1 : Int) : ℚ)) := by
      intro k hk1 hkb
      have h1 := mul_le_mul_of_nonneg_left (hconv k hk1 (by omega)) hc0
      rw [hG, hG, hG]
      push_cast
      linarith
    have hends := convex_le_ends
      (fun k => f k / (sr / 2) * ((s.sampleSize : ℚ) / 4) - (k : ℚ)) b hcv j hj0 hjb
    simp only at hends
    have hRj := (hraw j hj0 (by omega)).1
    have hfl : ((R j : Int) : ℚ) ≤ f j / (sr / 2) * ((s.sampleSize : ℚ) / 4) := by
      rw [hRj]; exact Int.floor_le _
    rcases le_max_iff.mp hends with h | h
    · -- bounded by the chain started at bin 0
      have h0' : ((R j + (b - j) - b : Int) : ℚ) ≤ f 0 / (sr / 2) * ((s.sampleSize : ℚ) / 4) := by
        push_cast at h ⊢
        linarith
      have h1 : R j + (b - j) - b ≤ R 0 := by
        rw [(hraw 0 le_rfl (by omega)).1]
        exact Int.le_floor.mpr h0'
      have h2 : ((R j + (b - j) : Int) : ℚ) ≤ ((R 0 : Int) : ℚ) + ((B : Int) : ℚ) := by
        have : R j + (b - j) ≤ R 0 + B := by omega
        exact_mod_cast this
      linarith
    · -- bounded by the raw index of `b`
      have hb' : ((R j + (b - j) : Int) : ℚ) ≤ f b / (sr / 2) * ((s.sampleSize : ℚ) / 4) := by
        push_cast at h ⊢
        linarith
      have hq1 : f b / (sr / 2) ≤ 1 :=
        (div_le_one hsr2).mpr (le_trans (hfle b (by omega) hbB) hhq)
      have := mul_le_mul_of_nonneg_right hq1 hssq
      linarith
  -- every final entry is the end of a bump chain
  have hsslt : (s.sampleSize : ℚ) / 4 < 2 ^ 62 := by
    have h1 : ((s.sampleSize : Int) : ℚ) < ((2 ^ 63 : Int) : ℚ) := by exact_mod_cast hss
    push_cast at h1
    linarith
  have hform : ∀ n : Nat, (n : Int) ≤ B →
      ∃ x j, sliceGet s'.loCuts n = some x ∧ 0 ≤ j ∧ j ≤ (n : Int) ∧ x = R j + (n - j) := by
    intro n
    induction n with
    | zero =>
      intro hn
      obtain ⟨x, hx, hx0, _⟩ := hl 0 le_rfl (by omega)
      exact ⟨x, 0, by simpa using hx, le_rfl, by simp, by simp [hx0 rfl, hR]⟩
    | succ n ih =>
      intro hn
      obtain ⟨p, j, hp, hj0, hjn, hpe⟩ := ih (by push_cast at hn; omega)
      obtain ⟨x, hx, _, hxp⟩ := hl ((n + 1 : Nat) : Int) (by omega) (by omega)
      obtain ⟨p', hp', hxe⟩ := hxp (by push_cast; omega)
      have e : ((n + 1 : Nat) : Int) - 1 = n := by push_cast; ring
      rw [e, hp] at hp'
      cases hp'
      have hbound := hchain j ((n + 1 : Nat) : Int) hj0 (by push_cast; omega) hn
      have hp1 : R j + (((n + 1 : Nat) : Int) - j) = p + 1 := by
        rw [hpe]; push_cast; ring
      rw [hp1] at hbound
      have hplt : p + 1 < 2 ^ 63 := by
        have h1 : ((p + 1 : Int) : ℚ) < ((2 ^ 63 : Int) : ℚ) := by
          push_cast at hbound ⊢
          linarith
        exact_mod_cast h1
      have hp0 : 0 ≤ p := by
        have := (hraw j hj0 (by push_cast at hn; omega)).2
        omega
      have hw : wrap64 (p + 1) = p + 1 := wrap64_of_range _ (by omega) hplt
      rw [hw] at hxe
      by_cases hc : R ((n + 1 : Nat) : Int) ≤ p
      · rw [if_pos hc] at hxe
        exact ⟨x, j, hx, hj0, by push_cast; omega, by rw [hxe, ← hp1]⟩
      · rw [if_neg hc] at hxe
        exact ⟨x, ((n + 1 : Nat) : Int), hx, by omega, le_rfl, by rw [hxe]; ring⟩
  intro b hb0 hb1
  obtain ⟨x, j, hx, hj0, hjb, hxe⟩ := hform b.toNat (by omega)
  have eb : ((b.toNat : Nat) : Int) = b := by omega
  rw [eb] at hx hjb hxe
  refine ⟨x, hx, ?_, ?_⟩
  · have := (hraw j hj0 (by omega)).2
    omega
  · rw [hxe]; exact hchain j b hj0 hjb hb1


theorem coarse_log10_small : coarseLibm.Log10 (F64.div (F64.fin 220) (F64.fin 6000))
    = F64.fin 0 := by
  have hfl : ⌊((220 : ℚ) / 6000)⌋ = 0 := by
    rw [Int.floor_eq_iff]; norm_num
  have h1 : ¬ ((220 : ℚ) / 6000 < 0) := by norm_num
  have h2 : ¬ ((220 : ℚ) / 6000 = 0) := by norm_num
  have h3 : ¬ ((6000 : ℚ) = 0) := by norm_num
  simp only [F64.div, h3, if_false, Libm.Log10, h1, h2, coarseLibm, hfl]
  simp

/-- With the coarse library and 64 bins, every bin frequency between 220 Hz and
6000 Hz is 6000 Hz. -/
theorem binFreq_coarse (b : Int) :
    binFreq coarseLibm 64 (F64.fin 220) (F64.fin 6000) b = F64.fin 6000 := by
  have hc : F64.div (F64.fin 0)
      (F64.sub (F64.div (F64.fin 1) (F64.ofInt (64 + 1))) (F64.fin 1)) = F64.fin 0 := by
    simp [F64.ofInt, F64.div, F64.sub, F64.neg, F64.add]
    norm_num
  have he : F64.mul (F64.sub (F64.div (F64.ofInt (b + 1)) (F64.ofInt (64 + 1))) (F64.fin 1))
      (F64.fin 0) = F64.fin 0 := by
    simp [F64.ofInt, F64.div, F64.sub, F64.neg, F64.add, F64.mul]
  have hp : coarseLibm.Pow (F64.fin 10) (F64.fin 0) = F64.fin 1 := by simp [Libm.Pow]
  unfold binFreq
  rw [coarse_log10_small, hc, he, hp]
  simp [F64.mul]

/-- Witness of C17: the scenario of the specification (48000 Hz, 800 frames, 64
bins, 220 Hz to 6000 Hz) on `wideEngine`, with the coarse library. -/
theorem Recalculate_cuts_within_range_witness :
    ∃ s', Recalculate coarseLibm wideEngine 64 (F64.fin 220) (F64.fin 6000)
        = some (s', min 64 wideEngine.maxBins) ∧
      ∀ b, 0 ≤ b → b ≤ min 64 wideEngine.maxBins →
        ∃ x, sliceGet s'.loCuts b = some x ∧ 0 ≤ x ∧
          (x : ℚ) ≤ (wideEngine.sampleSize : ℚ) / 4 := by
  have hm : min 64 wideEngine.maxBins = 64 := by simp [wideEngine]
  have hraw0 : rawCut coarseLibm wideEngine.sampleRate wideEngine.sampleSize 64 (F64.fin 220)
      (F64.fin 6000) 0 = 50 := by
    rw [rawCut_eq_freqIndex, binFreq_coarse]
    have hsr : wideEngine.sampleRate = F64.fin 48000 := rfl
    have hss : wideEngine.sampleSize = 800 := rfl
    rw [hsr, hss]
    obtain ⟨e, _, _⟩ := freqIndex_fin 48000 6000 800 (by norm_num) (by norm_num) (by norm_num)
      (by norm_num) (by norm_num)
    rw [e, Int.floor_eq_iff]
    norm_num
  exact Recalculate_cuts_within_range coarseLibm wideEngine 64 220 6000 48000
    (fun _ => 6000) (by simp [wideEngine, smallEngine]) (by simp [wideEngine, smallEngine])
    rfl (by norm_num) (by simp [wideEngine, smallEngine])
    (by simp [wideEngine, smallEngine]) (by norm_num) (by norm_num) (by norm_num)
    (fun b _ _ => ⟨by rw [hm]; exact binFreq_coarse b, by norm_num⟩)
    (by norm_num) (by norm_num) (fun b _ _ => by norm_num)
    (by
      rw [hm, hraw0]
      simp [wideEngine, smallEngine]
      norm_num)


/-! ## Falloff over frames of silence -/

theorem sliceGet_map {α β : Type} (g : α → β) (l : List α) (i : Int) :
    sliceGet (l.map g) i = (sliceGet l i).map g := by
  unfold sliceGet
  split
  · simp [List.getElem?_map]
  · rfl

theorem forall₂_mem_right {α : Type} {R : α → α → Prop} {l l' : List α}
    (h : List.Forall₂ R l l') : ∀ b ∈ l', ∃ a ∈ l, R a b := by
  induction h with
  | nil => intro b hb; simp at hb
  | cons hab _ ih =>
    intro b hb
    rcases List.mem_cons.mp hb with h | h
    · subst h; exact ⟨_, List.mem_cons_self _ _, hab⟩
    · obtain ⟨a, ha, hr⟩ := ih b h
      exact ⟨a, List.mem_cons_of_mem _ ha, hr⟩

/-- On finite values with `v ≤ f`, the decayed value lies between `v` and `f`, is
at least 1 below `f` unless it is `v`, and is `v` when `f = v`. -/
theorem decayed_step (w f v : ℚ) (hvf : v ≤ f) :
    ∃ r : ℚ, decayed (F64.fin w) (F64.fin f) (F64.fin v) = F64.fin r ∧ v ≤ r ∧ r ≤ f ∧
      (r ≤ f - 1 ∨ r = v) ∧ (f = v → r = v) := by
  have hm : ∃ m : ℚ, F64.min (F64.mul (F64.fin f) (F64.fin w)) (F64.sub (F64.fin f) (F64.fin 1))
      = F64.fin m ∧ m ≤ f - 1 := by
    by_cases h : f * w < f - 1
    · exact ⟨f * w, by simp [F64.min, F64.mul, F64.sub, F64.add, F64.neg, F64.lt,
        ← sub_eq_add_neg, h], le_of_lt h⟩
    · exact ⟨f - 1, by simp [F64.min, F64.mul, F64.sub, F64.add, F64.neg, F64.lt,
        ← sub_eq_add_neg, h], le_rfl⟩
  obtain ⟨m, hm, hle⟩ := hm
  unfold decayed
  rw [hm]
  by_cases h : v < m
  · exact ⟨m, by simp [F64.max, F64.gt, F64.lt, h], le_of_lt h, by linarith, Or.inl hle,
      fun hfv => by linarith⟩
  · exact ⟨v, by simp [F64.max, F64.gt, F64.lt, h], le_rfl, hvf, Or.inr rfl, fun _ => rfl⟩

/-- One frame of silence: `Falloff` returns and every set makes a `DecayStep`. -/
theorem silentFrame_step {W : Type} (t : Spectrum W) (w v : ℚ)
    (hinv : ∀ ds ∈ t.workSets, ∀ b, 0 ≤ b → b ≤ t.numBins →
      (∃ f : ℚ, sliceGet ds.falloff b = some (F64.fin f) ∧ v ≤ f) ∧
        ∃ x, sliceGet ds.Bins b = some x) :
    ∃ t', Falloff (withIncoming (F64.fin v) t) (F64.fin w) = some t' ∧
      t'.numBins = t.numBins ∧ List.Forall₂ (DecayStep t.numBins v) t.workSets t'.workSets := by
  obtain ⟨ws', hws', hF⟩ := mapM_forall₂
    (fun vSet => forIncl 0 t.numBins (falloffStep (F64.fin w)) vSet)
    (fun ds ds' => FalloffInv (F64.fin w) ds (t.numBins + 1) ds')
    (withIncoming (F64.fin v) t).workSets
    (fun ds hds => falloffLoop_spec (F64.fin w) ds t.numBins (by
      simp only [withIncoming, List.mem_map] at hds
      obtain ⟨d, hd, rfl⟩ := hds
      intro b h0 h1
      obtain ⟨⟨f, hf, _⟩, ⟨x, hx⟩⟩ := hinv d hd b h0 h1
      refine ⟨⟨_, hf⟩, ⟨F64.fin v, ?_⟩⟩
      show sliceGet (d.Bins.map fun _ => F64.fin v) b = _
      rw [sliceGet_map, hx]; rfl))
  have hfall : Falloff (withIncoming (F64.fin v) t) (F64.fin w)
      = some { withIncoming (F64.fin v) t with workSets := ws' } := by
    unfold Falloff
    rw [show (withIncoming (F64.fin v) t).numBins = t.numBins from rfl, hws']
    rfl
  refine ⟨{ withIncoming (F64.fin v) t with workSets := ws' }, hfall, rfl, ?_⟩
  have hF' : List.Forall₂ (fun ds ds' => FalloffInv (F64.fin w)
      { ds with Bins := ds.Bins.map fun _ => F64.fin v } (t.numBins + 1) ds')
      t.workSets ws' := by
    have := hF
    simp only [withIncoming] at this
    exact List.forall₂_map_left_iff.mp this
  -- from the loop invariant to the decay step, set by set
  have key : ∀ (l l' : List (DataSet W)),
      List.Forall₂ (fun ds ds' => FalloffInv (F64.fin w)
        { ds with Bins := ds.Bins.map fun _ => F64.fin v } (t.numBins + 1) ds') l l' →
      (∀ ds ∈ l, ds ∈ t.workSets) → List.Forall₂ (DecayStep t.numBins v) l l' := by
    intro l l' h
    induction h with
    | nil => intro _; exact List.Forall₂.nil
    | cons hab _ ih =>
      intro hmem
      refine List.Forall₂.cons ?_ (ih (fun ds hds => hmem ds (List.mem_cons_of_mem _ hds)))
      intro b h0 h1
      obtain ⟨⟨f, hf, hvf⟩, ⟨x, hx⟩⟩ := hinv _ (hmem _ (List.mem_cons_self _ _)) b h0 h1
      obtain ⟨r, hr, h1', h2', h3', h4'⟩ := decayed_step w f v hvf
      obtain ⟨e1, e2⟩ := (hab b).1 ⟨h0, by omega⟩ (F64.fin f) (F64.fin v) hf
        (by
          show sliceGet (List.map (fun _ => F64.fin v) _) b = _
          rw [sliceGet_map, hx]; rfl)
      exact ⟨f, r, hf, by rw [e1, hr], by rw [e2, hr], h1', h2', h3', h4'⟩
  exact key _ _ hF' (fun ds hds => hds)

/-- C11: with a finite weight and a finite floor `v`, starting from falloff values
that are finite and at least `v`, every frame of silence (incoming bin value `v`)
has `Falloff` return, and takes each stored falloff `f` to `f'` with `v ≤ f' ≤ f` and
(`f' ≤ f - 1` or `f' = v`), `f'` staying `v` once reached: over `n` frames the
sequence is non-increasing and drops by at least 1 per frame until it is `v`. -/
theorem Falloff_decays_to_floor {W : Type} (s : Spectrum W) (w v : ℚ)
    (hinv : ∀ ds ∈ s.workSets, ∀ b, 0 ≤ b → b ≤ s.numBins →
      (∃ f : ℚ, sliceGet ds.falloff b = some (F64.fin f) ∧ v ≤ f) ∧
        ∃ x, sliceGet ds.Bins b = some x) :
    ∀ n : Nat, ∃ t t', silentFalloffFrames (F64.fin w) (F64.fin v) n s = some t ∧
      silentFalloffFrames (F64.fin w) (F64.fin v) (n + 1) s = some t' ∧
      List.Forall₂ (fun ds ds' => ∀ b, 0 ≤ b → b ≤ s.numBins → ∃ f f' : ℚ,
        sliceGet ds.falloff b = some (F64.fin f) ∧
        sliceGet ds'.falloff b = some (F64.fin f') ∧ sliceGet ds'.Bins b = some (F64.fin f') ∧
        v ≤ f' ∧ f' ≤ f ∧ (f' ≤ f - 1 ∨ f' = v) ∧ (f = v → f' = v))
        t.workSets t'.workSets := by
  have hstate : ∀ n : Nat, ∃ t, silentFalloffFrames (F64.fin w) (F64.fin v) n s = some t ∧
      t.numBins = s.numBins ∧
      ∀ ds ∈ t.workSets, ∀ b, 0 ≤ b → b ≤ t.numBins →
        (∃ f : ℚ, sliceGet ds.falloff b = some (F64.fin f) ∧ v ≤ f) ∧
          ∃ x, sliceGet ds.Bins b = some x := by
    intro n
    induction n with
    | zero => exact ⟨s, rfl, rfl, hinv⟩
    | succ n ih =>
      obtain ⟨t, ht, hn, hi⟩ := ih
      obtain ⟨t', ht', hn', hF⟩ := silentFrame_step t w v hi
      refine ⟨t', by simp only [silentFalloffFrames, ht, Option.some_bind, ht'], hn'.trans hn, ?_⟩
      intro ds' hds' b h0 h1
      obtain ⟨ds, _, hr⟩ := forall₂_mem_right hF ds' hds'
      obtain ⟨f, f', _, e1, e2, h1', _⟩ := hr b h0 (by rw [← hn']; exact h1)
      exact ⟨⟨f', e1, h1'⟩, ⟨_, e2⟩⟩
  intro n
  obtain ⟨t, ht, hn, hi⟩ := hstate n
  obtain ⟨t', ht', _, hF⟩ := silentFrame_step t w v hi
  refine ⟨t, t', ht, by simp only [silentFalloffFrames, ht, Option.some_bind, ht'], ?_⟩
  rw [hn] at hF
  exact hF


/-- Witness of C11: the frames 2 and 3 of silence after a spike on `decayEngine`,
with weight 4/5 and floor -1. -/
theorem Falloff_decays_to_floor_witness :
    ∃ t t', silentFalloffFrames (F64.fin (4 / 5)) (F64.fin (-1)) 2 decayEngine = some t ∧
      silentFalloffFrames (F64.fin (4 / 5)) (F64.fin (-1)) (2 + 1) decayEngine = some t' ∧
      List.Forall₂ (fun ds ds' => ∀ b, 0 ≤ b → b ≤ decayEngine.numBins → ∃ f f' : ℚ,
        sliceGet ds.falloff b = some (F64.fin f) ∧
        sliceGet ds'.falloff b = some (F64.fin f') ∧ sliceGet ds'.Bins b = some (F64.fin f') ∧
        (-1 : ℚ) ≤ f' ∧ f' ≤ f ∧ (f' ≤ f - 1 ∨ f' = -1) ∧ (f = -1 → f' = -1))
        t.workSets t'.workSets :=
  Falloff_decays_to_floor decayEngine (4 / 5) (-1) (by
    intro ds hds b h0 h1
    have h1' : b ≤ 3 := h1
    have hb : b = 0 ∨ b = 1 ∨ b = 2 ∨ b = 3 := by omega
    simp only [decayEngine, List.mem_cons, List.mem_singleton, List.not_mem_nil,
      or_false] at hds
    subst hds
    rcases hb with h | h | h | h <;> subst h
    · exact ⟨⟨9, by simp [sliceGet], by norm_num⟩, ⟨F64.fin (-1), by simp [sliceGet]⟩⟩
    · exact ⟨⟨-1, by simp [sliceGet], le_rfl⟩, ⟨F64.fin (-1), by simp [sliceGet]⟩⟩
    · exact ⟨⟨-1, by simp [sliceGet], le_rfl⟩, ⟨F64.fin (-1), by simp [sliceGet]⟩⟩
    · exact ⟨⟨-1, by simp [sliceGet], le_rfl⟩, ⟨F64.fin (-1), by simp [sliceGet]⟩⟩) 2


/-! ## Renderer: widths and bar count -/

theorem Bars_eq {W : Type} (d : Display W) (hW : 0 ≤ d.screen.width) (hb : 0 < d.binWidth) :
    Display.Bars d = some (if d.screen.width % d.binWidth ≥ d.barWidth
      then d.screen.width / d.binWidth + 1 else d.screen.width / d.binWidth) := by
  have hne : d.binWidth ≠ 0 := ne_of_gt hb
  simp only [Display.Bars, hne, if_false, Int.tdiv_eq_ediv hW (le_of_lt hb),
    Int.tmod_eq_emod hW (le_of_lt hb)]
  split <;> rfl

theorem Bars_zero_stride {W : Type} (d : Display W) (hb : d.binWidth = 0) :
    Display.Bars d = none := by
  simp [Display.Bars, hb]

/-- C12: for every `bar`, `space` (their clamped sum fitting an `int`) and every
screen width `W ≥ 0`, `SetWidths(bar, space)` returns, stores `barWidth = max(bar, 1)`,
`spaceWidth = max(space, 0)` and `binWidth = barWidth + spaceWidth`, and returns
`⌊W / binWidth⌋ + 1` if `W mod binWidth ≥ barWidth`, else `⌊W / binWidth⌋`; `Size()`
then returns that count with the row count of the screen. -/
theorem SetWidths_clamps_and_counts {W : Type} (d : Display W) (bar space : Int)
    (hW : 0 ≤ d.screen.width) (hfit : max bar 1 + max space 0 < 2 ^ 63) :
    ∃ d' n, Display.SetWidths d bar space = some (d', n) ∧
      d'.barWidth = max bar 1 ∧ d'.spaceWidth = max space 0 ∧
      d'.binWidth = d'.barWidth + d'.spaceWidth ∧ d'.screen = d.screen ∧
      n = (if d.screen.width % d'.binWidth ≥ d'.barWidth
        then d.screen.width / d'.binWidth + 1 else d.screen.width / d'.binWidth) ∧
      Display.Size d' = some (n, d.screen.height) := by
  have hbar : (if bar < 1 then 1 else bar) = max bar 1 := by split <;> omega
  have hsp : (if space < 0 then 0 else space) = max space 0 := by split <;> omega
  have hwrap : wrap64 (max bar 1 + max space 0) = max bar 1 + max space 0 :=
    wrap64_of_range _ (by omega) hfit
  have hB := Bars_eq (⟨max bar 1, max space 0, max bar 1 + max space 0, d.slowWindow,
    d.fastWindow, d.screen⟩ : Display W) hW (by show 0 < max bar 1 + max space 0; omega)
  refine ⟨⟨max bar 1, max space 0, max bar 1 + max space 0, d.slowWindow, d.fastWindow,
    d.screen⟩, _, ?_, rfl, rfl, rfl, rfl, rfl, ?_⟩
  · simp only [Display.SetWidths, hbar, hsp, hwrap, hB, Option.map_some']
  · simp only [Display.Size, hB, Option.map_some']

/-- Witness of C12: bars of width 2 with gaps of 1 on an 80 x 24 terminal. -/
theorem SetWidths_clamps_and_counts_witness :
    ∃ d' n, Display.SetWidths termDisplay 2 1 = some (d', n) ∧
      d'.barWidth = max 2 1 ∧ d'.spaceWidth = max 1 0 ∧
      d'.binWidth = d'.barWidth + d'.spaceWidth ∧ d'.screen = termDisplay.screen ∧
      n = (if termDisplay.screen.width % d'.binWidth ≥ d'.barWidth
        then termDisplay.screen.width / d'.binWidth + 1
        else termDisplay.screen.width / d'.binWidth) ∧
      Display.Size d' = some (n, termDisplay.screen.height) :=
  SetWidths_clamps_and_counts termDisplay 2 1 (by decide) (by decide)

theorem bars_fit (w bar space : Int) (hw : 0 ≤ w) (hbar : 1 ≤ bar) (hsp : 0 ≤ space) :
    let n := if w % (bar + space) ≥ bar then w / (bar + space) + 1 else w / (bar + space)
    0 ≤ n ∧ n * (bar + space) - space ≤ w ∧
      ∀ m, m * (bar + space) - space ≤ w → m ≤ n := by
  have hb : 0 < bar + space := by omega
  have h1 := Int.emod_add_ediv w (bar + space)
  have h2 := Int.emod_nonneg w (ne_of_gt hb)
  have h3 := Int.emod_lt_of_pos w hb
  have h4 : 0 ≤ w / (bar + space) := Int.ediv_nonneg hw (le_of_lt hb)
  set q := w / (bar + space) with hq
  set r := w % (bar + space) with hr
  intro n
  by_cases hc : r ≥ bar
  · have hn : n = q + 1 := by simp only [n, hc, if_true]
    rw [hn]
    refine ⟨by omega, by nlinarith, ?_⟩
    intro m hm
    have : m * (bar + space) < (q + 2) * (bar + space) := by nlinarith
    have := lt_of_mul_lt_mul_right this (le_of_lt hb)
    omega
  · have hn : n = q := by simp only [n, hc, if_false]
    rw [hn]
    refine ⟨h4, by nlinarith, ?_⟩
    intro m hm
    have : m * (bar + space) < (q + 1) * (bar + space) := by nlinarith
    have := lt_of_mul_lt_mul_right this (le_of_lt hb)
    omega

/-- C20: for every screen width `W ≥ 0`, `barWidth ≥ 1`, `spaceWidth ≥ 0` and
`binWidth = barWidth + spaceWidth`, `Bars()` returns the greatest `n ≥ 0` with
`n * binWidth - spaceWidth ≤ W`; and when `W + spaceWidth` fits an `int`, the content
width that `Draw` computes for `count = Bars()` is that `n * binWidth - spaceWidth`,
at most `W`. -/
theorem Bars_is_greatest_fit {W : Type} (d : Display W)
    (hW : 0 ≤ d.screen.width) (hbar : 1 ≤ d.barWidth) (hsp : 0 ≤ d.spaceWidth)
    (hbin : d.binWidth = d.barWidth + d.spaceWidth) :
    ∃ n, Display.Bars d = some n ∧ 0 ≤ n ∧ n * d.binWidth - d.spaceWidth ≤ d.screen.width ∧
      (∀ m, m * d.binWidth - d.spaceWidth ≤ d.screen.width → m ≤ n) ∧
      (d.screen.width + d.spaceWidth < 2 ^ 63 →
        Display.contentWidth d n = n * d.binWidth - d.spaceWidth ∧
        Display.contentWidth d n ≤ d.screen.width) := by
  have hb : 0 < d.binWidth := by omega
  have hB := Bars_eq d hW hb
  obtain ⟨h0, h1, h2⟩ := bars_fit d.screen.width d.barWidth d.spaceWidth hW hbar hsp
  rw [← hbin] at h0 h1 h2
  refine ⟨_, hB, h0, h1, h2, ?_⟩
  intro hfit
  generalize (if d.screen.width % d.binWidth ≥ d.barWidth
      then d.screen.width / d.binWidth + 1 else d.screen.width / d.binWidth) = n at h0 h1 ⊢
  have hnb : 0 ≤ n * d.binWidth := mul_nonneg h0 (le_of_lt hb)
  have hmul : d.binWidth * n = n * d.binWidth := mul_comm _ _
  have hc : Display.contentWidth d n = n * d.binWidth - d.spaceWidth := by
    unfold Display.contentWidth
    rw [hmul]
    generalize n * d.binWidth = X at hnb h1 ⊢
    rw [wrap64_of_range X (by omega) (by omega), wrap64_of_range _ (by omega) (by omega)]
  exact ⟨hc, by rw [hc]; exact h1⟩

/-- Witness of C20: an 80-column terminal with bars of width 2 and gaps of 1. -/
theorem Bars_is_greatest_fit_witness :
    ∃ n, Display.Bars { termDisplay with barWidth := 2, spaceWidth := 1, binWidth := 3 } = some n ∧
      0 ≤ n ∧ n * 3 - 1 ≤ 80 ∧ (∀ m : Int, m * 3 - 1 ≤ 80 → m ≤ n) ∧
      ((80 : Int) + 1 < 2 ^ 63 →
        Display.contentWidth
          { termDisplay with barWidth := 2, spaceWidth := 1, binWidth := 3 } n = n * 3 - 1 ∧
        Display.contentWidth
          { termDisplay with barWidth := 2, spaceWidth := 1, binWidth := 3 } n ≤ 80) :=
  Bars_is_greatest_fit { termDisplay with barWidth := 2, spaceWidth := 1, binWidth := 3 }
    (by decide) (by decide) (by decide) rfl


/-! ## Renderer: `Draw` -/

/-- C13: `Draw(bins, count, bHeight)` returns the error "not enough sets to draw"
when `len(bins) = 0` and "too many sets to draw" when `len(bins) ≥ 3`, in both cases
with the display (scaling windows and screen cells) untouched; and whenever it
returns, the error is non-nil if and only if `len(bins)` is outside `{1, 2}`. -/
theorem Draw_errors_iff_bad_channel_count {W : Type} (ops : UtilWindowOps W) (d : Display W)
    (bins : List (List F64)) (count bHeight : Int) :
    (bins.length = 0 →
      Display.Draw ops d bins count bHeight = some (d, some Display.errNotEnough)) ∧
    (3 ≤ bins.length →
      Display.Draw ops d bins count bHeight = some (d, some Display.errTooMany)) ∧
    (∀ r, Display.Draw ops d bins count bHeight = some r →
      (r.2 ≠ none ↔ ¬ (bins.length = 1 ∨ bins.length = 2)) ∧
      (r.2 ≠ none → r.1 = d)) := by
  refine ⟨?_, ?_, ?_⟩
  · intro h
    simp [Display.Draw, h]
  · intro h
    have h1 : ¬ ((bins.length : Int) < 1) := by omega
    have h2 : (bins.length : Int) > 2 := by omega
    simp only [Display.Draw, h1, h2, if_false, if_true]
  · intro r hr
    by_cases h1 : (bins.length : Int) < 1
    · simp only [Display.Draw, h1, if_true] at hr
      cases hr
      exact ⟨⟨fun _ => by omega, fun _ => by simp⟩, fun _ => rfl⟩
    · by_cases h2 : (bins.length : Int) > 2
      · simp only [Display.Draw, h1, h2, if_false, if_true] at hr
        cases hr
        exact ⟨⟨fun _ => by omega, fun _ => by simp⟩, fun _ => rfl⟩
      · simp only [Display.Draw, h1, h2, if_false, Option.bind_eq_some, Option.map_eq_some']
          at hr
        obtain ⟨_, _, _, _, hr⟩ := hr
        subst hr
        exact ⟨⟨fun h => absurd rfl h, fun h => by omega⟩, fun h => absurd rfl h⟩

/-- Witness of C13: no channel buffer at all on the 80 x 24 terminal. -/
theorem Draw_errors_iff_bad_channel_count_witness :
    Display.Draw (specUtilWindow coarseLibm) termBars [] 27 1
      = some (termBars, some Display.errNotEnough) :=
  (Draw_errors_iff_bad_channel_count (specUtilWindow coarseLibm) termBars [] 27 1).1 rfl


/-! ## Renderer: the cells of one bar -/

theorem loopFrom_collect {α : Type} (f : Int → Option (List α)) (g : Int → List α) :
    ∀ (n : Nat) (start : Int) (acc : List α),
      (∀ x, start ≤ x → x < start + n → f x = some (g x)) →
      loopFrom (fun acc x => (f x).map fun c => acc ++ c) n start acc
        = some (acc ++ ((List.range n).map fun (k : Nat) => g (start + (k : Int))).flatten) := by
  intro n
  induction n with
  | zero => intro start acc _; simp [loopFrom]
  | succ n ih =>
    intro start acc h
    have h0 := h start le_rfl (by push_cast; omega)
    have hrest := ih (start + 1) (acc ++ g start)
      (fun x hx1 hx2 => h x (by omega) (by push_cast; omega))
    simp only [loopFrom, h0, Option.map_some', Option.some_bind, hrest]
    rw [List.range_succ_eq_map, List.map_cons, List.flatten_cons, List.map_map]
    simp only [Nat.cast_zero, add_zero, List.append_assoc]
    have hfun : (fun k : Nat => g (start + 1 + (k : Int)))
        = (fun k : Nat => g (start + (k : Int))) ∘ Nat.succ := by
      funext k
      simp only [Function.comp, Nat.succ_eq_add_one, Nat.cast_add, Nat.cast_one]
      congr 1
      ring
    rw [hfun]

theorem rowCells_mem (x : Int) (rune : Nat) (style : Style) (a b : Int) (c : Cell)
    (hc : c ∈ Display.rowCells x rune style a b) :
    c.x = x ∧ a ≤ c.y ∧ c.y < b ∧ c.rune = rune ∧ c.style = style := by
  simp only [Display.rowCells, List.mem_map, List.mem_range] at hc
  obtain ⟨k, hk, rfl⟩ := hc
  refine ⟨rfl, ?_, ?_, rfl, rfl⟩
  · show a ≤ a + (k : Int); omega
  · show a + (k : Int) < b; omega

theorem rowCells_length (x : Int) (rune : Nat) (style : Style) (a b : Int) :
    ((Display.rowCells x rune style a b).length : Int) = max (b - a) 0 := by
  simp only [Display.rowCells, List.length_map, List.length_range]
  omega

theorem partCell_left (x y part : Int) (h0 : 0 ≤ part) (h8 : part < 8) :
    Display.partCell 0 x y part Style.styleDefault
      = some (if part > 0 then
          [⟨x, y, (Display.barRunes.getD 0 []).getD part.toNat 0, Style.styleDefault⟩]
        else []) := by
  interval_cases part <;> rfl

theorem partCell_right (x y part : Int) (h8 : part < 8) :
    ∃ cs, Display.partCell 1 x y part Style.styleReverse = some cs ∧
      ∀ c ∈ cs, c.x = x ∧ c.y = y := by
  by_cases h0 : part > 0
  · have h1 : 1 ≤ part := h0
    interval_cases part <;> exact ⟨_, rfl, by simp⟩
  · exact ⟨[], by simp [Display.partCell, h0], by simp⟩

theorem rightCells_some (cHaveRight : Bool) (x xRow lRow part : Int) (h8 : part < 8) :
    ∃ cs, Display.rightCells cHaveRight x xRow lRow part = some cs ∧
      (cHaveRight = false → cs = []) ∧ ∀ c ∈ cs, c.x = x ∧ xRow ≤ c.y := by
  cases cHaveRight with
  | false => exact ⟨[], rfl, fun _ => rfl, by simp⟩
  | true =>
    obtain ⟨l, hl, hm⟩ := partCell_right x (max xRow lRow) part h8
    refine ⟨Display.rowCells x Display.DisplayBar Style.styleDefault xRow lRow ++ l,
      by simp only [Display.rightCells, if_true, hl, Option.map_some'], by simp, ?_⟩
    intro c hc
    rcases List.mem_append.1 hc with h | h
    · obtain ⟨h1, h2, _⟩ := rowCells_mem _ _ _ _ _ _ h
      exact ⟨h1, h2⟩
    · obtain ⟨h1, h2⟩ := hm c h
      exact ⟨h1, by rw [h2]; exact le_max_left _ _⟩

theorem barPart_floor (cs : Int) (scale v : F64) (q : ℚ)
    (hq : F64.min (F64.ofInt (cs - 1)) (F64.mul v scale) = F64.fin q) (hq0 : 0 ≤ q)
    (hcs : cs < 2 ^ 60) :
    Display.barPart (F64.ofInt (cs - 1)) scale v = ⌊8 * q⌋ ∧ 0 ≤ ⌊8 * q⌋ ∧
      ⌊8 * q⌋ / 8 + 1 ≤ cs := by
  have hle : q ≤ ((cs - 1 : Int) : ℚ) := by
    generalize F64.mul v scale = y at hq
    unfold F64.min F64.ofInt at hq
    cases y with
    | nan => simp at hq
    | ninf => simp at hq
    | pinf =>
      simp [F64.lt] at hq
      rw [← hq]
      push_cast; exact le_rfl
    | fin r =>
      simp only [F64.lt, reduceCtorEq, or_self, if_false] at hq
      split at hq
      · cases hq; exact le_rfl
      · rename_i h
        cases hq
        simpa using h
  have h8 : (0 : ℚ) ≤ 8 * q := by linarith
  have hf0 : 0 ≤ ⌊8 * q⌋ := Int.floor_nonneg.2 h8
  have hfle : ⌊8 * q⌋ ≤ 8 * (cs - 1) := by
    have : ((⌊8 * q⌋ : Int) : ℚ) ≤ ((8 * (cs - 1) : Int) : ℚ) := by
      have := Int.floor_le (8 * q)
      push_cast at hle ⊢
      linarith
    exact_mod_cast this
  refine ⟨?_, hf0, by omega⟩
  unfold Display.barPart
  rw [hq]
  simp only [Display.NumRunes, F64.ofInt, F64.mul, F64.toInt]
  have e : q * ((8 : Int) : ℚ) = 8 * q := by push_cast; ring
  rw [e]
  simp only [h8, if_true]
  rw [if_pos ⟨by omega, by omega⟩]

theorem drawColumn_cells (cHaveRight : Bool) (x cs bHeight lRow e rightPart : Int)
    (he0 : 0 ≤ e) (hbh : 0 ≤ bHeight) (h8 : rightPart < 8) :
    Display.drawColumn cHaveRight x (cs - (e / 8 + 1)) cs (cs + bHeight) lRow (e % 8)
        rightPart = some (claimedColumn x cs bHeight e ++
          (Display.rightCells cHaveRight x (cs + bHeight) lRow rightPart).getD []) := by
  have hm0 : 0 ≤ e % 8 := Int.emod_nonneg _ (by norm_num)
  have hm8 : e % 8 < 8 := Int.emod_lt_of_pos _ (by norm_num)
  have hd0 : 0 ≤ e / 8 := Int.ediv_nonneg he0 (by norm_num)
  obtain ⟨right, hr, hr0, hrm⟩ := rightCells_some cHaveRight x (cs + bHeight) lRow rightPart h8
  have e1 : cs - e / 8 - 1 + 1 = cs - e / 8 := by ring
  have e2 : max (cs - e / 8) cs = cs := by omega
  have e3 : max cs (cs + bHeight) = cs + bHeight := by omega
  have e4 : cs - (e / 8 + 1) = cs - e / 8 - 1 := by ring
  rw [e4]
  simp only [Display.drawColumn, partCell_left _ _ _ hm0 hm8, e1, e2, e3, hr, Option.bind_eq_bind,
    Option.some_bind, claimedColumn, Option.getD_some]

theorem columns_cells (cHaveRight : Bool) (cs bHeight lRow e rightPart xCol : Int) (n : Nat)
    (he0 : 0 ≤ e) (hbh : 0 ≤ bHeight) (h8 : rightPart < 8) :
    loopFrom (fun acc x => Option.map (fun c => acc ++ c)
        (Display.drawColumn cHaveRight x (cs - (e / 8 + 1)) cs (cs + bHeight) lRow (e % 8)
          rightPart)) n xCol []
      = some ((List.range n).map fun (k : Nat) =>
          claimedColumn (xCol + (k : Int)) cs bHeight e ++
            (Display.rightCells cHaveRight (xCol + (k : Int)) (cs + bHeight) lRow
              rightPart).getD []).flatten := by
  have h := loopFrom_collect
    (fun x => Display.drawColumn cHaveRight x (cs - (e / 8 + 1)) cs (cs + bHeight) lRow (e % 8)
      rightPart)
    (fun x => claimedColumn x cs bHeight e ++
      (Display.rightCells cHaveRight x (cs + bHeight) lRow rightPart).getD [])
    n xCol [] (fun x _ _ => drawColumn_cells cHaveRight x cs bHeight lRow e rightPart he0 hbh h8)
  rw [List.nil_append] at h
  exact h

theorem drawBar_cells {W : Type} (d : Display W) (bins : List (List F64)) (cHaveRight : Bool)
    (cHeight cs bHeight : Int) (scale value : F64) (xCol xBin : Int) (row0 : List F64) (q : ℚ)
    (hrow : sliceGet bins 0 = some row0) (hval : sliceGet row0 xBin = some value)
    (hq : F64.min (F64.ofInt (cs - 1)) (F64.mul value scale) = F64.fin q) (hq0 : 0 ≤ q)
    (hcs : cs < 2 ^ 60) (hbh : 0 ≤ bHeight)
    (hright : cHaveRight = true →
      ∃ row1 v1, sliceGet bins 1 = some row1 ∧ sliceGet row1 xBin = some v1) :
    ∃ right : Int → List Cell,
      Display.drawBar d bins cHaveRight cHeight cs (cs + bHeight) (F64.ofInt (cs - 1)) scale
          xCol xBin
        = some (((List.range d.barWidth.toNat).map fun (k : Nat) =>
            claimedColumn (xCol + (k : Int)) cs bHeight ⌊8 * q⌋ ++ right (xCol + (k : Int))).flatten,
          max xCol (xCol + d.barWidth)) ∧
      (cHaveRight = false → ∀ x, right x = []) ∧
      ∀ x, ∀ c ∈ right x, c.x = x ∧ cs + bHeight ≤ c.y := by
  obtain ⟨hpart, he0, hecs⟩ := barPart_floor cs scale value q hq hq0 hcs
  have hdiv : (⌊8 * q⌋).tdiv Display.NumRunes = ⌊8 * q⌋ / 8 := Int.tdiv_eq_ediv he0 (by decide)
  have hmod : (⌊8 * q⌋).tmod Display.NumRunes = ⌊8 * q⌋ % 8 := Int.tmod_eq_emod he0 (by decide)
  have hstart : ¬ (cs - (⌊8 * q⌋ / 8 + 1) < 0) := by omega
  have hlen : (xCol + d.barWidth - xCol).toNat = d.barWidth.toNat := by
    congr 1; ring
  cases cHaveRight with
  | false =>
    refine ⟨fun x => (Display.rightCells false x (cs + bHeight)
      (if cs + bHeight > cHeight then cHeight else cs + bHeight) 0).getD [], ?_,
      fun _ _ => rfl, ?_⟩
    · simp only [Display.drawBar, hrow, hval, hpart, hdiv, hmod, hstart, if_false,
        Option.bind_eq_bind, Option.some_bind, Bool.false_eq_true, Display.forLt, hlen,
        columns_cells false cs bHeight _ _ 0 xCol _ he0 hbh (by decide)]
    · intro x c hc
      simp [Display.rightCells] at hc
  | true =>
    obtain ⟨row1, v1, hrow1, hv1⟩ := hright rfl
    have h8 : (Display.barPart (F64.ofInt (cs - 1)) scale v1).tmod Display.NumRunes < 8 :=
      Int.tmod_lt_of_pos _ (by decide)
    refine ⟨fun x => (Display.rightCells true x (cs + bHeight)
      (if cs + bHeight + (Display.barPart (F64.ofInt (cs - 1)) scale v1).tdiv Display.NumRunes
          > cHeight then cHeight
        else cs + bHeight + (Display.barPart (F64.ofInt (cs - 1)) scale v1).tdiv Display.NumRunes)
      ((Display.barPart (F64.ofInt (cs - 1)) scale v1).tmod Display.NumRunes)).getD [], ?_,
      (fun h => absurd h (by decide)), ?_⟩
    · simp only [Display.drawBar, hrow, hval, hpart, hdiv, hmod, hstart, if_false, if_true,
        Option.bind_eq_bind, Option.some_bind, Display.forLt, hlen, hrow1, hv1,
        columns_cells true cs bHeight _ _ _ xCol _ he0 hbh h8]
    · intro x c hc
      obtain ⟨r, hr, _, hm⟩ := rightCells_some true x (cs + bHeight)
        (if cs + bHeight + (Display.barPart (F64.ofInt (cs - 1)) scale v1).tdiv Display.NumRunes
            > cHeight then cHeight
          else cs + bHeight +
            (Display.barPart (F64.ofInt (cs - 1)) scale v1).tdiv Display.NumRunes)
        ((Display.barPart (F64.ofInt (cs - 1)) scale v1).tmod Display.NumRunes) h8
      beta_reduce at hc
      rw [hr, Option.getD_some] at hc
      exact hm c hc

theorem claimedColumn_eq (x cs bHeight e : Int) :
    claimedColumn x cs bHeight e
      = (if e % 8 > 0 then
          [⟨x, cs - e / 8 - 1, 0x2580 + (e % 8).toNat, Style.styleDefault⟩] else []) ++
        ((List.range (e / 8).toNat).map fun (k : Nat) =>
          (⟨x, cs - e / 8 + (k : Int), 0x2588, Style.styleDefault⟩ : Cell)) ++
        ((List.range bHeight.toNat).map fun (k : Nat) =>
          (⟨x, cs + (k : Int), 0x2588, Style.styleCenter⟩ : Cell)) := by
  have h1 : (cs - (cs - e / 8)).toNat = (e / 8).toNat := by congr 1; ring
  have h2 : (cs + bHeight - cs).toNat = bHeight.toNat := by congr 1; ring
  have hm8 : e % 8 < 8 := Int.emod_lt_of_pos _ (by norm_num)
  have h3 : e % 8 > 0 →
      (Display.barRunes.getD 0 []).getD (e % 8).toNat 0 = 0x2580 + (e % 8).toNat := by
    intro h
    have h1 : 1 ≤ e % 8 := h
    generalize e % 8 = r at h1 hm8
    interval_cases r <;> rfl
  unfold claimedColumn Display.rowCells
  rw [h1, h2]
  by_cases h : e % 8 > 0
  · simp only [h, if_true, h3 h]; rfl
  · simp only [h, if_false]; rfl

/-- C19: the bar that `Draw` draws for a channel-0 value, with `fHeight = centerStart - 1`,
`q = min(fHeight, value*scale) ≥ 0` and `e = trunc(8*q)`: every one of its `barWidth`
columns `x` gets, iff `e mod 8 > 0`, one partial cell `barRunes[0][e mod 8]` (U+2580 +
`e mod 8`, the lower `(e mod 8)/8` block) on row `centerStart - e div 8 - 1`, then
`e div 8` full blocks on the rows `centerStart - e div 8 .. centerStart - 1`, both in
the default style, then the `bHeight` rows `centerStart .. centerStart + bHeight - 1`
in the highlight style; the cells of the right channel follow, all below the centre
band, and there are none with one channel. -/
theorem Draw_bar_quantised_in_eighths {W : Type} (d : Display W) (bins : List (List F64))
    (cHaveRight : Bool) (cHeight centerStart bHeight : Int) (scale value : F64)
    (xCol xBin : Int) (row0 : List F64) (q : ℚ) (e : Int)
    (hrow : sliceGet bins 0 = some row0) (hval : sliceGet row0 xBin = some value)
    (hq : F64.min (F64.ofInt (centerStart - 1)) (F64.mul value scale) = F64.fin q)
    (hq0 : 0 ≤ q) (he : e = ⌊8 * q⌋)
    (hcs : centerStart < 2 ^ 60) (hbh : 0 ≤ bHeight)
    (hright : cHaveRight = true →
      ∃ row1 v1, sliceGet bins 1 = some row1 ∧ sliceGet row1 xBin = some v1) :
    ∃ right : Int → List Cell,
      Display.drawBar d bins cHaveRight cHeight centerStart (centerStart + bHeight)
          (F64.ofInt (centerStart - 1)) scale xCol xBin
        = some (((List.range d.barWidth.toNat).map fun (k : Nat) =>
            ((if e % 8 > 0 then
              [⟨xCol + (k : Int), centerStart - e / 8 - 1, 0x2580 + (e % 8).toNat,
                Style.styleDefault⟩] else []) ++
            ((List.range (e / 8).toNat).map fun (j : Nat) =>
              (⟨xCol + (k : Int), centerStart - e / 8 + (j : Int), 0x2588,
                Style.styleDefault⟩ : Cell)) ++
            ((List.range bHeight.toNat).map fun (j : Nat) =>
              (⟨xCol + (k : Int), centerStart + (j : Int), 0x2588, Style.styleCenter⟩ : Cell)))
            ++ right (xCol + (k : Int))).flatten,
          max xCol (xCol + d.barWidth)) ∧
      (e % 8 > 0 → (Display.barRunes.getD 0 []).getD (e % 8).toNat 0 = 0x2580 + (e % 8).toNat) ∧
      (cHaveRight = false → ∀ x, right x = []) ∧
      ∀ x, ∀ c ∈ right x, c.x = x ∧ centerStart + bHeight ≤ c.y := by
  subst he
  obtain ⟨right, h1, h2, h3⟩ := drawBar_cells d bins cHaveRight cHeight centerStart bHeight
    scale value xCol xBin row0 q hrow hval hq hq0 hcs hbh hright
  refine ⟨right, ?_, ?_, h2, h3⟩
  · rw [h1]
    simp only [claimedColumn_eq]
  · intro h
    have h1 : 1 ≤ ⌊8 * q⌋ % 8 := h
    have hm8 : ⌊8 * q⌋ % 8 < 8 := Int.emod_lt_of_pos _ (by norm_num)
    generalize ⌊8 * q⌋ % 8 = r at h1 hm8
    interval_cases r <;> rfl

/-- Witness of C19: the value 5/2 at scale 1 on the 80 x 24 terminal with a centre
band of 2 rows from row 23: `e = 20`, so two full rows and the half block. -/
theorem Draw_bar_quantised_in_eighths_witness :
    F64.min (F64.ofInt (23 - 1)) (F64.mul (F64.fin (5 / 2)) (F64.fin 1)) = F64.fin (5 / 2) ∧
    (20 : Int) = ⌊8 * (5 / 2 : ℚ)⌋ ∧
    ∃ right : Int → List Cell,
      Display.drawBar termBars [[F64.fin (5 / 2)]] false 24 23 (23 + 2)
          (F64.ofInt (23 - 1)) (F64.fin 1) 0 0
        = some (((List.range termBars.barWidth.toNat).map fun (k : Nat) =>
            ((if (20 : Int) % 8 > 0 then
              [⟨0 + (k : Int), 23 - 20 / 8 - 1, 0x2580 + ((20 : Int) % 8).toNat,
                Style.styleDefault⟩] else []) ++
            ((List.range ((20 : Int) / 8).toNat).map fun (j : Nat) =>
              (⟨0 + (k : Int), 23 - 20 / 8 + (j : Int), 0x2588,
                Style.styleDefault⟩ : Cell)) ++
            ((List.range (2 : Int).toNat).map fun (j : Nat) =>
              (⟨0 + (k : Int), 23 + (j : Int), 0x2588, Style.styleCenter⟩ : Cell)))
            ++ right (0 + (k : Int))).flatten,
          max 0 (0 + termBars.barWidth)) ∧
      ((20 : Int) % 8 > 0 →
        (Display.barRunes.getD 0 []).getD ((20 : Int) % 8).toNat 0
          = 0x2580 + ((20 : Int) % 8).toNat) ∧
      (false = false → ∀ x, right x = []) ∧
      ∀ x, ∀ c ∈ right x, c.x = x ∧ 23 + 2 ≤ c.y :=
  have hq : F64.min (F64.ofInt (23 - 1)) (F64.mul (F64.fin (5 / 2)) (F64.fin 1))
      = F64.fin (5 / 2) := by
    simp [F64.min, F64.mul, F64.ofInt, F64.lt]
    norm_num
  have he : (20 : Int) = ⌊8 * (5 / 2 : ℚ)⌋ := by norm_num
  ⟨hq, he, Draw_bar_quantised_in_eighths termBars [[F64.fin (5 / 2)]] false 24 23 2
    (F64.fin 1) (F64.fin (5 / 2)) 0 0 [F64.fin (5 / 2)] (5 / 2) 20 rfl rfl hq (by norm_num) he
    (by norm_num) (by norm_num) (fun h => absurd h (by decide))⟩


/-! ## Renderer: rows written by `Draw` -/

theorem peakOf_single_zero : Display.peakOf [[F64.fin 0]] 1 1 = some (F64.fin 0) := by
  simp [Display.peakOf, Display.forLt, loopFrom, sliceGet, F64.lt]

theorem drawScale_silent {W : Type} (ops : UtilWindowOps W) (d : Display W) (fHeight : F64) :
    Display.drawScale ops d (F64.fin 0) fHeight = (d.fastWindow, d.slowWindow, fHeight) := by
  simp [Display.drawScale, F64.gt, F64.lt]

theorem drawBar_silent_first :
    Display.drawBar termBars [[F64.fin 0]] false 24 24 (24 + 1) (F64.ofInt (24 - 1))
        (F64.ofInt (24 - 1)) 39 0
      = some ([⟨39, 24, 0x2588, Style.styleCenter⟩, ⟨40, 24, 0x2588, Style.styleCenter⟩], 41) := by
  obtain ⟨right, h1, h2, _⟩ := drawBar_cells termBars [[F64.fin 0]] false 24 24 1
    (F64.ofInt (24 - 1)) (F64.fin 0) 39 0 [F64.fin 0] 0 rfl rfl
    (by simp [F64.min, F64.mul, F64.ofInt, F64.lt]) le_rfl (by norm_num) (by norm_num)
    (fun h => absurd h (by decide))
  rw [h1]
  have hb : termBars.barWidth.toNat = 2 := rfl
  have hf : ⌊(8 : ℚ) * 0⌋ = 0 := by norm_num
  simp only [h2 rfl, claimedColumn_eq, hb, List.append_nil, hf]
  rfl

/-- C14: on the 80 x 24 terminal with bars of 2 and gaps of 1 (27 bars fit), `Draw` of
one channel holding the value 0, with `count = 1` and `bHeight = 1`, returns without
error and presents exactly two cells, both on row 24: the centre band starts at
`centerStart = rows - bHeight/2 = 24`, one row below the last row 23 of the screen. -/
theorem Draw_writes_below_last_row :
    Display.Bars termBars = some 27 ∧ termBars.screen.height = 24 ∧
    ∃ d', Display.Draw (specUtilWindow coarseLibm) termBars [[F64.fin 0]] 1 1 = some (d', none) ∧
      d'.screen.shown
        = [⟨39, 24, 0x2588, Style.styleCenter⟩, ⟨40, 24, 0x2588, Style.styleCenter⟩] ∧
      ∃ c ∈ d'.screen.shown, ¬ (c.y < termBars.screen.height) := by
  refine ⟨rfl, rfl, ?_⟩
  have hlen : (([[F64.fin 0]] : List (List F64)).length : Int) = 1 := rfl
  have hcw : Display.contentWidth termBars 1 = 2 := rfl
  have hw : termBars.screen.width = 80 := rfl
  have hh : termBars.screen.height = 24 := rfl
  have hdraw : Display.Draw (specUtilWindow coarseLibm) termBars [[F64.fin 0]] 1 1
      = some ({ termBars with
          screen := ⟨80, 24, [],
            [⟨39, 24, 0x2588, Style.styleCenter⟩, ⟨40, 24, 0x2588, Style.styleCenter⟩]⟩ },
        none) := by
    have h24 : ((if false = true then Int.tdiv 24 2 else 24) - Int.tdiv 1 2) = 24 := by decide
    have hc2 : (if (2 : Int) > 80 ∨ (2 : Int) < 0 then (80 : Int) else 2) = 2 := by decide
    have hoff : ((80 : Int) - 2).tdiv 2 = 39 := by decide
    have hfuel : (max (1 : Int) 1).toNat = 1 := by decide
    have hr : decide ((1 : Int) = 2) = false := by decide
    have h1 : ¬ ((1 : Int) < 1) := by decide
    have h2 : ¬ ((1 : Int) > 2) := by decide
    have h3 : (39 : Int) < 2 + 39 := by decide
    have h4 : (0 : Int) + 1 ≥ 1 := by decide
    unfold Display.Draw
    simp only [hlen, hcw, hw, hh, peakOf_single_zero, Option.some_bind, drawScale_silent,
      h24, hc2, hoff, hfuel, hr, h1, h2, if_false, Display.drawBars, h3, if_true,
      drawBar_silent_first, h4, List.nil_append, Option.map_some']
    rfl
  refine ⟨_, hdraw, rfl, ⟨39, 24, 0x2588, Style.styleCenter⟩, ?_, by decide⟩
  simp


/-! ## Monstercat: no bin is lowered -/

theorem F64.lt_trans_true (a b c : F64) (h1 : F64.lt a b = true) (h2 : F64.lt b c = true) :
    F64.lt a c = true := by
  cases a <;> cases b <;> cases c <;> simp [F64.lt] at h1 h2 ⊢
  exact lt_trans h1 h2

theorem F64.ge_fin_cases (x : F64) (c : ℚ) (h : F64.ge x (F64.fin c) = true) :
    x = F64.pinf ∨ ∃ q, x = F64.fin q ∧ c ≤ q := by
  cases x with
  | nan => simp [F64.ge, F64.le] at h
  | ninf => simp [F64.ge, F64.le] at h
  | pinf => exact Or.inl rfl
  | fin q => exact Or.inr ⟨q, rfl, by simpa [F64.ge, F64.le] using h⟩

theorem NotLowered.refl (bins : List F64) : NotLowered bins bins :=
  ⟨rfl, fun _ => Or.inl rfl⟩

theorem NotLowered.trans {a b c : List F64} (h1 : NotLowered a b) (h2 : NotLowered b c) :
    NotLowered a c := by
  refine ⟨h2.1.trans h1.1, fun j => ?_⟩
  rcases h1.2 j with e1 | ⟨hj, v, v', hv, hv', hlt⟩
  · rcases h2.2 j with e2 | ⟨hj, v, v', hv, hv', hlt⟩
    · exact Or.inl (e2.trans e1)
    · exact Or.inr ⟨hj, v, v', by rw [← e1]; exact hv, hv', hlt⟩
  · rcases h2.2 j with e2 | ⟨_, w, w', hw, hw', hlt2⟩
    · exact Or.inr ⟨hj, v, v', hv, by rw [e2]; exact hv', hlt⟩
    · have : w = v' := by rw [hv'] at hw; exact (Option.some.inj hw).symm
      subst this
      exact Or.inr ⟨hj, v, w', hv, hw', F64.lt_trans_true _ _ _ hlt hlt2⟩

/-- One pass of `Monstercat` on the bin `xBin ≥ 1` returns, and lowers nothing. -/
theorem mcatStep_notLowered (L : Libm) (factor : F64) (xBin xPass : Int) (bins : List F64)
    (v : F64) (h1 : 1 ≤ xBin) (hv : sliceGet bins xBin = some v) :
    ∃ new, mcatStep L factor xBin bins xPass = some new ∧ NotLowered bins new := by
  obtain ⟨h0, hlen⟩ := sliceGet_lt_length hv
  by_cases hgt : F64.gt (F64.div v (L.Pow factor (absInt (xBin - xPass)))) v = true
  · refine ⟨bins.set xBin.toNat (F64.div v (L.Pow factor (absInt (xBin - xPass)))), ?_, ?_, ?_⟩
    · simp [mcatStep, hv, hgt, sliceSet_isSome _ _ _ h0 hlen]
    · simp
    · intro j
      by_cases hj : xBin = j
      · subst hj
        exact Or.inr ⟨h1, v, _, hv, sliceGet_set_same _ _ _ h0 hlen, hgt⟩
      · exact Or.inl (sliceGet_set_ne _ _ _ _ h0 hj)
  · refine ⟨bins, ?_, NotLowered.refl bins⟩
    have hgt' : F64.gt (F64.div v (L.Pow factor (absInt (xBin - xPass)))) v = false := by
      simpa using hgt
    exact mcatStep_noop L factor xBin xPass bins v hv hgt'

/-- The loops of `Monstercat` on one set return when the bins `1..numBins` exist, and
lower nothing. -/
theorem mcatSet_notLowered (L : Libm) (factor : F64) (numBins : Int) (bins : List F64)
    (hex : ∀ b, 1 ≤ b → b ≤ numBins → ∃ v, sliceGet bins b = some v) :
    ∃ new, mcatSet L factor numBins bins = some new ∧ NotLowered bins new := by
  unfold mcatSet forIncl
  obtain ⟨new, hnew, hP⟩ := loopFrom_inv
    (fun b xBin => loopFrom (mcatStep L factor xBin) (numBins + 1 - 0).toNat 0 b)
    (fun _ t => NotLowered bins t) (numBins + 1 - 1).toNat 1 bins (NotLowered.refl bins)
    (fun xBin t hx0 hx1 ht => by
      obtain ⟨t', ht', hP'⟩ := loopFrom_inv (mcatStep L factor xBin)
        (fun _ u => NotLowered bins u) (numBins + 1 - 0).toNat 0 t ht
        (fun xPass u _ _ hu => by
          obtain ⟨v, hv⟩ := hex xBin hx0 (by omega)
          obtain ⟨w, hw⟩ : ∃ w, sliceGet u xBin = some w := by
            obtain ⟨_, hl⟩ := sliceGet_lt_length hv
            exact sliceGet_isSome u xBin (by omega) (by rw [hu.1]; exact hl)
          obtain ⟨u', hu', hn⟩ := mcatStep_notLowered L factor xBin xPass u w hx0 hw
          exact ⟨u', hu', hu.trans hn⟩)
      exact ⟨t', ht', hP'⟩)
  exact ⟨new, hnew, hP⟩

/-- For a factor `≥ 1` (finite or `+Inf`), `factor^|d|` is `+Inf` or a finite number
at least 1. -/
theorem pow_absInt_cases (L : Libm) (factor : F64) (hf : F64.ge factor (F64.fin 1) = true)
    (d : Int) :
    L.Pow factor (absInt d) = F64.pinf ∨ ∃ p : ℚ, 1 ≤ p ∧ L.Pow factor (absInt d) = F64.fin p := by
  rcases F64.ge_fin_cases factor 1 hf with h | ⟨f, h, hf1⟩
  · subst h
    obtain ⟨m, hm0, hm⟩ : ∃ m : Int, 0 ≤ m ∧ absInt d = F64.fin (m : ℚ) := by
      unfold absInt
      split
      · exact ⟨-d, by omega, rfl⟩
      · exact ⟨d, by omega, rfl⟩
    rw [hm]
    have hmq : ¬ ((m : ℚ) < 0) := by
      have : (0 : ℚ) ≤ (m : ℚ) := by exact_mod_cast hm0
      linarith
    by_cases h1 : F64.fin (m : ℚ) = F64.fin 0 ∨ F64.pinf = F64.fin 1
    · exact Or.inr ⟨1, le_rfl, by simp only [Libm.Pow, h1, if_true]⟩
    · by_cases h2 : F64.fin (m : ℚ) = F64.fin 1
      · exact Or.inl (by unfold Libm.Pow; rw [if_neg h1, if_pos h2])
      · exact Or.inl (by
          unfold Libm.Pow
          rw [if_neg h1, if_neg h2]
          simp only [Libm.powCases, hmq, if_false])
  · subst h
    exact Or.inr (pow_absInt_ge_one L f hf1 d)

/-- A non-negative bin (finite or `+Inf`) divided by `+Inf` or by a finite number at
least 1 is not above itself. -/
theorem div_not_gt_self (v p : F64) (hv : F64.ge v (F64.fin 0) = true)
    (hp : p = F64.pinf ∨ ∃ r : ℚ, 1 ≤ r ∧ p = F64.fin r) :
    F64.gt (F64.div v p) v = false := by
  rcases F64.ge_fin_cases v 0 hv with h | ⟨q, h, hq⟩ <;> subst h
  · rcases hp with h | ⟨r, hr, h⟩ <;> subst h
    · simp [F64.div, F64.gt, F64.lt]
    · have : ¬ (r < 0) := by linarith
      simp [F64.div, F64.gt, F64.lt, this]
  · rcases hp with h | ⟨r, hr, h⟩ <;> subst h
    · simp [F64.div, F64.gt, F64.lt, hq]
    · exact div_ge_one_not_gt q r hq hr

/-- C21: when the bins `1..numBins` that `Monstercat(factor)` reads exist, it returns,
and in every channel no bin is lowered: each entry of `Bins` is as before or holds a
strictly greater value, and `Bins[0]` is as before (it is never written); and for
every factor `≥ 1`, a channel whose bins `1..numBins` are all `≥ 0` comes out
unchanged, every proposal being the bin's own value divided by `factor^|b-p| ≥ 1`. -/
theorem Monstercat_never_lowers {W : Type} (L : Libm) (s : Spectrum W) (factor : F64)
    (hex : ∀ ds ∈ s.workSets, ∀ b, 1 ≤ b → b ≤ s.numBins → ∃ v, sliceGet ds.Bins b = some v) :
    ∃ s', Monstercat L s factor = some s' ∧
      List.Forall₂ (fun ds ds' =>
        ds'.Bins.length = ds.Bins.length ∧
        sliceGet ds'.Bins 0 = sliceGet ds.Bins 0 ∧
        (∀ b, sliceGet ds'.Bins b = sliceGet ds.Bins b ∨
          ∃ v v', sliceGet ds.Bins b = some v ∧ sliceGet ds'.Bins b = some v' ∧
            F64.lt v v' = true) ∧
        (F64.ge factor (F64.fin 1) = true →
          (∀ b, 1 ≤ b → b ≤ s.numBins →
            ∃ v, sliceGet ds.Bins b = some v ∧ F64.ge v (F64.fin 0) = true) →
          ds' = ds))
        s.workSets s'.workSets := by
  unfold Monstercat
  obtain ⟨ws, hws, hF⟩ := mapM_forall₂
    (fun vSet => (mcatSet L factor s.numBins vSet.Bins).map fun b => { vSet with Bins := b })
    (fun ds ds' =>
        ds'.Bins.length = ds.Bins.length ∧
        sliceGet ds'.Bins 0 = sliceGet ds.Bins 0 ∧
        (∀ b, sliceGet ds'.Bins b = sliceGet ds.Bins b ∨
          ∃ v v', sliceGet ds.Bins b = some v ∧ sliceGet ds'.Bins b = some v' ∧
            F64.lt v v' = true) ∧
        (F64.ge factor (F64.fin 1) = true →
          (∀ b, 1 ≤ b → b ≤ s.numBins →
            ∃ v, sliceGet ds.Bins b = some v ∧ F64.ge v (F64.fin 0) = true) →
          ds' = ds))
    s.workSets (fun ds hds => by
      obtain ⟨new, hnew, hlen, hrel⟩ := mcatSet_notLowered L factor s.numBins ds.Bins
        (hex ds hds)
      refine ⟨{ ds with Bins := new }, by simp only [hnew, Option.map_some'], hlen, ?_, ?_, ?_⟩
      · rcases hrel 0 with h | ⟨h, _⟩
        · exact h
        · omega
      · intro b
        rcases hrel b with h | ⟨_, v, v', h1, h2, h3⟩
        · exact Or.inl h
        · exact Or.inr ⟨v, v', h1, h2, h3⟩
      · intro hf hnn
        have hno : mcatSet L factor s.numBins ds.Bins = some ds.Bins :=
          mcatSet_noop L factor s.numBins ds.Bins (fun xBin xPass h0 h1 _ _ => by
            obtain ⟨v, hv, hv0⟩ := hnn xBin h0 h1
            exact ⟨v, hv, div_not_gt_self v _ hv0 (pow_absInt_cases L factor hf _)⟩)
        have : new = ds.Bins := by
          rw [hno] at hnew
          exact (Option.some.inj hnew).symm
        rw [this])
  exact ⟨{ s with workSets := ws }, by rw [hws]; rfl, hF⟩

/-- Witness of C21 on `spikeEngine` with factor 2. -/
theorem Monstercat_never_lowers_witness :
    ∃ s', Monstercat coarseLibm spikeEngine (F64.fin 2) = some s' ∧
      List.Forall₂ (fun ds ds' =>
        ds'.Bins.length = ds.Bins.length ∧
        sliceGet ds'.Bins 0 = sliceGet ds.Bins 0 ∧
        (∀ b, sliceGet ds'.Bins b = sliceGet ds.Bins b ∨
          ∃ v v', sliceGet ds.Bins b = some v ∧ sliceGet ds'.Bins b = some v' ∧
            F64.lt v v' = true) ∧
        (F64.ge (F64.fin 2) (F64.fin 1) = true →
          (∀ b, 1 ≤ b → b ≤ spikeEngine.numBins →
            ∃ v, sliceGet ds.Bins b = some v ∧ F64.ge v (F64.fin 0) = true) →
          ds' = ds))
        spikeEngine.workSets s'.workSets :=
  Monstercat_never_lowers coarseLibm spikeEngine (F64.fin 2) (by
    intro ds hds b h0 h1
    have h1' : b ≤ 4 := h1
    have hb : b = 1 ∨ b = 2 ∨ b = 3 ∨ b = 4 := by omega
    simp only [spikeEngine, List.mem_cons, List.mem_singleton, List.not_mem_nil,
      or_false] at hds
    subst hds
    rcases hb with h | h | h | h <;> subst h <;> simp [sliceGet])

/-! ## Recalculate: the first and the last frequency -/

/-- The frequency is `hi` times the power of the exponent. -/
theorem binFreq_eq_pow (L : Libm) (bins : Int) (lo hi : F64) (xBin : Int) :
    binFreq L bins lo hi xBin = F64.mul hi (L.Pow (F64.fin 10) (binExponent L bins lo hi xBin)) :=
  rfl

/-- Exponent of the bin `b`, evaluated without rounding: `log10(lo/hi) * (bins - b) / bins`. -/
theorem binExponent_fin (L : Libm) (B : Int) (hB : 1 ≤ B) (lq hq : ℚ) (hl : 0 < lq)
    (hh : 0 < hq) (b : Int) :
    binExponent L B (F64.fin lq) (F64.fin hq) b
      = F64.fin (L.log10 (lq / hq) * ((B : ℚ) - (b : ℚ)) / (B : ℚ)) := by
  have hBq : (1 : ℚ) ≤ (B : ℚ) := by exact_mod_cast hB
  have hB0 : (B : ℚ) ≠ 0 := by linarith
  have hB1 : (B : ℚ) + 1 ≠ 0 := by linarith
  have hB1' : ((B + 1 : Int) : ℚ) ≠ 0 := by push_cast; exact hB1
  have hden : (1 : ℚ) / ((B + 1 : Int) : ℚ) - 1 ≠ 0 := by
    push_cast
    intro h
    field_simp at h
    linarith
  have hhq : hq ≠ 0 := ne_of_gt hh
  have hr : 0 < lq / hq := div_pos hl hh
  have hr1 : ¬ (lq / hq < 0) := by linarith
  have hr2 : ¬ (lq / hq = 0) := ne_of_gt hr
  have h1 : F64.div (F64.ofInt (b + 1)) (F64.ofInt (B + 1))
      = F64.fin (((b + 1 : Int) : ℚ) / ((B + 1 : Int) : ℚ)) := by
    simp only [F64.div, F64.ofInt, hB1', if_false]
  have h2 : ∀ x : ℚ, F64.sub (F64.fin x) (F64.fin 1) = F64.fin (x - 1) := by
    intro x
    simp only [F64.sub, F64.neg, F64.add, sub_eq_add_neg]
  have h3 : F64.div (F64.fin lq) (F64.fin hq) = F64.fin (lq / hq) := by
    simp only [F64.div, hhq, if_false]
  have h4 : L.Log10 (F64.fin (lq / hq)) = F64.fin (L.log10 (lq / hq)) := by
    simp only [Libm.Log10, hr1, hr2, if_false]
  have h5 : F64.div (F64.fin 1) (F64.ofInt (B + 1)) = F64.fin (1 / ((B + 1 : Int) : ℚ)) := by
    simp only [F64.div, F64.ofInt, hB1', if_false]
  have h6 : F64.div (F64.fin (L.log10 (lq / hq))) (F64.fin (1 / ((B + 1 : Int) : ℚ) - 1))
      = F64.fin (L.log10 (lq / hq) / (1 / ((B + 1 : Int) : ℚ) - 1)) := by
    simp only [F64.div, hden, if_false]
  have h7 : ∀ x y : ℚ, F64.mul (F64.fin x) (F64.fin y) = F64.fin (x * y) := fun _ _ => rfl
  have he : (((b + 1 : Int) : ℚ) / ((B + 1 : Int) : ℚ) - 1) *
      (L.log10 (lq / hq) / (1 / ((B + 1 : Int) : ℚ) - 1))
      = L.log10 (lq / hq) * ((B : ℚ) - (b : ℚ)) / (B : ℚ) := by
    have hd' : (1 : ℚ) - ((B : ℚ) + 1) ≠ 0 := by linarith
    push_cast
    field_simp
    ring
  unfold binExponent
  rw [h1, h2, h3, h4, h5, h2, h6, h7, he]

theorem binExponent_first (L : Libm) (B : Int) (hB : 1 ≤ B) (lq hq : ℚ) (hl : 0 < lq)
    (hh : 0 < hq) :
    binExponent L B (F64.fin lq) (F64.fin hq) 0 = F64.fin (L.log10 (lq / hq)) := by
  have hBq : (1 : ℚ) ≤ (B : ℚ) := by exact_mod_cast hB
  have hB0 : (B : ℚ) ≠ 0 := by linarith
  rw [binExponent_fin L B hB lq hq hl hh 0]
  congr 1
  push_cast
  field_simp

theorem binExponent_last (L : Libm) (B : Int) (hB : 1 ≤ B) (lq hq : ℚ) (hl : 0 < lq)
    (hh : 0 < hq) :
    binExponent L B (F64.fin lq) (F64.fin hq) B = F64.fin 0 := by
  rw [binExponent_fin L B hB lq hq hl hh B]
  congr 1
  simp

/-- Frequency of the bin `b`, the exponent being evaluated without rounding. -/
theorem binFreq_fin (L : Libm) (B : Int) (hB : 1 ≤ B) (lq hq : ℚ) (hl : 0 < lq) (hh : 0 < hq)
    (b : Int) :
    binFreq L B (F64.fin lq) (F64.fin hq) b
      = F64.mul (F64.fin hq)
          (L.Pow (F64.fin 10) (F64.fin (L.log10 (lq / hq) * ((B : ℚ) - (b : ℚ)) / (B : ℚ)))) := by
  rw [binFreq_eq_pow, binExponent_fin L B hB lq hq hl hh b]

/-- Frequency of the last bin: exactly `hi`, the exponent being 0. -/
theorem binFreq_last (L : Libm) (B : Int) (hB : 1 ≤ B) (lq hq : ℚ) (hl : 0 < lq) (hh : 0 < hq) :
    binFreq L B (F64.fin lq) (F64.fin hq) B = F64.fin hq := by
  rw [binFreq_eq_pow, binExponent_last L B hB lq hq hl hh]
  have hp : L.Pow (F64.fin 10) (F64.fin 0) = F64.fin 1 := by simp [Libm.Pow]
  rw [hp]
  show F64.fin (hq * 1) = F64.fin hq
  rw [mul_one]

/-- After `Recalculate`, `loCuts[0]` is the raw index of the frequency of the bin 0. -/
theorem Recalculate_first_cut {W : Type} (L : Libm) (s : Spectrum W) (bins : Int) (lo hi : F64)
    (hlo : s.maxBins < s.loCuts.length) (hhi : s.maxBins < s.hiCuts.length)
    (hB : 0 ≤ min bins s.maxBins) :
    ∃ s', Recalculate L s bins lo hi = some (s', min bins s.maxBins) ∧
      sliceGet s'.loCuts 0
        = some (freqIndex s.sampleRate s.sampleSize (binFreq L (min bins s.maxBins) lo hi 0)) := by
  obtain ⟨s', hs', _, _, _, _, hlc, _, _⟩ := Recalculate_tables L s bins lo hi hlo hhi
  refine ⟨s', hs', ?_⟩
  obtain ⟨x, hx, hx0, _⟩ := hlc 0 le_rfl (by omega)
  rw [hx, hx0 rfl, rawCut_eq_freqIndex]

/-- Multiplying both sides by a positive finite number keeps `<=`. -/
theorem F64.le_mul_pos (h : ℚ) (hh : 0 < h) (x y : F64) (hle : F64.le x y = true) :
    F64.le (F64.mul (F64.fin h) x) (F64.mul (F64.fin h) y) = true := by
  have hne : h ≠ 0 := ne_of_gt hh
  cases x <;> cases y <;> simp [F64.le] at hle <;>
    simp [F64.mul, F64.infTimes, F64.le, hne, hh]
  exact hle

/-- The frequencies do not decrease with the bin when `log10(lo/hi) ≤ 0` and the
library's `10^y` does not decrease for `y ≤ 0`. -/
theorem binFreq_mono (L : Libm) (B : Int) (hB : 1 ≤ B) (lq hq : ℚ) (hl : 0 < lq) (hh : 0 < hq)
    (hneg : L.log10 (lq / hq) ≤ 0)
    (hmono : ∀ x y : ℚ, x ≤ y → y ≤ 0 →
      F64.le (L.Pow (F64.fin 10) (F64.fin x)) (L.Pow (F64.fin 10) (F64.fin y)) = true)
    (b b' : Int) (h0 : 0 ≤ b) (hbb : b ≤ b') (hle : b' ≤ B) :
    F64.le (binFreq L B (F64.fin lq) (F64.fin hq) b)
      (binFreq L B (F64.fin lq) (F64.fin hq) b') = true := by
  have hBq : (1 : ℚ) ≤ (B : ℚ) := by exact_mod_cast hB
  have hBpos : (0 : ℚ) < (B : ℚ) := by linarith
  have hb0 : (0 : ℚ) ≤ (b : ℚ) := by exact_mod_cast h0
  have hbb' : (b : ℚ) ≤ (b' : ℚ) := by exact_mod_cast hbb
  have hbB : (b' : ℚ) ≤ (B : ℚ) := by exact_mod_cast hle
  rw [binFreq_fin L B hB lq hq hl hh b, binFreq_fin L B hB lq hq hl hh b']
  apply F64.le_mul_pos hq hh
  apply hmono
  · rw [div_le_div_iff_of_pos_right hBpos]
    nlinarith
  · rw [div_le_iff₀ hBpos]
    nlinarith

/-- The raw index does not decrease with the frequency, between 0 and `sampleRate/2`. -/
theorem freqIndex_mono (sr a b : ℚ) (ss : Int) (hsr : 0 < sr) (hss0 : 0 ≤ ss)
    (hss : ss < 2 ^ 63) (ha : 0 ≤ a) (hab : a ≤ b) (hb : b ≤ sr / 2) :
    freqIndex (F64.fin sr) ss (F64.fin a) ≤ freqIndex (F64.fin sr) ss (F64.fin b) := by
  have hsr2 : (0 : ℚ) < sr / 2 := by linarith
  have hssq : (0 : ℚ) ≤ (ss : ℚ) / 4 := by
    have : (0 : ℚ) ≤ (ss : ℚ) := by exact_mod_cast hss0
    linarith
  obtain ⟨e1, _, _⟩ := freqIndex_fin sr a ss hsr hss0 hss ha (le_trans hab hb)
  obtain ⟨e2, _, _⟩ := freqIndex_fin sr b ss hsr hss0 hss (le_trans ha hab) hb
  rw [e1, e2]
  apply Int.floor_mono
  exact mul_le_mul_of_nonneg_right (div_le_div_of_nonneg_right hab (le_of_lt hsr2)) hssq

/-- C22, as amended: for `bins ≥ 1` and `0 < lo < hi ≤ sampleRate/2`, the exponent of
`b = bins` is 0 and its frequency exactly `hi`; the frequency of `b = 0` is
`f0 = hi * 10^(e0)` for the exponent `e0` and the power that the code computes, and it
need not equal `lo`; `Recalculate` returns with `loCuts[0]` the raw index of `f0`,
`int(floor(f0 / (sampleRate/2) * (sampleSize/4)))`, which is at most the raw index of
`lo` when `f0 ≤ lo` and at least that index when `lo ≤ f0`; and the frequency does not
decrease with `b` when `log10(lo/hi) ≤ 0` and the library's `10^y` does not decrease
for `y ≤ 0`. -/
theorem Recalculate_frequencies_end_at_hi {W : Type} (L : Libm) (s : Spectrum W)
    (bins : Int) (lq hq sr f0 : ℚ)
    (hlo : s.maxBins < s.loCuts.length) (hhi : s.maxBins < s.hiCuts.length)
    (hB : 1 ≤ min bins s.maxBins) (hl : 0 < lq) (hlh : lq < hq)
    (hsr : s.sampleRate = F64.fin sr) (hsr0 : 0 < sr)
    (hss0 : 0 ≤ s.sampleSize) (hss : s.sampleSize < 2 ^ 63) (hhq : hq ≤ sr / 2)
    (hf : binFreq L (min bins s.maxBins) (F64.fin lq) (F64.fin hq) 0 = F64.fin f0)
    (hf0 : 0 ≤ f0) (hf1 : f0 ≤ sr / 2) :
    binExponent L (min bins s.maxBins) (F64.fin lq) (F64.fin hq) (min bins s.maxBins)
      = F64.fin 0 ∧
    binFreq L (min bins s.maxBins) (F64.fin lq) (F64.fin hq) (min bins s.maxBins)
      = F64.fin hq ∧
    F64.fin f0 = F64.mul (F64.fin hq) (L.Pow (F64.fin 10)
      (binExponent L (min bins s.maxBins) (F64.fin lq) (F64.fin hq) 0)) ∧
    (∃ s' c, Recalculate L s bins (F64.fin lq) (F64.fin hq) = some (s', min bins s.maxBins) ∧
      sliceGet s'.loCuts 0 = some c ∧
      c = freqIndex s.sampleRate s.sampleSize (F64.fin f0) ∧
      (f0 ≤ lq → c ≤ freqIndex s.sampleRate s.sampleSize (F64.fin lq)) ∧
      (lq ≤ f0 → freqIndex s.sampleRate s.sampleSize (F64.fin lq) ≤ c)) ∧
    (L.log10 (lq / hq) ≤ 0 →
      (∀ x y : ℚ, x ≤ y → y ≤ 0 →
        F64.le (L.Pow (F64.fin 10) (F64.fin x)) (L.Pow (F64.fin 10) (F64.fin y)) = true) →
      ∀ b b', 0 ≤ b → b ≤ b' → b' ≤ min bins s.maxBins →
        F64.le (binFreq L (min bins s.maxBins) (F64.fin lq) (F64.fin hq) b)
          (binFreq L (min bins s.maxBins) (F64.fin lq) (F64.fin hq) b') = true) := by
  have hh : 0 < hq := lt_trans hl hlh
  refine ⟨binExponent_last L _ hB lq hq hl hh, binFreq_last L _ hB lq hq hl hh,
    by rw [← hf, binFreq_eq_pow], ?_, ?_⟩
  · obtain ⟨s', hs', hc⟩ := Recalculate_first_cut L s bins (F64.fin lq) (F64.fin hq) hlo hhi
      (by omega)
    rw [hf] at hc
    refine ⟨s', _, hs', hc, rfl, ?_, ?_⟩
    · intro h
      rw [hsr]
      exact freqIndex_mono sr f0 lq s.sampleSize hsr0 hss0 hss hf0 h (by linarith)
    · intro h
      rw [hsr]
      exact freqIndex_mono sr lq f0 s.sampleSize hsr0 hss0 hss (le_of_lt hl) h hf1
  · intro hneg hmono b b' h0 hbb hle
    exact binFreq_mono L _ hB lq hq hl hh hneg hmono b b' h0 hbb hle

theorem rounded_log10 :
    roundedLibm.log10 (1920 / 6000) = -(4457212746485507 / 9007199254740992) := by
  have h : ((1920 : ℚ) / 6000) = 8 / 25 := by norm_num
  simp only [roundedLibm, h, if_true]

theorem rounded_pow :
    roundedLibm.Pow (F64.fin 10) (F64.fin (roundedLibm.log10 (1920 / 6000)))
      = F64.fin (2882303761517117 / 9007199254740992) := by
  rw [rounded_log10]
  generalize hx : (-(4457212746485507 / 9007199254740992) : ℚ) = x
  have h1 : -(1 / 2) < x := by rw [← hx]; norm_num
  have h2 : x < 0 := by rw [← hx]; norm_num
  have hden : ¬ (x.den = 1) := by
    intro h
    have hxn : ((x.num : Int) : ℚ) = x := (Rat.den_eq_one_iff x).1 h
    have hn : x.num < 0 := by
      have : ((x.num : Int) : ℚ) < 0 := by rw [hxn]; exact h2
      exact_mod_cast this
    have hn' : ((x.num : Int) : ℚ) ≤ -1 := by
      have : x.num ≤ -1 := by omega
      exact_mod_cast this
    rw [hxn] at hn'
    linarith
  have c1 : ¬ (F64.fin x = F64.fin 0 ∨ F64.fin (10 : ℚ) = F64.fin 1) := by
    have : x ≠ 0 := ne_of_lt h2
    simp [this]
  have c2 : ¬ (F64.fin x = F64.fin 1) := by
    have : x ≠ 1 := by linarith
    simp [this]
  have c3 : ¬ ((10 : ℚ) = 0) := by norm_num
  have c4 : ¬ (x = 1 / 2) := by linarith
  have c5 : ¬ (x = -(1 / 2)) := by linarith
  have c6 : ¬ ((10 : ℚ) < 0) := by norm_num
  have c7 : (True ∧ x = -(4457212746485507 / 9007199254740992)) := ⟨trivial, hx.symm⟩
  unfold Libm.Pow
  rw [if_neg c1, if_neg c2]
  simp only [Libm.powCases, c3, c4, c5, hden, c6, if_false, roundedLibm]
  rw [if_pos c7]

theorem rounded_pow_first :
    roundedLibm.Pow (F64.fin 10) (binExponent roundedLibm 16 (F64.fin 1920) (F64.fin 6000) 0)
      = F64.fin (2882303761517117 / 9007199254740992) := by
  rw [binExponent_first roundedLibm 16 (by norm_num) 1920 6000 (by norm_num) (by norm_num),
    rounded_pow]

/-- Counterexample to C22 as stated: `Recalculate(16, 1920, 6000)` at 48000 Hz with 800
samples, with a library accurate to one unit in the last place.  The frequency of the
bin 0 is `6000 * 0.31999999999999995`, just below `lo = 1920`, and `loCuts[0] = 15`,
where `floor(1920 / 24000 * 200) = 16`. -/
theorem Recalculate_first_frequency_counterexample :
    ∃ s', Recalculate roundedLibm wideEngine 16 (F64.fin 1920) (F64.fin 6000) = some (s', 16) ∧
      binFreq roundedLibm 16 (F64.fin 1920) (F64.fin 6000) 0
        = F64.fin (6000 * (2882303761517117 / 9007199254740992)) ∧
      (6000 * (2882303761517117 / 9007199254740992) : ℚ) < 1920 ∧
      sliceGet s'.loCuts 0 = some 15 ∧
      freqIndex wideEngine.sampleRate wideEngine.sampleSize (F64.fin 1920) = 16 := by
  have hm : min 16 wideEngine.maxBins = 16 := by simp [wideEngine]
  have hsr : wideEngine.sampleRate = F64.fin 48000 := rfl
  have hss : wideEngine.sampleSize = 800 := rfl
  have hf0 : binFreq roundedLibm 16 (F64.fin 1920) (F64.fin 6000) 0
      = F64.fin (6000 * (2882303761517117 / 9007199254740992)) := by
    rw [binFreq_eq_pow, rounded_pow_first]
    rfl
  obtain ⟨s', hs', hc⟩ := Recalculate_first_cut roundedLibm wideEngine 16 (F64.fin 1920)
    (F64.fin 6000) (by simp [wideEngine]) (by simp [wideEngine]) (by simp [wideEngine])
  rw [hm] at hs' hc
  obtain ⟨e1, _, _⟩ := freqIndex_fin 48000 (6000 * (2882303761517117 / 9007199254740992)) 800
    (by norm_num) (by norm_num) (by norm_num) (by norm_num) (by norm_num)
  obtain ⟨e2, _, _⟩ := freqIndex_fin 48000 1920 800
    (by norm_num) (by norm_num) (by norm_num) (by norm_num) (by norm_num)
  refine ⟨s', hs', hf0, by norm_num, ?_, ?_⟩
  · rw [hc, hf0, hsr, hss, e1]
    congr 1
    rw [Int.floor_eq_iff]
    constructor <;> norm_num
  · rw [hsr, hss, e2]
    rw [Int.floor_eq_iff]
    constructor <;> norm_num

/-- Witness of C22 (amended): the same scenario, where `f0 = 6000 * 0.31999999999999995`. -/
theorem Recalculate_frequencies_end_at_hi_witness :
    binExponent roundedLibm (min 16 wideEngine.maxBins) (F64.fin 1920) (F64.fin 6000)
      (min 16 wideEngine.maxBins) = F64.fin 0 ∧
    binFreq roundedLibm (min 16 wideEngine.maxBins) (F64.fin 1920) (F64.fin 6000)
      (min 16 wideEngine.maxBins) = F64.fin 6000 ∧
    F64.fin (6000 * (2882303761517117 / 9007199254740992))
      = F64.mul (F64.fin 6000) (roundedLibm.Pow (F64.fin 10)
        (binExponent roundedLibm (min 16 wideEngine.maxBins) (F64.fin 1920) (F64.fin 6000) 0)) ∧
    (∃ s' c, Recalculate roundedLibm wideEngine 16 (F64.fin 1920) (F64.fin 6000)
        = some (s', min 16 wideEngine.maxBins) ∧
      sliceGet s'.loCuts 0 = some c ∧
      c = freqIndex wideEngine.sampleRate wideEngine.sampleSize
        (F64.fin (6000 * (2882303761517117 / 9007199254740992))) ∧
      (6000 * (2882303761517117 / 9007199254740992) ≤ (1920 : ℚ) →
        c ≤ freqIndex wideEngine.sampleRate wideEngine.sampleSize (F64.fin 1920)) ∧
      ((1920 : ℚ) ≤ 6000 * (2882303761517117 / 9007199254740992) →
        freqIndex wideEngine.sampleRate wideEngine.sampleSize (F64.fin 1920) ≤ c)) ∧
    (roundedLibm.log10 (1920 / 6000) ≤ 0 →
      (∀ x y : ℚ, x ≤ y → y ≤ 0 →
        F64.le (roundedLibm.Pow (F64.fin 10) (F64.fin x))
          (roundedLibm.Pow (F64.fin 10) (F64.fin y)) = true) →
      ∀ b b', 0 ≤ b → b ≤ b' → b' ≤ min 16 wideEngine.maxBins →
        F64.le (binFreq roundedLibm (min 16 wideEngine.maxBins) (F64.fin 1920) (F64.fin 6000) b)
          (binFreq roundedLibm (min 16 wideEngine.maxBins) (F64.fin 1920) (F64.fin 6000) b')
          = true) :=
  Recalculate_frequencies_end_at_hi roundedLibm wideEngine 16 1920 6000 48000
    (6000 * (2882303761517117 / 9007199254740992))
    (by simp [wideEngine]) (by simp [wideEngine]) (by simp [wideEngine])
    (by norm_num) (by norm_num) rfl (by norm_num)
    (by simp [wideEngine, smallEngine]) (by simp [wideEngine, smallEngine]) (by norm_num)
    (by
      have hm : min 16 wideEngine.maxBins = 16 := by simp [wideEngine]
      rw [hm, binFreq_eq_pow, rounded_pow_first]
      rfl)
    (by norm_num) (by norm_num)


end Tavis
